import Mathlib

/-!
# Alias pools of the dynamic tensor rematerialisation runtime

A shallow embedding of `c10/core/dtb/AliasPool.cpp` (methods of `AliasPool`) and of
the `decheckpoint` entry point of `aten/src/ATen/CheckpointTensorImpl.cpp`.

Objects that the C++ code reaches through pointers live in a `World`: alias pools,
tensor cells (the targets of the weak references held by a pool) and the nodes of the
ECN cost store are addressed by natural numbers.  Calls into collaborators whose code
is not part of the sources (the pool manager, the cell's own `evict`) are recorded in
an event log.  A method that dereferences a null `head_remat` or indexes a vector out
of bounds yields a `Fault`.
-/

namespace DTB

/-! ## Data model -/

/-- Preprocessor switches that select code in `AliasPool.cpp`.  Their definitions are
in headers outside the sources, so every build is covered by a parameter. -/
structure BuildFlags where
  ORIGINAL_DTR : Bool
  MULTI_MODE : Bool
  DEPENDENCY_CHECK : Bool
deriving DecidableEq, Repr

/-- The ways a method can fail to return. -/
inductive Fault where
  | null_deref
  | out_of_bounds
  | out_of_fuel
  | check_failed
deriving DecidableEq, Repr

/-- The class `CheckpointInfo`: the payload of a cost node, built from a compute cost
(`CheckpointInfo(l.compute_cost + r.compute_cost)`). -/
structure CheckpointInfo where
  compute_cost : Int
deriving DecidableEq, Repr

/-- The class `Rematerializer`: the recompute descriptor; only its `compute_cost` is read by
the pool. -/
structure Rematerializer where
  compute_cost : Int
deriving DecidableEq, Repr

/-- The function `merge_cpi` (AliasPool.cpp, lines 50-53). -/
def merge_cpi (l r : CheckpointInfo) : CheckpointInfo :=
  CheckpointInfo.mk (l.compute_cost + r.compute_cost)

/-- The method `Rematerializer::get_cpi`.
Modelled from the spec: the method is declared outside the sources; the spec's
"head descriptor's cost" is the descriptor's `compute_cost`. -/
def Rematerializer.get_cpi (r : Rematerializer) : CheckpointInfo :=
  CheckpointInfo.mk r.compute_cost

/-- Modelled from the spec: the ECN cost store (`EquivalentClassNode`, `merge`, `get_t`,
`update_t`, `get_ecn` live in headers outside the sources).  Spec section 3: "a
union-mergeable record holding an accumulated recomputation-cost estimate"; section 9:
"a union-find with payload".  Node `i` is allocated when `i < next`; `parent i` is the
next node on the union chain (`none` for a representative) and `info i` the payload
stored in node `i`, which is current only for a representative. -/
structure EcnHeap where
  parent : Nat → Option Nat
  info : Nat → CheckpointInfo
  next : Nat

/-- Modelled from the spec: following the union chain from node `n` for at most `fuel`
links. -/
def find_root_aux (h : EcnHeap) : Nat → Nat → Nat
  | 0, n => n
  | fuel + 1, n =>
    match h.parent n with
    | none => n
    | some p => find_root_aux h fuel p

/-- Modelled from the spec: the representative of node `n`, "following the union
chain".  A chain of an acyclic store with `next` nodes has fewer than `next` links.
Path compression, which changes no representative and no cost, is not modelled. -/
def find_root (h : EcnHeap) (n : Nat) : Nat :=
  find_root_aux h h.next n

/-- Modelled from the spec: `get(node)` reads "the representative's current cost". -/
def get_t (h : EcnHeap) (n : Nat) : CheckpointInfo :=
  h.info (find_root h n)

/-- Modelled from the spec: `update(node, cost)` writes "the representative's current
cost". -/
def update_t (h : EcnHeap) (n : Nat) (t : CheckpointInfo) : EcnHeap :=
  { h with info := fun i => if i = find_root h n then t else h.info i }

/-- Modelled from the spec: `merge(a, b)` "unions two nodes, summing their cost and
producing one representative".  The representative of `lhs` is linked below the
representative of `rhs`, which receives the merged payload; two nodes that already
share a representative are left as they are. -/
def merge (merge_t : CheckpointInfo → CheckpointInfo → CheckpointInfo)
    (h : EcnHeap) (lhs rhs : Nat) : EcnHeap :=
  let l := find_root h lhs
  let r := find_root h rhs
  if l = r then h
  else
    { parent := fun i => if i = l then some r else h.parent i
      info := fun i => if i = r then merge_t (h.info l) (h.info r) else h.info i
      next := h.next }

/-- The method `Rematerializer::get_ecn`.
Modelled from the spec: "computes a fresh cost node from the head descriptor's cost";
the new node is a representative of its own class. -/
def Rematerializer.get_ecn (r : Rematerializer) (h : EcnHeap) : Nat × EcnHeap :=
  (h.next,
    { parent := fun i => if i = h.next then none else h.parent i
      info := fun i => if i = h.next then CheckpointInfo.mk r.compute_cost else h.info i
      next := h.next + 1 })

/-- The fields of `AliasPool` used by `AliasPool.cpp` and `decheckpoint`.  `tensors`
and `neighbors` hold weak references to tensor cells, `ecn` a pointer into the cost
store.
Modelled from the spec: the counters are declared outside the sources; spec section 3
gives them as `int ≥ 0`, so they are integers and `--x` is `x - 1`. -/
structure AliasPool where
  tensors : List Nat
  neighbors : List Nat
  head_remat : Option Rematerializer
  lock_count : Int
  external_count : Int
  remat_count : Int
  retain_count : Int
  is_retain : Bool
  if_weight : Bool
  ecn : Option Nat
  is_evicted : Bool
  memory : Nat
  addr : Nat
  device_id : Int
  last_used_time : Int
deriving DecidableEq, Repr

/-- The part of `CheckpointTensorCell` seen from a pool: the pool that owns the cell
and whether its tensor is materialised. -/
structure CheckpointTensorCell where
  pool : Nat
  defined : Bool
deriving DecidableEq, Repr

/-- Calls that leave `AliasPool.cpp`. -/
inductive Event where
  /-- The call `STATS.track("AliasPool::evict")` on entry to `evict`, with receiver and mode. -/
  | evict_enter (pool : Nat) (mode : Int)
  /-- The call `cell->evict()`. -/
  | cell_evict (cell : Nat)
  /-- The call `getDTBPoolManager()->erase_ap(device_id, addr)`. -/
  | erase_ap (device_id : Int) (addr : Nat)
  /-- The call `getDTBPoolManager()->add_ap(device_id, self)`. -/
  | add_ap (device_id : Int) (pool : Nat)
  /-- The call `pool.add(self)`. -/
  | pool_add (pool : Nat)
deriving DecidableEq, Repr

/-- The heap of objects the methods act on.  `cells c` is the result of locking a
weak reference to cell `c` (`none` when the cell is gone). -/
structure World where
  heap : EcnHeap
  pools : Nat → AliasPool
  cells : Nat → Option CheckpointTensorCell
  events : List Event
  during_backward : Bool

/-- Store `p` as the state of pool `pid`. -/
def set_pool (w : World) (pid : Nat) (p : AliasPool) : World :=
  { w with pools := fun i => if i = pid then p else w.pools i }

/-- Append one event to the log. -/
def emit (w : World) (ev : Event) : World :=
  { w with events := w.events ++ [ev] }

/-! ## `AliasPool::neighbor_ecn` -/

/-- The operation `std::set<ecn_ptr>::insert`: the set is kept as a strictly increasing list. -/
def ptr_set_insert (e : Nat) (s : List Nat) : List Nat :=
  if e ∈ s then s else List.orderedInsert (fun a b => a ≤ b) e s

/-- The `for` loop of `neighbor_ecn` (lines 208-218) on the local state
`(neighbors, i, size, ptr_set)`; every vector access is bounds-checked. -/
def neighbor_ecn_loop (w : World) :
    Nat → List Nat → Nat → Nat → List Nat → Except Fault (List Nat × Nat × List Nat)
  | 0, nb, i, size, ptr_set =>
    if i < size then Except.error Fault.out_of_fuel else Except.ok (nb, size, ptr_set)
  | fuel + 1, nb, i, size, ptr_set =>
    if i < size then
      match nb[i]? with
      | none => Except.error Fault.out_of_bounds
      | some ref =>
        match w.cells ref with
        | some cptc =>
          match (w.pools cptc.pool).ecn with
          | some e => neighbor_ecn_loop w fuel nb (i + 1) size (ptr_set_insert e ptr_set)
          | none => neighbor_ecn_loop w fuel nb (i + 1) size ptr_set
        | none =>
          match nb[size - 1]? with
          | none => Except.error Fault.out_of_bounds
          | some last => neighbor_ecn_loop w fuel (nb.set i last) i (size - 1) ptr_set
    else Except.ok (nb, size, ptr_set)

/-- The method `AliasPool::neighbor_ecn` (lines 204-223).  The closing `erase` takes a single
iterator, so it removes the one element at position `size`. -/
def AliasPool.neighbor_ecn (pid : Nat) (w : World) : Except Fault (List Nat × World) :=
  let self := w.pools pid
  match neighbor_ecn_loop w self.neighbors.length self.neighbors 0
      self.neighbors.length [] with
  | Except.error f => Except.error f
  | Except.ok (nb, size, ptr_set) =>
    if size < nb.length then
      Except.ok (ptr_set, set_pool w pid { self with neighbors := nb.eraseIdx size })
    else
      Except.ok (ptr_set, set_pool w pid { self with neighbors := nb })

/-! ## `AliasPool::evict` -/

/-- The call `cell->evict()` on one locked cell.
Modelled from the spec: "clearing their materialized bytes"; the call is logged. -/
def cell_evict (c : Nat) (cell : CheckpointTensorCell) (w : World) : World :=
  emit { w with cells := fun i => if i = c then some { cell with defined := false }
                                  else w.cells i } (Event.cell_evict c)

/-- The loop over `tensors` in `evict` (lines 69-85). -/
def evict_cells (tensors : List Nat) (w : World) : World :=
  tensors.foldl (fun w c =>
    match w.cells c with
    | some cell => cell_evict c cell w
    | none => w) w

/-- Lines 59-63 of `evict`: create the pool's cost node and merge the neighbours'
nodes into it. -/
def evict_ecn (pid : Nat) (w : World) : Except Fault World :=
  match (w.pools pid).head_remat with
  | none => Except.error Fault.null_deref
  | some head =>
    let fresh := head.get_ecn w.heap
    let w1 := set_pool { w with heap := fresh.2 } pid { w.pools pid with ecn := some fresh.1 }
    match AliasPool.neighbor_ecn pid w1 with
    | Except.error f => Except.error f
    | Except.ok (ecns, w2) =>
      Except.ok { w2 with heap := ecns.foldl (fun h necn => merge merge_cpi h fresh.1 necn) w2.heap }

/-- The method `AliasPool::evict` (lines 55-90).  `TORCH_CHECK` is redefined on line 5 to expand
to nothing, so the four checks contribute no code. -/
def AliasPool.evict (pid : Nat) (mode : Int) (w : World) : Except Fault World :=
  let w0 := emit w (Event.evict_enter pid mode)
  match (if mode ≠ 2 then evict_ecn pid w0 else Except.ok w0) with
  | Except.error f => Except.error f
  | Except.ok w3 =>
    let w4 := set_pool w3 pid { w3.pools pid with is_evicted := true }
    let w5 := evict_cells (w4.pools pid).tensors w4
    if mode = 1 then
      Except.ok (emit w5 (Event.erase_ap (w5.pools pid).device_id (w5.pools pid).addr))
    else Except.ok w5

/-- The method `AliasPool::release_resources` (lines 41-48). -/
def AliasPool.release_resources (pid : Nat) (w : World) : Except Fault World :=
  match (if (w.pools pid).is_evicted = false then AliasPool.evict pid 2 w
         else Except.ok w) with
  | Except.error f => Except.error f
  | Except.ok w1 =>
    Except.ok (set_pool w1 pid
      { w1.pools pid with tensors := [], neighbors := [], head_remat := none })

/-! ## `AliasPool::unlock` and `AliasPool::release_external` -/

/-- The method `AliasPool::unlock_remated`.
Modelled from the spec: the method is declared outside the sources; it is the
decrement of the pending-rematerialisation counter. -/
def AliasPool.unlock_remated (pid : Nat) (w : World) : World :=
  set_pool w pid { w.pools pid with remat_count := (w.pools pid).remat_count - 1 }

/-- The guard `memory > 0 && (!ecn) && head_remat` shared by the automatic paths. -/
def can_evict_now (p : AliasPool) : Prop :=
  p.memory > 0 ∧ p.ecn = none ∧ p.head_remat.isSome = true

instance (p : AliasPool) : Decidable (can_evict_now p) :=
  inferInstanceAs (Decidable (p.memory > 0 ∧ p.ecn = none ∧ p.head_remat.isSome = true))

/-- Lines 97-112 of `unlock`: the branch taken while rematerialisations are pending. -/
def unlock_remat_branch (pid : Nat) (w1 : World) : Except Fault World :=
  if (w1.pools pid).remat_count > 0 then
    let w2 := AliasPool.unlock_remated pid w1
    if (w2.pools pid).remat_count = 0 ∧ (w2.pools pid).external_count = 0 ∧
        (w2.pools pid).lock_count = 0 ∧ (w2.pools pid).retain_count = 0 then
      if can_evict_now (w2.pools pid) then AliasPool.evict pid 1 w2 else Except.ok w2
    else Except.ok w2
  else Except.ok w1

/-- Lines 119-125 of `unlock`: the additional check made during the backward pass. -/
def unlock_backward_branch (pid : Nat) (w3 : World) : Except Fault World :=
  if w3.during_backward = true then
    if (w3.pools pid).remat_count = 0 ∧ (w3.pools pid).external_count = 0 ∧
        (w3.pools pid).lock_count = 0 then
      if can_evict_now (w3.pools pid) then AliasPool.evict pid 1 w3 else Except.ok w3
    else Except.ok w3
  else Except.ok w3

/-- The method `AliasPool::unlock` (lines 92-127); with `ORIGINAL_DTR` defined only the
decrement of `lock_count` is compiled. -/
def AliasPool.unlock (fl : BuildFlags) (pid : Nat) (w : World) : Except Fault World :=
  let w1 := set_pool w pid { w.pools pid with lock_count := (w.pools pid).lock_count - 1 }
  if fl.ORIGINAL_DTR = true then Except.ok w1
  else
    match unlock_remat_branch pid w1 with
    | Except.error f => Except.error f
    | Except.ok w3 => unlock_backward_branch pid w3

/-- The method `AliasPool::release_external` (lines 129-149). -/
def AliasPool.release_external (pid : Nat) (w : World) : Except Fault World :=
  let w1 := set_pool w pid
    { w.pools pid with external_count := (w.pools pid).external_count - 1 }
  if (w1.pools pid).external_count = 0 then
    if (w1.pools pid).if_weight = true then Except.ok w1
    else if (w1.pools pid).lock_count > 0 then Except.ok w1
    else if can_evict_now (w1.pools pid) then AliasPool.evict pid 1 w1
    else Except.ok w1
  else Except.ok w1

/-! ## `AliasPool::cost` and `AliasPool::set_not_evicted` -/

/-- The method `AliasPool::cost` (lines 175-202).  `cpi_cost` is `CheckpointInfo::cost` and
`get_dependency` the value of `get_dependency()`, both declared outside the sources. -/
def AliasPool.cost {α : Type} (fl : BuildFlags) (cpi_cost : CheckpointInfo → Nat → Int → α)
    (get_dependency : Int) (pid : Nat) (current_time : Int) (w : World) :
    Except Fault (α × World) :=
  match (w.pools pid).head_remat with
  | none => Except.error Fault.null_deref
  | some head =>
    match AliasPool.neighbor_ecn pid w with
    | Except.error f => Except.error f
    | Except.ok (ecns, w1) =>
      let cpi := ecns.foldl (fun cpi necn => merge_cpi cpi (get_t w1.heap necn)) head.get_cpi
      let elapsed := current_time - (w1.pools pid).last_used_time
      if fl.DEPENDENCY_CHECK = true then
        Except.ok (cpi_cost cpi (w1.pools pid).memory (elapsed * (1 + get_dependency * 100)), w1)
      else
        Except.ok (cpi_cost cpi (w1.pools pid).memory elapsed, w1)

/-- The method `AliasPool::set_not_evicted` (lines 225-243); `self` is the pool itself. -/
def AliasPool.set_not_evicted (fl : BuildFlags) (pid : Nat) (w : World) : Except Fault World :=
  if (w.pools pid).is_evicted = true then
    let w1 := set_pool w pid { w.pools pid with is_evicted := false }
    let cleared : Except Fault World :=
      match (w1.pools pid).ecn with
      | some e =>
        match (w1.pools pid).head_remat with
        | none => Except.error Fault.null_deref
        | some head =>
          let cpi := get_t w1.heap e
          let heap2 := update_t w1.heap e (CheckpointInfo.mk (cpi.compute_cost - head.compute_cost))
          Except.ok (set_pool { w1 with heap := heap2 } pid { w1.pools pid with ecn := none })
      | none => Except.ok w1
    match cleared with
    | Except.error f => Except.error f
    | Except.ok w2 =>
      if fl.MULTI_MODE = true then
        Except.ok (emit w2 (Event.add_ap (w2.pools pid).device_id pid))
      else Except.ok (emit w2 (Event.pool_add pid))
  else Except.ok w


/-! ## `decheckpoint` -/

/-- A tensor handle as seen by `decheckpoint`: the `dynamic_cast` to
`CheckpointTensorImpl` succeeds on `checkpoint c` (the implementation wrapping cell `c`)
and yields null on a `raw` tensor. -/
inductive Tensor where
  | checkpoint (cell : Nat)
  | raw (id : Nat)
deriving DecidableEq, Repr

/-- The function `decheckpoint` (CheckpointTensorImpl.cpp, lines 211-222).  `cell_get` is
`CheckpointTensorCell::get` and `detach` is `Tensor::detach`, both outside the
sources; a handle whose cell is gone faults on the dereference. -/
def decheckpoint (cell_get : Nat → World → Except Fault (Nat × World)) (detach : Nat → Nat)
    (t : Tensor) (if_comm : Bool) (w : World) : Except Fault (Tensor × World) :=
  match t with
  | Tensor.checkpoint c =>
    match w.cells c with
    | none => Except.error Fault.null_deref
    | some cell =>
      let w1 := if if_comm = true then
          set_pool w cell.pool { w.pools cell.pool with is_retain := true }
        else w
      match cell_get c w1 with
      | Except.error f => Except.error f
      | Except.ok (res, w2) => Except.ok (Tensor.raw (detach res), w2)
  | Tensor.raw id => Except.ok (Tensor.raw id, w)

/-- Modelled from the spec: `get()` on a materialised cell (section 4.1, "returns
materialized bytes"); the raw tensor of cell `c` is named `c`. -/
def resident_get (c : Nat) (w : World) : Except Fault (Nat × World) :=
  Except.ok (c, w)

/-! ## Specification vocabulary -/

/-- The cost node reached through neighbour reference `ref`: lock the weak reference,
then read the owning pool's `ecn` (lines 209-211). -/
def neighbor_node (w : World) (ref : Nat) : Option Nat :=
  match w.cells ref with
  | some cptc => (w.pools cptc.pool).ecn
  | none => none

/-- The cost nodes reached through the neighbour references of pool `pid`, one entry
per live reference whose pool has a cost node. -/
def neighbor_nodes (w : World) (pid : Nat) : List Nat :=
  (w.pools pid).neighbors.filterMap (neighbor_node w)

/-- The effect of `cell->evict()` on the cell record. -/
def CheckpointTensorCell.evicted (cell : CheckpointTensorCell) : CheckpointTensorCell :=
  { cell with defined := false }

/-- The member references of a pool whose cell is still alive, in list order. -/
def live_tensors (w : World) (pid : Nat) : List Nat :=
  (w.pools pid).tensors.filter (fun c => (w.cells c).isSome)

/-- The number of `cell->evict()` calls on cell `c` recorded in a list of events. -/
def cell_evict_calls (c : Nat) (evs : List Event) : Nat :=
  evs.count (Event.cell_evict c)

/-- The events logged between state `w` and a later state `w2`. -/
def new_events (w w2 : World) : List Event :=
  w2.events.drop w.events.length

/-- Pool `pid` was evicted in mode `mode` between `w` and `w2`: `evict(mode)` was
entered on it. -/
def evicted_in (pid : Nat) (mode : Int) (w w2 : World) : Prop :=
  Event.evict_enter pid mode ∈ new_events w w2

/-- The pool record after the decrements of `unlock`: `--lock_count`, and
`unlock_remated()` when the rematerialisation branch is compiled in and taken. -/
def unlock_dec (fl : BuildFlags) (p : AliasPool) : AliasPool :=
  { p with
    lock_count := p.lock_count - 1
    remat_count := if fl.ORIGINAL_DTR = false ∧ p.remat_count > 0 then p.remat_count - 1
                   else p.remat_count }

/-- The pool record after the decrement of `release_external`. -/
def release_dec (p : AliasPool) : AliasPool :=
  { p with external_count := p.external_count - 1 }

/-- The condition under which `unlock` reaches one of its two calls of `evict(1)`
(lines 105-107 and 119-122), read on the pool record before the call. -/
def unlock_triggers (fl : BuildFlags) (p : AliasPool) (during_backward : Bool) : Prop :=
  fl.ORIGINAL_DTR = false ∧
  ((p.remat_count > 0 ∧ p.remat_count - 1 = 0 ∧ p.external_count = 0 ∧
      p.lock_count - 1 = 0 ∧ p.retain_count = 0) ∨
    (during_backward = true ∧ (unlock_dec fl p).remat_count = 0 ∧ p.external_count = 0 ∧
      p.lock_count - 1 = 0)) ∧
  can_evict_now p

/-- The condition under which `release_external` reaches its call of `evict(1)`
(lines 131-143), read on the pool record before the call. -/
def release_triggers (p : AliasPool) : Prop :=
  p.external_count - 1 = 0 ∧ p.if_weight = false ∧ ¬ p.lock_count > 0 ∧ can_evict_now p

/-- Pool `pid` with its `is_retain` flag overwritten by `b`, everything else as in `w`. -/
def with_is_retain (w : World) (pid : Nat) (b : Bool) : World :=
  set_pool w pid { w.pools pid with is_retain := b }

/-- A well-formed cost store: every link joins two allocated nodes, and the union
chains are acyclic (some rank strictly increases along every link). -/
def EcnHeap.wf (h : EcnHeap) : Prop :=
  (∀ i p, h.parent i = some p → i < h.next ∧ p < h.next) ∧
  ∃ rank : Nat → Nat, ∀ i p, h.parent i = some p → rank i < rank p

/-- Every cost-node pointer held by a pool points to an allocated node. -/
def ecn_pointers_valid (w : World) : Prop :=
  ∀ q n, (w.pools q).ecn = some n → n < w.heap.next

/-- The representatives of the distinct cost classes of the live neighbours of `pid`. -/
def neighbor_classes (w : World) (pid : Nat) : List Nat :=
  ((neighbor_nodes w pid).map (find_root w.heap)).dedup

/-- The sum of the costs held by the distinct cost classes of the live neighbours. -/
def neighbor_class_cost (w : World) (pid : Nat) : Int :=
  ((neighbor_classes w pid).map (fun i => (w.heap.info i).compute_cost)).sum

/-- The total compute cost scored by `cost`: the head cost plus the current cost, read
through its representative, of each distinct cost node of a live neighbour. -/
def cost_total (w : World) (pid : Nat) (r : Rematerializer) : Int :=
  r.compute_cost +
    ((neighbor_nodes w pid).dedup.map (fun n => (get_t w.heap n).compute_cost)).sum

/-- The total compute cost as the specification words it: the head cost plus one term
for each live neighbour that has a cost node. -/
def cost_total_per_neighbor (w : World) (pid : Nat) (r : Rematerializer) : Int :=
  r.compute_cost +
    ((neighbor_nodes w pid).map (fun n => (get_t w.heap n).compute_cost)).sum

/-- The elapsed time handed to the scoring function by `cost` (lines 187-192). -/
def cost_staleness (fl : BuildFlags) (get_dependency : Int) (current_time : Int)
    (p : AliasPool) : Int :=
  if fl.DEPENDENCY_CHECK = true then
    (current_time - p.last_used_time) * (1 + get_dependency * 100)
  else current_time - p.last_used_time

/-! ## Sample states -/

/-- A cost store without nodes. -/
def empty_heap : EcnHeap :=
  { parent := fun _ => none, info := fun _ => CheckpointInfo.mk 0, next := 0 }

/-- A resident, unlocked pool of 4 bytes with head cost 5 and members 0 and 1. -/
def sample_pool : AliasPool :=
  { tensors := [0, 1], neighbors := [], head_remat := some (Rematerializer.mk 5),
    lock_count := 0, external_count := 0, remat_count := 0, retain_count := 0,
    is_retain := false, if_weight := false, ecn := none, is_evicted := false,
    memory := 4, addr := 64, device_id := 0, last_used_time := 0 }

/-- A pool record without members, neighbours, head descriptor or memory. -/
def blank_pool : AliasPool :=
  { tensors := [], neighbors := [], head_remat := none,
    lock_count := 0, external_count := 0, remat_count := 0, retain_count := 0,
    is_retain := false, if_weight := false, ecn := none, is_evicted := false,
    memory := 0, addr := 0, device_id := 0, last_used_time := 0 }

/-- A world in which pool 0 is `p` and every other pool is blank; cell 0 is alive in
pool 0 and every other cell is gone. -/
def sample_world (p : AliasPool) (during_backward : Bool) : World :=
  { heap := empty_heap, pools := fun q => if q = 0 then p else blank_pool,
    cells := fun c => if c = 0 then some (CheckpointTensorCell.mk 0 true) else none,
    events := [], during_backward := during_backward }

/-- The sample world with one external holder of pool 0 left. -/
def held_world : World :=
  sample_world { sample_pool with external_count := 1 } false

/-- A store with three nodes: node 0 is linked below node 1, which holds cost 7; node 2
is alone in its class and holds cost 3. -/
def chain_heap : EcnHeap :=
  { parent := fun i => if i = 0 then some 1 else none,
    info := fun i => if i = 1 then CheckpointInfo.mk 7
                     else if i = 2 then CheckpointInfo.mk 3 else CheckpointInfo.mk 0,
    next := 3 }

/-- A world over `chain_heap`.  Pool 0 is resident with head cost 5, member cell 4 and
neighbour references 0, 1, 2, 3; cells 0, 1, 2 are alive in the evicted pools 1, 2, 3,
which hold the cost nodes 0, 1, 2; cell 3 is gone. -/
def chain_world : World :=
  { heap := chain_heap,
    pools := fun q =>
      if q = 0 then { sample_pool with tensors := [4], neighbors := [0, 1, 2, 3] }
      else if q = 1 then { sample_pool with tensors := [0], ecn := some 0, is_evicted := true }
      else if q = 2 then { sample_pool with tensors := [1], ecn := some 1, is_evicted := true }
      else if q = 3 then { sample_pool with tensors := [2], ecn := some 2, is_evicted := true }
      else blank_pool,
    cells := fun c =>
      if c = 0 then some (CheckpointTensorCell.mk 1 false)
      else if c = 1 then some (CheckpointTensorCell.mk 2 false)
      else if c = 2 then some (CheckpointTensorCell.mk 3 false)
      else if c = 4 then some (CheckpointTensorCell.mk 0 true)
      else none,
    events := [], during_backward := false }

/-- A world in which pool 0 (head cost 5, last used at time 2) has two live neighbour
references, cells 0 and 1, that both belong to the evicted pool 1, whose cost node 0
holds cost 7. -/
def shared_world : World :=
  { heap := { parent := fun _ => none,
              info := fun i => if i = 0 then CheckpointInfo.mk 7 else CheckpointInfo.mk 0,
              next := 1 },
    pools := fun q =>
      if q = 0 then
        { sample_pool with tensors := [2], neighbors := [0, 1], last_used_time := 2 }
      else if q = 1 then
        { sample_pool with tensors := [0, 1], ecn := some 0, is_evicted := true }
      else blank_pool,
    cells := fun c =>
      if c = 0 then some (CheckpointTensorCell.mk 1 false)
      else if c = 1 then some (CheckpointTensorCell.mk 1 false)
      else if c = 2 then some (CheckpointTensorCell.mk 0 true)
      else none,
    events := [], during_backward := false }

/-- The sample world with three neighbour references of pool 0: cell 0 is alive, cells
1 and 2 are gone. -/
def stale_world : World :=
  sample_world { sample_pool with neighbors := [0, 1, 2] } false

/-- The world `chain_world` with four neighbour references of pool 0: cells 0 and 1 are
alive, cells 3 and 5 are gone. -/
def moved_world : World :=
  set_pool chain_world 0 { chain_world.pools 0 with neighbors := [0, 3, 5, 1] }

/-- A store with three nodes, each alone in its class, holding the costs 2, 3 and 4. -/
def three_heap : EcnHeap :=
  { parent := fun _ => none,
    info := fun i => if i = 0 then CheckpointInfo.mk 2
                     else if i = 1 then CheckpointInfo.mk 3 else CheckpointInfo.mk 4,
    next := 3 }

/-- The state of a pool right after construction.
Modelled from the spec: the constructors (lines 17-39) initialise `head_remat`,
`memory`, `device_id`, `last_used_time`, `addr` and `if_weight`; the other members take
the default initialisers of a declaration outside the sources.  A new pool is resident
and has no merged cost node (spec section 3, lifecycle of the Alias Pool). -/
def freshly_constructed (p : AliasPool) : Prop :=
  p.is_evicted = false ∧ p.ecn = none

/-- The worlds reachable from freshly constructed pools through `evict` in soft or
destruct mode with its preconditions satisfied, `set_not_evicted`, `unlock`,
`release_external` and `release_resources`, each on any pool and when it returns.
`other` covers every operation that writes none of `is_evicted`, `ecn` and `head_remat`
(`lock()`, the registration of an external holder, `decheckpoint`, the backward flag). -/
inductive Reachable (fl : BuildFlags) : World → Prop where
  | fresh (w : World) : (∀ q, freshly_constructed (w.pools q)) → Reachable fl w
  | evict (w w2 : World) (pid : Nat) (mode : Int) : Reachable fl w →
      (mode = 0 ∨ mode = 1) → (w.pools pid).ecn = none → (w.pools pid).memory > 0 →
      (w.pools pid).lock_count = 0 → (w.pools pid).is_evicted = false →
      AliasPool.evict pid mode w = Except.ok w2 → Reachable fl w2
  | set_not_evicted (w w2 : World) (pid : Nat) : Reachable fl w →
      AliasPool.set_not_evicted fl pid w = Except.ok w2 → Reachable fl w2
  | unlock (w w2 : World) (pid : Nat) : Reachable fl w →
      AliasPool.unlock fl pid w = Except.ok w2 → Reachable fl w2
  | release_external (w w2 : World) (pid : Nat) : Reachable fl w →
      AliasPool.release_external pid w = Except.ok w2 → Reachable fl w2
  | release_resources (w w2 : World) (pid : Nat) : Reachable fl w →
      AliasPool.release_resources pid w = Except.ok w2 → Reachable fl w2
  | other (w w2 : World) : Reachable fl w →
      (∀ q, (w2.pools q).is_evicted = (w.pools q).is_evicted ∧
        (w2.pools q).ecn = (w.pools q).ecn ∧
        (w2.pools q).head_remat = (w.pools q).head_remat) → Reachable fl w2

/-- The invariant of the reachable pools: an evicted pool holds a merged cost node or
has no head descriptor. -/
def evicted_is_settled (p : AliasPool) : Prop :=
  p.is_evicted = true → p.ecn ≠ none ∨ p.head_remat = none

/-- A call of one of the two automatic paths. -/
inductive AutoCall where
  | unlock
  | release_external
deriving DecidableEq, Repr

/-- A sequence of calls of `unlock()` and `release_external()` on pool `pid`. -/
def run_auto (fl : BuildFlags) (pid : Nat) : List AutoCall → World → Except Fault World
  | [], w => Except.ok w
  | AutoCall.unlock :: cs, w =>
    match AliasPool.unlock fl pid w with
    | Except.error f => Except.error f
    | Except.ok w1 => run_auto fl pid cs w1
  | AutoCall.release_external :: cs, w =>
    match AliasPool.release_external pid w with
    | Except.error f => Except.error f
    | Except.ok w1 => run_auto fl pid cs w1

/-- The total compute cost with every cost class of the live neighbours counted a single
time: the head cost plus the accumulated cost of each distinct class. -/
def cost_total_per_class (w : World) (pid : Nat) (r : Rematerializer) : Int :=
  r.compute_cost + neighbor_class_cost w pid

/-- The number of distinct cost nodes of live neighbours of `pid` whose representative
is `c`. -/
def class_nodes (w : World) (pid : Nat) (c : Nat) : Nat :=
  ((neighbor_nodes w pid).dedup.filter (fun n => find_root w.heap n = c)).length

/-! ## Rematerialisation -/

/-- The part of the Recompute Descriptor read by `get()`.
Modelled from the spec: section 3 gives the descriptor the attributes `inputs` (an
ordered sequence of Value Cell references) and `operation`; the class is declared
outside the sources.  The operation is a function of the bytes of its inputs, which is
what a deterministic operation is. -/
structure RecomputeDescriptor where
  inputs : List Nat
  operation : List Nat → Nat

/-- The world together with the byte side of the Value Cells.
Modelled from the spec: section 3 gives each Value Cell a `bytes_handle` (absent while
the cell is evicted) and an optional `recompute` descriptor; `bytes c` and `recompute c`
are those of cell `c`, and a bit pattern is a natural number. -/
structure Runtime where
  world : World
  bytes : Nat → Option Nat
  recompute : Nat → Option RecomputeDescriptor

/-- The method `AliasPool::evict` with its effect on the bytes.
Modelled from the spec: `cell->evict()`, called on every live member (lines 69-85),
"clears bytes" (section 3); the method of the cell is declared outside the sources. -/
def Runtime.evict (pid : Nat) (mode : Int) (rt : Runtime) : Except Fault Runtime :=
  match AliasPool.evict pid mode rt.world with
  | Except.error f => Except.error f
  | Except.ok w2 =>
    Except.ok { rt with
      world := w2
      bytes := fun c =>
        if c ∈ (rt.world.pools pid).tensors ∧ (rt.world.cells c).isSome = true then none
        else rt.bytes c }

/-- The forcing of `get()` on the inputs of a descriptor, in order. -/
def force_inputs (get : Nat → Runtime → Except Fault (Nat × Runtime)) :
    List Nat → Runtime → Except Fault (List Nat × Runtime)
  | [], rt => Except.ok ([], rt)
  | i :: rest, rt =>
    match get i rt with
    | Except.error f => Except.error f
    | Except.ok (v, rt1) =>
      match force_inputs get rest rt1 with
      | Except.error f => Except.error f
      | Except.ok (vs, rt2) => Except.ok (v :: vs, rt2)

/-- The method `CheckpointTensorCell::get`, with a bound on the depth of the recursion.
Modelled from the spec: section 4.1, "returns materialized bytes; if currently evicted,
invokes the owning Recompute Descriptor's `operation` after recursively forcing `get()`
on all descriptor inputs"; it "transitions the cell and its pool out of the evicted
state" (the pool through `set_not_evicted`, section 4.2) and fails when the descriptor
is null.  The method is declared outside the sources; the profiling counters are not
modelled. -/
def CheckpointTensorCell.get (fl : BuildFlags) :
    Nat → Nat → Runtime → Except Fault (Nat × Runtime)
  | 0, _, _ => Except.error Fault.out_of_fuel
  | fuel + 1, c, rt =>
    match rt.world.cells c with
    | none => Except.error Fault.null_deref
    | some cell =>
      match rt.bytes c with
      | some b => Except.ok (b, rt)
      | none =>
        match rt.recompute c with
        | none => Except.error Fault.check_failed
        | some d =>
          match force_inputs (CheckpointTensorCell.get fl fuel) d.inputs rt with
          | Except.error f => Except.error f
          | Except.ok (vals, rt1) =>
            match AliasPool.set_not_evicted fl cell.pool rt1.world with
            | Except.error f => Except.error f
            | Except.ok w2 =>
              Except.ok (d.operation vals,
                { rt1 with
                  world := { w2 with
                    cells := fun i => if i = c then some { cell with defined := true }
                                      else w2.cells i }
                  bytes := fun i => if i = c then some (d.operation vals)
                                    else rt1.bytes i })

/-- The function `uncheckpoint` (CheckpointTensorImpl.cpp, lines 181-186): the check of
the `dynamic_cast` fails on a raw tensor, and on a checkpointed one the result is
`get()` of its cell.  `cell_get` is `CheckpointTensorCell::get`. -/
def uncheckpoint (cell_get : Nat → Runtime → Except Fault (Nat × Runtime)) (t : Tensor)
    (rt : Runtime) : Except Fault (Nat × Runtime) :=
  match t with
  | Tensor.checkpoint c => cell_get c rt
  | Tensor.raw _ => Except.error Fault.check_failed

/-- A runtime state whose bytes are recorded.  Every materialised cell holds the recorded
value `val` of the cell; replaying a descriptor on the recorded values of its inputs
gives the recorded value of its cell; the descriptors are acyclic (`rank` decreases
from a cell to its inputs) and their inputs are alive; an evicted live cell has a
descriptor (the invariant of the Value Cell in section 3); and a pool that holds a cost
node has a head descriptor. -/
structure Runtime.consistent (rt : Runtime) (val : Nat → Nat) (rank : Nat → Nat) : Prop where
  bytes_recorded : ∀ c b, rt.bytes c = some b → b = val c
  replay : ∀ c d, rt.recompute c = some d → d.operation (d.inputs.map val) = val c
  acyclic : ∀ c d, rt.recompute c = some d → ∀ i, i ∈ d.inputs → rank i < rank c
  inputs_alive : ∀ c d, rt.recompute c = some d → ∀ i, i ∈ d.inputs →
    (rt.world.cells i).isSome = true
  evicted_has_recipe : ∀ c, (rt.world.cells c).isSome = true → rt.bytes c = none →
    (rt.recompute c).isSome = true
  node_has_head : ∀ q, ((rt.world.pools q).ecn).isSome = true →
    ((rt.world.pools q).head_remat).isSome = true

/-- The state `rt2` comes from `rt` by rematerialisations: same descriptors, same live
cells in the same pools, and every byte of `rt` still present. -/
structure Runtime.refills (rt rt2 : Runtime) : Prop where
  recompute_eq : rt2.recompute = rt.recompute
  alive_eq : ∀ x, (rt2.world.cells x).isSome = (rt.world.cells x).isSome
  pool_eq : ∀ x, (rt2.world.cells x).map CheckpointTensorCell.pool =
    (rt.world.cells x).map CheckpointTensorCell.pool
  bytes_kept : ∀ x b, rt.bytes x = some b → rt2.bytes x = some b

/-- A runtime over `chain_world`: cell 4 holds the bytes 9 and is recomputed from cell 0
by adding 2; every other cell is evicted and recomputed, without inputs, as 7. -/
def chain_runtime : Runtime :=
  { world := chain_world,
    bytes := fun c => if c = 4 then some 9 else none,
    recompute := fun c =>
      if c = 4 then some (RecomputeDescriptor.mk [0] (fun vs => vs.sum + 2))
      else some (RecomputeDescriptor.mk [] (fun _ => 7)) }

/-- The recorded values of the cells of `chain_runtime`. -/
def chain_val (c : Nat) : Nat :=
  if c = 4 then 9 else 7

/-- The depth of the descriptors of `chain_runtime`. -/
def chain_rank (c : Nat) : Nat :=
  if c = 4 then 1 else 0

/-- The world reached from `held_world` by a soft eviction of pool 0: the pool is
evicted, holds cost node 0 and still has one external holder. -/
def evicted_held_world : World :=
  match AliasPool.evict 0 0 held_world with
  | Except.ok w => w
  | Except.error _ => held_world

/-! ## The loop of `neighbor_ecn` -/

theorem mem_ptr_set_insert (e x : Nat) (s : List Nat) :
    x ∈ ptr_set_insert e s ↔ x = e ∨ x ∈ s := by
  unfold ptr_set_insert
  split
  · constructor
    · intro h; exact Or.inr h
    · rintro (h | h)
      · subst h; assumption
      · exact h
  · simp [List.mem_orderedInsert]

theorem nodup_ptr_set_insert (e : Nat) (s : List Nat) (hs : s.Nodup) :
    (ptr_set_insert e s).Nodup := by
  unfold ptr_set_insert
  split
  · exact hs
  · rename_i hmem
    exact ((List.perm_orderedInsert (fun a b => a ≤ b) e s).nodup_iff).mpr
      (List.nodup_cons.mpr ⟨hmem, hs⟩)

/-- The loop of `neighbor_ecn` returns; it collects exactly the cost nodes reached
through the references at positions `i .. size - 1`. -/
theorem neighbor_ecn_loop_spec (w : World) :
    ∀ (fuel : Nat) (nb : List Nat) (i size : Nat) (s : List Nat),
      i ≤ size → size ≤ nb.length → size - i ≤ fuel →
      ∃ nb2 size2 s2, neighbor_ecn_loop w fuel nb i size s = Except.ok (nb2, size2, s2) ∧
        nb2.length = nb.length ∧ size2 ≤ size ∧
        (s.Nodup → s2.Nodup) ∧
        (∀ e, e ∈ s2 ↔ e ∈ s ∨ ∃ j ref, i ≤ j ∧ j < size ∧ nb[j]? = some ref ∧
          neighbor_node w ref = some e) := by
  intro fuel
  induction fuel with
  | zero =>
    intro nb i size s hi hs hf
    have hnot : ¬ i < size := by omega
    refine ⟨nb, size, s, ?_, rfl, le_refl _, id, ?_⟩
    · simp [neighbor_ecn_loop, hnot]
    · intro e
      constructor
      · intro h; exact Or.inl h
      · rintro (h | ⟨j, ref, h1, h2, _⟩)
        · exact h
        · omega
  | succ fuel ih =>
    intro nb i size s hi hs hf
    by_cases hlt : i < size
    · have hil : i < nb.length := by omega
      have hget : nb[i]? = some nb[i] := List.getElem?_eq_getElem hil
      cases hc : w.cells nb[i] with
      | some cptc =>
        cases he : (w.pools cptc.pool).ecn with
        | some e0 =>
          obtain ⟨nb2, size2, s2, hr, hl, hsz, hnd, hmem⟩ :=
            ih nb (i + 1) size (ptr_set_insert e0 s) (by omega) hs (by omega)
          refine ⟨nb2, size2, s2, ?_, hl, hsz, ?_, ?_⟩
          · simp [neighbor_ecn_loop, hlt, hget, hc, he, hr]
          · intro h; exact hnd (nodup_ptr_set_insert e0 s h)
          · intro e
            rw [hmem, mem_ptr_set_insert]
            constructor
            · rintro ((h | h) | ⟨j, ref, h1, h2, h3, h4⟩)
              · subst h
                exact Or.inr ⟨i, nb[i], le_refl _, hlt, hget, by simp [neighbor_node, hc, he]⟩
              · exact Or.inl h
              · exact Or.inr ⟨j, ref, by omega, h2, h3, h4⟩
            · rintro (h | ⟨j, ref, h1, h2, h3, h4⟩)
              · exact Or.inl (Or.inr h)
              · by_cases hji : j = i
                · subst hji
                  rw [hget] at h3
                  have h3 := Option.some.inj h3
                  subst h3
                  simp [neighbor_node, hc, he] at h4
                  exact Or.inl (Or.inl h4.symm)
                · exact Or.inr ⟨j, ref, by omega, h2, h3, h4⟩
        | none =>
          obtain ⟨nb2, size2, s2, hr, hl, hsz, hnd, hmem⟩ :=
            ih nb (i + 1) size s (by omega) hs (by omega)
          refine ⟨nb2, size2, s2, ?_, hl, hsz, hnd, ?_⟩
          · simp [neighbor_ecn_loop, hlt, hget, hc, he, hr]
          · intro e
            rw [hmem]
            constructor
            · rintro (h | ⟨j, ref, h1, h2, h3, h4⟩)
              · exact Or.inl h
              · exact Or.inr ⟨j, ref, by omega, h2, h3, h4⟩
            · rintro (h | ⟨j, ref, h1, h2, h3, h4⟩)
              · exact Or.inl h
              · by_cases hji : j = i
                · subst hji
                  rw [hget] at h3
                  have h3 := Option.some.inj h3
                  subst h3
                  simp [neighbor_node, hc, he] at h4
                · exact Or.inr ⟨j, ref, by omega, h2, h3, h4⟩
      | none =>
        have hlast : size - 1 < nb.length := by omega
        have hgl : nb[size - 1]? = some nb[size - 1] := List.getElem?_eq_getElem hlast
        obtain ⟨nb2, size2, s2, hr, hl, hsz, hnd, hmem⟩ :=
          ih (nb.set i nb[size - 1]) i (size - 1) s (by omega)
            (by rw [List.length_set]; omega) (by omega)
        refine ⟨nb2, size2, s2, ?_, ?_, by omega, hnd, ?_⟩
        · simp [neighbor_ecn_loop, hlt, hget, hc, hgl, hr]
        · rw [hl, List.length_set]
        · intro e
          rw [hmem]
          constructor
          · rintro (h | ⟨j, ref, h1, h2, h3, h4⟩)
            · exact Or.inl h
            · by_cases hji : j = i
              · subst hji
                rw [List.getElem?_set_self hil] at h3
                exact Or.inr ⟨size - 1, ref, by omega, by omega, by rw [hgl]; exact h3, h4⟩
              · rw [List.getElem?_set_ne (Ne.symm hji)] at h3
                exact Or.inr ⟨j, ref, h1, by omega, h3, h4⟩
          · rintro (h | ⟨j, ref, h1, h2, h3, h4⟩)
            · exact Or.inl h
            · by_cases hji : j = i
              · subst hji
                rw [hget] at h3
                have h3 := Option.some.inj h3
                subst h3
                simp [neighbor_node, hc] at h4
              · by_cases hjl : j = size - 1
                · subst hjl
                  refine Or.inr ⟨i, ref, le_refl _, by omega, ?_, h4⟩
                  rw [List.getElem?_set_self hil, ← hgl]; exact h3
                · refine Or.inr ⟨j, ref, h1, by omega, ?_, h4⟩
                  rw [List.getElem?_set_ne (Ne.symm hji)]; exact h3
    · refine ⟨nb, size, s, ?_, rfl, le_refl _, id, ?_⟩
      · simp [neighbor_ecn_loop, hlt]
      · intro e
        constructor
        · intro h; exact Or.inl h
        · rintro (h | ⟨j, ref, h1, h2, _⟩)
          · exact h
          · omega

/-- The method `neighbor_ecn` returns on every pool; it changes nothing but the pool's
neighbour list, and the returned set holds exactly the cost nodes reached through
the neighbour references. -/
theorem neighbor_ecn_spec (pid : Nat) (w : World) :
    ∃ ecns nb2, AliasPool.neighbor_ecn pid w =
        Except.ok (ecns, set_pool w pid { w.pools pid with neighbors := nb2 }) ∧
      ecns.Nodup ∧
      (∀ e, e ∈ ecns ↔ ∃ ref, ref ∈ (w.pools pid).neighbors ∧ neighbor_node w ref = some e) := by
  obtain ⟨nb2, size2, s2, hr, _, _, hnd, hmem⟩ :=
    neighbor_ecn_loop_spec w (w.pools pid).neighbors.length (w.pools pid).neighbors 0
      (w.pools pid).neighbors.length [] (Nat.zero_le _) (le_refl _) (by omega)
  have hmem2 : ∀ e, e ∈ s2 ↔ ∃ ref, ref ∈ (w.pools pid).neighbors ∧
      neighbor_node w ref = some e := by
    intro e
    rw [hmem]
    constructor
    · rintro (h | ⟨j, ref, _, _, h3, h4⟩)
      · simp at h
      · exact ⟨ref, List.getElem?_mem h3, h4⟩
    · rintro ⟨ref, h1, h2⟩
      obtain ⟨j, hj, hjj⟩ := List.getElem_of_mem h1
      exact Or.inr ⟨j, ref, Nat.zero_le _, hj, by rw [List.getElem?_eq_getElem hj, hjj], h2⟩
  by_cases hlt : size2 < nb2.length
  · refine ⟨s2, nb2.eraseIdx size2, ?_, hnd List.nodup_nil, hmem2⟩
    simp [AliasPool.neighbor_ecn, hr, hlt]
  · refine ⟨s2, nb2, ?_, hnd List.nodup_nil, hmem2⟩
    simp [AliasPool.neighbor_ecn, hr, hlt]

theorem mem_neighbor_nodes (w : World) (pid n : Nat) :
    n ∈ neighbor_nodes w pid ↔
      ∃ ref, ref ∈ (w.pools pid).neighbors ∧ neighbor_node w ref = some n := by
  simp [neighbor_nodes, List.mem_filterMap]

/-! ## The steps of `evict` -/

theorem set_pool_same (w : World) (pid : Nat) (p : AliasPool) :
    (set_pool w pid p).pools pid = p := by
  simp [set_pool]

theorem set_pool_twice (w : World) (pid : Nat) (p q : AliasPool) :
    set_pool (set_pool w pid p) pid q = set_pool w pid q := by
  unfold set_pool
  congr 1
  funext i
  by_cases hi : i = pid <;> simp [hi]

theorem new_events_append (w w2 : World) (l : List Event) (h : w2.events = w.events ++ l) :
    new_events w w2 = l := by
  simp [new_events, h]

theorem evict_cells_spec (ts : List Nat) : ∀ (w : World),
    (evict_cells ts w).heap = w.heap ∧ (evict_cells ts w).pools = w.pools ∧
    (evict_cells ts w).during_backward = w.during_backward ∧
    (evict_cells ts w).events =
      w.events ++ (ts.filter (fun c => (w.cells c).isSome)).map Event.cell_evict ∧
    (∀ c, (evict_cells ts w).cells c =
      if c ∈ ts then (w.cells c).map CheckpointTensorCell.evicted else w.cells c) := by
  induction ts with
  | nil => intro w; simp [evict_cells]
  | cons t ts ih =>
    intro w
    cases hc : w.cells t with
    | none =>
      have hstep : evict_cells (t :: ts) w = evict_cells ts w := by
        simp [evict_cells, hc]
      obtain ⟨h1, h2, h3, h4, h5⟩ := ih w
      rw [hstep]
      refine ⟨h1, h2, h3, ?_, ?_⟩
      · rw [h4]; simp [List.filter_cons, hc]
      · intro c
        rw [h5 c]
        by_cases hct : c = t
        · subst hct; simp [hc]
        · simp [hct]
    | some cell =>
      have hstep : evict_cells (t :: ts) w = evict_cells ts (cell_evict t cell w) := by
        simp [evict_cells, hc]
      obtain ⟨h1, h2, h3, h4, h5⟩ := ih (cell_evict t cell w)
      have hlive : ∀ c, ((cell_evict t cell w).cells c).isSome = (w.cells c).isSome := by
        intro c
        by_cases hct : c = t
        · subst hct; simp [cell_evict, emit, hc]
        · simp [cell_evict, emit, hct]
      rw [hstep]
      refine ⟨by rw [h1]; rfl, by rw [h2]; rfl, by rw [h3]; rfl, ?_, ?_⟩
      · rw [h4]
        simp only [hlive]
        simp [cell_evict, emit, List.filter_cons, hc]
      · intro c
        rw [h5 c]
        by_cases hct : c = t
        · subst hct
          simp [cell_evict, emit, hc, CheckpointTensorCell.evicted]
        · simp [cell_evict, emit, hct]

/-- Lines 59-63 of `evict` on a pool with a head descriptor: a fresh node is stored in
the pool, and the nodes reached through the neighbour references are merged into it. -/
theorem evict_ecn_spec (pid : Nat) (w : World) (r : Rematerializer)
    (hh : (w.pools pid).head_remat = some r) :
    ∃ (ecns nb2 : List Nat) (w2 : World), evict_ecn pid w = Except.ok w2 ∧
      w2.heap = ecns.foldl (fun h necn => merge merge_cpi h w.heap.next necn)
        (r.get_ecn w.heap).2 ∧
      w2.pools = (fun i => if i = pid then
        { w.pools pid with ecn := some w.heap.next, neighbors := nb2 } else w.pools i) ∧
      w2.cells = w.cells ∧ w2.events = w.events ∧
      w2.during_backward = w.during_backward ∧ ecns.Nodup ∧
      (∀ e, e ∈ ecns ↔ ∃ ref cptc, ref ∈ (w.pools pid).neighbors ∧
        w.cells ref = some cptc ∧
        ((cptc.pool = pid ∧ e = w.heap.next) ∨
          (cptc.pool ≠ pid ∧ (w.pools cptc.pool).ecn = some e))) := by
  obtain ⟨ecns, nb2, hne, hnd, hmem⟩ := neighbor_ecn_spec pid
    (set_pool { w with heap := (r.get_ecn w.heap).2 } pid
      { w.pools pid with ecn := some (r.get_ecn w.heap).1 })
  have key : evict_ecn pid w = Except.ok
      { set_pool (set_pool { w with heap := (r.get_ecn w.heap).2 } pid
          { w.pools pid with ecn := some (r.get_ecn w.heap).1 }) pid
          { (set_pool { w with heap := (r.get_ecn w.heap).2 } pid
              { w.pools pid with ecn := some (r.get_ecn w.heap).1 }).pools pid with
            neighbors := nb2 } with
        heap := ecns.foldl (fun h necn => merge merge_cpi h (r.get_ecn w.heap).1 necn)
          (r.get_ecn w.heap).2 } := by
    simp only [evict_ecn, hh]
    simp only [hh] at hne
    rw [hne]
    simp only [set_pool, hh]
  refine ⟨ecns, nb2, _, key, rfl, ?_, rfl, rfl, rfl, hnd, ?_⟩
  · funext i
    by_cases hi : i = pid
    · subst hi; simp [set_pool, Rematerializer.get_ecn]
    · simp [set_pool, hi]
  · intro e
    rw [hmem]
    constructor
    · rintro ⟨ref, h1, h2⟩
      simp only [set_pool, if_true] at h1
      unfold neighbor_node at h2
      simp only [set_pool] at h2
      cases hc : w.cells ref with
      | none => simp [hc] at h2
      | some cptc =>
        simp only [hc] at h2
        refine ⟨ref, cptc, h1, hc, ?_⟩
        by_cases hp : cptc.pool = pid
        · simp [hp, Rematerializer.get_ecn] at h2
          exact Or.inl ⟨hp, h2.symm⟩
        · simp [hp] at h2
          exact Or.inr ⟨hp, h2⟩
    · rintro ⟨ref, cptc, h1, h2, h3⟩
      refine ⟨ref, by simpa [set_pool] using h1, ?_⟩
      unfold neighbor_node
      simp only [set_pool, h2]
      rcases h3 with ⟨hp, he⟩ | ⟨hp, he⟩
      · simp [hp, he, Rematerializer.get_ecn]
      · simp [hp, he]

/-- The whole of `evict` in soft or destruct mode on a pool with a head descriptor,
whatever the other fields of the pool are. -/
theorem evict_spec (pid : Nat) (mode : Int) (w : World) (r : Rematerializer)
    (hmode : mode ≠ 2) (hh : (w.pools pid).head_remat = some r) :
    ∃ (ecns nb2 : List Nat) (w2 : World), AliasPool.evict pid mode w = Except.ok w2 ∧
      w2.heap = ecns.foldl (fun h necn => merge merge_cpi h w.heap.next necn)
        (r.get_ecn w.heap).2 ∧
      w2.pools = (fun i => if i = pid then
        { w.pools pid with ecn := some w.heap.next, neighbors := nb2, is_evicted := true }
        else w.pools i) ∧
      (∀ c, w2.cells c = if c ∈ (w.pools pid).tensors
        then (w.cells c).map CheckpointTensorCell.evicted else w.cells c) ∧
      w2.events = w.events ++ Event.evict_enter pid mode ::
        ((live_tensors w pid).map Event.cell_evict ++
          if mode = 1 then [Event.erase_ap (w.pools pid).device_id (w.pools pid).addr]
          else []) ∧
      w2.during_backward = w.during_backward ∧ ecns.Nodup ∧
      (∀ e, e ∈ ecns ↔ ∃ ref cptc, ref ∈ (w.pools pid).neighbors ∧
        w.cells ref = some cptc ∧
        ((cptc.pool = pid ∧ e = w.heap.next) ∨
          (cptc.pool ≠ pid ∧ (w.pools cptc.pool).ecn = some e))) := by
  obtain ⟨ecns, nb2, w3, hev, hheap, hpools, hcells, hevents, hdb, hnd, hmem⟩ :=
    evict_ecn_spec pid (emit w (Event.evict_enter pid mode)) r hh
  obtain ⟨c1, c2, c3, c4, c5⟩ := evict_cells_spec
    ((set_pool w3 pid { w3.pools pid with is_evicted := true }).pools pid).tensors
    (set_pool w3 pid { w3.pools pid with is_evicted := true })
  have htens : ((set_pool w3 pid { w3.pools pid with is_evicted := true }).pools pid).tensors
      = (w.pools pid).tensors := by
    simp [set_pool, hpools, emit]
  have hpools2 : (set_pool w3 pid { w3.pools pid with is_evicted := true }).pools =
      (fun i => if i = pid then
        { w.pools pid with ecn := some w.heap.next, neighbors := nb2, is_evicted := true }
        else w.pools i) := by
    funext i
    by_cases hi : i = pid
    · subst hi; simp [set_pool, hpools, emit]
    · simp [set_pool, hpools, emit, hi]
  rw [htens] at c1 c2 c3 c4 c5
  by_cases hm1 : mode = 1
  · have key : AliasPool.evict pid mode w = Except.ok
        (emit (evict_cells (w.pools pid).tensors
            (set_pool w3 pid { w3.pools pid with is_evicted := true }))
          (Event.erase_ap
            ((evict_cells (w.pools pid).tensors
              (set_pool w3 pid { w3.pools pid with is_evicted := true })).pools pid).device_id
            ((evict_cells (w.pools pid).tensors
              (set_pool w3 pid { w3.pools pid with is_evicted := true })).pools pid).addr)) := by
      simp only [AliasPool.evict]
      rw [if_pos hmode, hev]
      simp only [htens, if_pos hm1]
    refine ⟨ecns, nb2, _, key, ?_, ?_, ?_, ?_, ?_, hnd, hmem⟩
    · simp only [emit]; rw [c1]; exact hheap
    · simp only [emit]; rw [c2, hpools2]
    · intro c; simp only [emit]; rw [c5 c]; simp [set_pool, hcells, emit]
    · simp only [emit]; rw [c4, c2, hpools2]
      simp [set_pool, hevents, emit, live_tensors, hcells, hm1]
    · simp only [emit]; rw [c3]; exact hdb
  · have key : AliasPool.evict pid mode w = Except.ok
        (evict_cells (w.pools pid).tensors
            (set_pool w3 pid { w3.pools pid with is_evicted := true })) := by
      simp only [AliasPool.evict]
      rw [if_pos hmode, hev]
      simp only [htens, if_neg hm1]
    refine ⟨ecns, nb2, _, key, ?_, ?_, ?_, ?_, ?_, hnd, hmem⟩
    · rw [c1]; exact hheap
    · rw [c2, hpools2]
    · intro c; rw [c5 c]; simp [set_pool, hcells, emit]
    · rw [c4]
      simp [set_pool, hevents, emit, live_tensors, hcells, hm1]
    · rw [c3]; exact hdb

/-- An eviction in destruct mode that passed the guard of the automatic paths returns,
logs exactly one entry of `evict` on the pool, and stores a cost node in it. -/
theorem evict_guarded (pid : Nat) (w : World) (hg : can_evict_now (w.pools pid)) :
    ∃ w2, AliasPool.evict pid 1 w = Except.ok w2 ∧
      (∃ n, (w2.pools pid).ecn = some n) ∧ (w2.pools pid).is_evicted = true ∧
      (w2.pools pid).lock_count = (w.pools pid).lock_count ∧
      (w2.pools pid).external_count = (w.pools pid).external_count ∧
      w2.during_backward = w.during_backward ∧
      (∀ m, Event.evict_enter pid m ∈ new_events w w2 ↔ m = 1) := by
  obtain ⟨_, _, hsome⟩ := hg
  obtain ⟨r, hr⟩ := Option.isSome_iff_exists.mp hsome
  obtain ⟨ecns, nb2, w2, hev, _, hpools, _, hevents, hdb, _, _⟩ :=
    evict_spec pid 1 w r (by decide) hr
  refine ⟨w2, hev, ⟨w.heap.next, by simp [hpools]⟩, by simp [hpools], by simp [hpools],
    by simp [hpools], hdb, ?_⟩
  intro m
  rw [new_events_append w w2 _ hevents]
  simp

/-! ## The automatic paths: `unlock` and `release_external` -/

theorem can_evict_now_unlock_dec (fl : BuildFlags) (p : AliasPool) :
    can_evict_now (unlock_dec fl p) ↔ can_evict_now p := by
  simp [can_evict_now, unlock_dec]

theorem unlock_backward_branch_skip (pid : Nat) (w3 : World)
    (h : ¬ (w3.during_backward = true ∧ ((w3.pools pid).remat_count = 0 ∧
      (w3.pools pid).external_count = 0 ∧ (w3.pools pid).lock_count = 0) ∧
      can_evict_now (w3.pools pid))) :
    unlock_backward_branch pid w3 = Except.ok w3 := by
  unfold unlock_backward_branch
  split_ifs with h1 h2 h3
  · exact absurd ⟨h1, h2, h3⟩ h
  · rfl
  · rfl
  · rfl

theorem unlock_backward_branch_fire (pid : Nat) (w3 : World)
    (h1 : w3.during_backward = true) (h2 : (w3.pools pid).remat_count = 0 ∧
      (w3.pools pid).external_count = 0 ∧ (w3.pools pid).lock_count = 0)
    (h3 : can_evict_now (w3.pools pid)) :
    unlock_backward_branch pid w3 = AliasPool.evict pid 1 w3 := by
  unfold unlock_backward_branch
  rw [if_pos h1, if_pos h2, if_pos h3]

theorem unlock_remat_branch_eq (fl : BuildFlags) (pid : Nat) (w : World)
    (hfl : fl.ORIGINAL_DTR = false) :
    unlock_remat_branch pid
        (set_pool w pid { w.pools pid with lock_count := (w.pools pid).lock_count - 1 }) =
      if (w.pools pid).remat_count > 0 ∧ ((w.pools pid).remat_count - 1 = 0 ∧
          (w.pools pid).external_count = 0 ∧ (w.pools pid).lock_count - 1 = 0 ∧
          (w.pools pid).retain_count = 0) ∧ can_evict_now (w.pools pid)
      then AliasPool.evict pid 1 (set_pool w pid (unlock_dec fl (w.pools pid)))
      else Except.ok (set_pool w pid (unlock_dec fl (w.pools pid))) := by
  by_cases hr : (w.pools pid).remat_count > 0
  · have hw2 : AliasPool.unlock_remated pid (set_pool w pid
        { w.pools pid with lock_count := (w.pools pid).lock_count - 1 }) =
        set_pool w pid (unlock_dec fl (w.pools pid)) := by
      simp [AliasPool.unlock_remated, set_pool_twice, set_pool_same, unlock_dec, hfl, hr]
    unfold unlock_remat_branch
    rw [if_pos (by rw [set_pool_same]; exact hr)]
    simp only [hw2, set_pool_same, can_evict_now_unlock_dec]
    have e1 : (unlock_dec fl (w.pools pid)).remat_count = (w.pools pid).remat_count - 1 := by
      simp [unlock_dec, hfl, hr]
    have e2 : (unlock_dec fl (w.pools pid)).external_count = (w.pools pid).external_count := rfl
    have e3 : (unlock_dec fl (w.pools pid)).lock_count = (w.pools pid).lock_count - 1 := rfl
    have e4 : (unlock_dec fl (w.pools pid)).retain_count = (w.pools pid).retain_count := rfl
    rw [e1, e2, e3, e4]
    split_ifs <;> first | rfl | (exfalso; tauto)
  · have hw1 : set_pool w pid
        { w.pools pid with lock_count := (w.pools pid).lock_count - 1 } =
        set_pool w pid (unlock_dec fl (w.pools pid)) := by
      simp [unlock_dec, hfl, hr]
    unfold unlock_remat_branch
    rw [if_neg (by rw [set_pool_same]; exact hr), hw1, if_neg (fun h => hr h.1)]

theorem unlock_of_triggers (fl : BuildFlags) (pid : Nat) (w : World)
    (ht : unlock_triggers fl (w.pools pid) w.during_backward) :
    AliasPool.unlock fl pid w =
      AliasPool.evict pid 1 (set_pool w pid (unlock_dec fl (w.pools pid))) := by
  obtain ⟨hfl, hcond, hg⟩ := ht
  have hg2 : can_evict_now ((set_pool w pid (unlock_dec fl (w.pools pid))).pools pid) := by
    rw [set_pool_same]; exact (can_evict_now_unlock_dec fl _).mpr hg
  obtain ⟨w2, hev, ⟨n, hn⟩, _, _, _, _, _⟩ :=
    evict_guarded pid (set_pool w pid (unlock_dec fl (w.pools pid))) hg2
  have hng : ¬ can_evict_now (w2.pools pid) := by
    intro h; rw [h.2.1] at hn; cases hn
  unfold AliasPool.unlock
  simp only [hfl, Bool.false_eq_true, if_false]
  rw [unlock_remat_branch_eq fl pid w hfl]
  by_cases hfirst : (w.pools pid).remat_count > 0 ∧ ((w.pools pid).remat_count - 1 = 0 ∧
      (w.pools pid).external_count = 0 ∧ (w.pools pid).lock_count - 1 = 0 ∧
      (w.pools pid).retain_count = 0) ∧ can_evict_now (w.pools pid)
  · rw [if_pos hfirst, hev]
    exact unlock_backward_branch_skip pid w2 (fun h => hng h.2.2)
  · rw [if_neg hfirst]
    rcases hcond with h | ⟨hb, h1, h2, h3⟩
    · exact absurd ⟨h.1, h.2, hg⟩ hfirst
    · exact unlock_backward_branch_fire pid _ hb
        (by rw [set_pool_same]; exact ⟨h1, h2, h3⟩) hg2

theorem unlock_of_not_triggers (fl : BuildFlags) (pid : Nat) (w : World)
    (ht : ¬ unlock_triggers fl (w.pools pid) w.during_backward) :
    AliasPool.unlock fl pid w = Except.ok (set_pool w pid (unlock_dec fl (w.pools pid))) := by
  unfold AliasPool.unlock
  by_cases hfl : fl.ORIGINAL_DTR = true
  · simp only [hfl, if_true]
    congr 2
    simp [unlock_dec, hfl]
  · have hfl2 : fl.ORIGINAL_DTR = false := by simpa using hfl
    simp only [hfl2, Bool.false_eq_true, if_false]
    rw [unlock_remat_branch_eq fl pid w hfl2]
    have hfirst : ¬ ((w.pools pid).remat_count > 0 ∧ ((w.pools pid).remat_count - 1 = 0 ∧
        (w.pools pid).external_count = 0 ∧ (w.pools pid).lock_count - 1 = 0 ∧
        (w.pools pid).retain_count = 0) ∧ can_evict_now (w.pools pid)) :=
      fun h => ht ⟨hfl2, Or.inl ⟨h.1, h.2.1⟩, h.2.2⟩
    rw [if_neg hfirst]
    apply unlock_backward_branch_skip
    rintro ⟨hb, hz, hg⟩
    rw [set_pool_same] at hz hg
    exact ht ⟨hfl2, Or.inr ⟨hb, hz.1, hz.2.1, hz.2.2⟩, (can_evict_now_unlock_dec fl _).mp hg⟩

theorem release_external_of_triggers (pid : Nat) (w : World)
    (ht : release_triggers (w.pools pid)) :
    AliasPool.release_external pid w =
      AliasPool.evict pid 1 (set_pool w pid (release_dec (w.pools pid))) := by
  obtain ⟨h1, h2, h3, h4⟩ := ht
  unfold AliasPool.release_external
  simp only [set_pool_same]
  have hg : can_evict_now (release_dec (w.pools pid)) := h4
  rw [if_pos h1, if_neg (by simp [h2]), if_neg h3]
  exact if_pos hg

theorem release_external_of_not_triggers (pid : Nat) (w : World)
    (ht : ¬ release_triggers (w.pools pid)) :
    AliasPool.release_external pid w =
      Except.ok (set_pool w pid (release_dec (w.pools pid))) := by
  unfold AliasPool.release_external
  simp only [set_pool_same]
  split_ifs with h1 h2 h3 h4
  · rfl
  · rfl
  · exact absurd ⟨h1, by simpa using h2, h3, h4⟩ ht
  · rfl
  · rfl

theorem unlock_triggers_is_retain (fl : BuildFlags) (p : AliasPool) (b db : Bool) :
    unlock_triggers fl { p with is_retain := b } db ↔ unlock_triggers fl p db := by
  simp [unlock_triggers, unlock_dec, can_evict_now]

theorem release_triggers_is_retain (p : AliasPool) (b : Bool) :
    release_triggers { p with is_retain := b } ↔ release_triggers p := by
  simp [release_triggers, can_evict_now]

theorem unlock_evicts_iff_triggers (fl : BuildFlags) (pid : Nat) (w : World) :
    (∃ w2, AliasPool.unlock fl pid w = Except.ok w2 ∧ evicted_in pid 1 w w2) ↔
      unlock_triggers fl (w.pools pid) w.during_backward := by
  constructor
  · rintro ⟨w2, hw2, hev⟩
    by_contra ht
    rw [unlock_of_not_triggers fl pid w ht] at hw2
    injection hw2 with hw2
    subst hw2
    simp [evicted_in, new_events, set_pool] at hev
  · intro ht
    obtain ⟨w2, hev, _, _, _, _, _, hmodes⟩ := evict_guarded pid
      (set_pool w pid (unlock_dec fl (w.pools pid)))
      (by rw [set_pool_same]; exact (can_evict_now_unlock_dec fl _).mpr ht.2.2)
    refine ⟨w2, by rw [unlock_of_triggers fl pid w ht, hev], ?_⟩
    have := (hmodes 1).mpr rfl
    simpa [evicted_in, new_events, set_pool] using this

theorem release_evicts_iff_triggers (pid : Nat) (w : World) :
    (∃ w2, AliasPool.release_external pid w = Except.ok w2 ∧ evicted_in pid 1 w w2) ↔
      release_triggers (w.pools pid) := by
  constructor
  · rintro ⟨w2, hw2, hev⟩
    by_contra ht
    rw [release_external_of_not_triggers pid w ht] at hw2
    injection hw2 with hw2
    subst hw2
    simp [evicted_in, new_events, set_pool] at hev
  · intro ht
    obtain ⟨w2, hev, _, _, _, _, _, hmodes⟩ := evict_guarded pid
      (set_pool w pid (release_dec (w.pools pid)))
      (by rw [set_pool_same]; exact ht.2.2.2)
    refine ⟨w2, by rw [release_external_of_triggers pid w ht, hev], ?_⟩
    have := (hmodes 1).mpr rfl
    simpa [evicted_in, new_events, set_pool] using this

/-! ## The cost store -/

theorem find_root_aux_of_root (h : EcnHeap) (n : Nat) (hn : h.parent n = none) :
    ∀ k, find_root_aux h k n = n := by
  intro k
  cases k with
  | zero => rfl
  | succ k => simp [find_root_aux, hn]

theorem find_root_aux_add (h : EcnHeap) (a : Nat) :
    ∀ (b n : Nat), find_root_aux h (a + b) n = find_root_aux h a (find_root_aux h b n) := by
  intro b
  induction b with
  | zero => intro n; rfl
  | succ b ih =>
    intro n
    cases hp : h.parent n with
    | none =>
      rw [find_root_aux_of_root h n hp, find_root_aux_of_root h n hp,
        find_root_aux_of_root h n hp]
    | some p =>
      have e1 : find_root_aux h (a + (b + 1)) n = find_root_aux h (a + b) p := by
        rw [← Nat.add_assoc]; simp [find_root_aux, hp]
      have e2 : find_root_aux h (b + 1) n = find_root_aux h b p := by
        simp [find_root_aux, hp]
      rw [e1, e2, ih p]

/-- Once the walk has reached a representative, more fuel changes nothing. -/
theorem find_root_aux_stable (h : EcnHeap) (k n : Nat)
    (hk : h.parent (find_root_aux h k n) = none) (j : Nat) (hj : k ≤ j) :
    find_root_aux h j n = find_root_aux h k n := by
  obtain ⟨d, rfl⟩ := Nat.exists_eq_add_of_le hj
  rw [Nat.add_comm, find_root_aux_add, find_root_aux_of_root h _ hk]

theorem find_root_aux_lt (h : EcnHeap) (hc : ∀ i p, h.parent i = some p → i < h.next ∧ p < h.next) :
    ∀ (k n : Nat), n < h.next → find_root_aux h k n < h.next := by
  intro k
  induction k with
  | zero => intro n hn; exact hn
  | succ k ih =>
    intro n hn
    cases hp : h.parent n with
    | none => simp [find_root_aux, hp, hn]
    | some p =>
      simp only [find_root_aux, hp]
      exact ih p (hc n p hp).2

/-- In a well-formed store a walk of `next - 1` links ends in a representative: the
nodes visited have strictly increasing rank, so they are pairwise different, and there
are only `next` nodes. -/
theorem find_root_aux_reaches (h : EcnHeap) (hw : h.wf) (n : Nat) :
    h.parent (find_root_aux h (h.next - 1) n) = none := by
  obtain ⟨hc, rank, hrank⟩ := hw
  by_cases hn : n < h.next
  · by_contra hne
    -- no node of the walk is a representative
    have hnot : ∀ k, k ≤ h.next - 1 → h.parent (find_root_aux h k n) ≠ none := by
      intro k hk hroot
      exact hne (by rw [find_root_aux_stable h k n hroot _ hk]; exact hroot)
    -- ranks grow along the walk
    have hstep : ∀ k, k ≤ h.next - 1 →
        rank (find_root_aux h k n) < rank (find_root_aux h (k + 1) n) := by
      intro k hk
      cases hp : h.parent (find_root_aux h k n) with
      | none => exact absurd hp (hnot k hk)
      | some p =>
        have e : find_root_aux h (k + 1) n = p := by
          rw [Nat.add_comm, find_root_aux_add]
          simp [find_root_aux, hp]
        rw [e]
        exact hrank _ _ hp
    have hmono : ∀ j, j ≤ h.next → ∀ i, i < j →
        rank (find_root_aux h i n) < rank (find_root_aux h j n) := by
      intro j
      induction j with
      | zero => intro _ i hi; omega
      | succ j ih =>
        intro hj i hi
        by_cases hij : i = j
        · subst hij; exact hstep i (by omega)
        · exact lt_trans (ih (by omega) i (by omega)) (hstep j (by omega))
    have hinj : Function.Injective
        (fun k : Fin (h.next + 1) =>
          (⟨find_root_aux h k.1 n, find_root_aux_lt h hc k.1 n hn⟩ : Fin h.next)) := by
      intro a b hab
      have hab2 : find_root_aux h a.1 n = find_root_aux h b.1 n := by
        simpa using congrArg Fin.val hab
      apply Fin.ext
      rcases Nat.lt_trichotomy a.1 b.1 with hlt | heq | hgt
      · have := hmono b.1 (by omega) a.1 hlt
        rw [hab2] at this; omega
      · exact heq
      · have := hmono a.1 (by omega) b.1 hgt
        rw [hab2] at this; omega
    have hcard := Fintype.card_le_of_injective _ hinj
    simp at hcard
  · have hroot : h.parent n = none := by
      cases hp : h.parent n with
      | none => rfl
      | some p => exact absurd (hc n p hp).1 hn
    rw [find_root_aux_of_root h n hroot]; exact hroot

theorem find_root_eq_aux (h : EcnHeap) (hw : h.wf) (n : Nat) (j : Nat) (hj : h.next - 1 ≤ j) :
    find_root_aux h j n = find_root h n := by
  unfold find_root
  rw [find_root_aux_stable h _ n (find_root_aux_reaches h hw n) j hj,
    find_root_aux_stable h _ n (find_root_aux_reaches h hw n) h.next (by omega)]

/-- The representative found in a well-formed store has no parent. -/
theorem find_root_is_root (h : EcnHeap) (hw : h.wf) (n : Nat) :
    h.parent (find_root h n) = none := by
  rw [← find_root_eq_aux h hw n (h.next - 1) (le_refl _)]
  exact find_root_aux_reaches h hw n

theorem find_root_lt (h : EcnHeap) (hw : h.wf) (n : Nat) (hn : n < h.next) :
    find_root h n < h.next :=
  find_root_aux_lt h hw.1 _ n hn

theorem find_root_of_root (h : EcnHeap) (n : Nat) (hn : h.parent n = none) :
    find_root h n = n :=
  find_root_aux_of_root h n hn _

theorem find_root_idem (h : EcnHeap) (hw : h.wf) (n : Nat) :
    find_root h (find_root h n) = find_root h n :=
  find_root_of_root h _ (find_root_is_root h hw n)

/-- A node and its parent have the same representative. -/
theorem find_root_parent (h : EcnHeap) (hw : h.wf) (n p : Nat) (hp : h.parent n = some p) :
    find_root h p = find_root h n := by
  have h1 : find_root_aux h (h.next + 1) n = find_root h n :=
    find_root_eq_aux h hw n _ (by omega)
  have h2 : find_root_aux h (h.next + 1) n = find_root_aux h h.next p := by
    simp [find_root_aux, hp]
  rw [← h1, h2]; rfl

theorem find_root_aux_congr (h1 h2 : EcnHeap) (hp : ∀ i, h1.parent i = h2.parent i) :
    ∀ (k n : Nat), find_root_aux h1 k n = find_root_aux h2 k n := by
  intro k
  induction k with
  | zero => intro n; rfl
  | succ k ih =>
    intro n
    simp only [find_root_aux, hp n]
    cases h2.parent n with
    | none => rfl
    | some p => exact ih p

theorem find_root_update_t (h : EcnHeap) (n : Nat) (t : CheckpointInfo) (x : Nat) :
    find_root (update_t h n t) x = find_root h x := by
  exact find_root_aux_congr (update_t h n t) h (fun _ => rfl) h.next x

/-- Allocating a fresh node keeps the store well-formed and changes no representative
and no stored payload of the nodes already there. -/
theorem get_ecn_spec (r : Rematerializer) (h : EcnHeap) (hw : h.wf) :
    (r.get_ecn h).1 = h.next ∧ (r.get_ecn h).2.wf ∧ (r.get_ecn h).2.next = h.next + 1 ∧
    (∀ x, find_root (r.get_ecn h).2 x = find_root h x) ∧
    find_root h h.next = h.next ∧
    (r.get_ecn h).2.info h.next = CheckpointInfo.mk r.compute_cost ∧
    (∀ y, y ≠ h.next → (r.get_ecn h).2.info y = h.info y) := by
  have hroot : h.parent h.next = none := by
    cases hp : h.parent h.next with
    | none => rfl
    | some p => exact absurd (hw.1 _ p hp).1 (lt_irrefl _)
  have hpar : ∀ i, (r.get_ecn h).2.parent i = h.parent i := by
    intro i
    by_cases hi : i = h.next
    · subst hi; simp [Rematerializer.get_ecn, hroot]
    · simp [Rematerializer.get_ecn, hi]
  refine ⟨rfl, ⟨?_, ?_⟩, rfl, ?_, find_root_of_root h _ hroot, by simp [Rematerializer.get_ecn],
    ?_⟩
  · intro i p hp
    rw [hpar] at hp
    have := hw.1 i p hp
    exact ⟨by simp [Rematerializer.get_ecn]; omega, by simp [Rematerializer.get_ecn]; omega⟩
  · obtain ⟨rank, hrank⟩ := hw.2
    exact ⟨rank, fun i p hp => hrank i p (by rw [hpar] at hp; exact hp)⟩
  · intro x
    show find_root_aux (r.get_ecn h).2 (h.next + 1) x = find_root h x
    rw [find_root_aux_congr _ h hpar]
    exact find_root_eq_aux h hw x _ (by omega)
  · intro y hy
    simp [Rematerializer.get_ecn, hy]

theorem merge_same (h : EcnHeap) (a b : Nat) (heq : find_root h a = find_root h b) :
    merge merge_cpi h a b = h := by
  simp [merge, heq]

/-- Walking in the store after linking representative `l` below representative `r`. -/
theorem find_root_aux_link (h : EcnHeap) (l r : Nat) (hl : h.parent l = none)
    (hr : h.parent r = none) (hlr : l ≠ r) (h2 : EcnHeap)
    (hp2 : ∀ i, h2.parent i = if i = l then some r else h.parent i) :
    ∀ (k x : Nat), h.parent (find_root_aux h k x) = none →
      find_root_aux h2 (k + 1) x =
        if find_root_aux h k x = l then r else find_root_aux h k x := by
  have hr2 : h2.parent r = none := by
    rw [hp2, if_neg (Ne.symm hlr)]; exact hr
  intro k
  induction k with
  | zero =>
    intro x hx
    simp only [find_root_aux] at hx ⊢
    by_cases hxl : x = l
    · subst hxl
      simp [hp2]
    · simp [hp2, hxl, hx]
  | succ k ih =>
    intro x hx
    cases hp : h.parent x with
    | none =>
      have e : find_root_aux h (k + 1) x = x := find_root_aux_of_root h x hp _
      rw [e]
      by_cases hxl : x = l
      · subst hxl
        have : find_root_aux h2 (k + 1 + 1) x = find_root_aux h2 (k + 1) r := by
          simp [find_root_aux, hp2]
        rw [this, find_root_aux_of_root h2 r hr2]
        simp
      · have hx2 : h2.parent x = none := by rw [hp2, if_neg hxl]; exact hp
        rw [find_root_aux_of_root h2 x hx2, if_neg hxl]
    | some p =>
      have hxl : x ≠ l := by
        intro hxl; rw [hxl, hl] at hp; cases hp
      have e : find_root_aux h (k + 1) x = find_root_aux h k p := by
        simp [find_root_aux, hp]
      have e2 : find_root_aux h2 (k + 1 + 1) x = find_root_aux h2 (k + 1) p := by
        simp [find_root_aux, hp2, hxl, hp]
      rw [e] at hx ⊢
      rw [e2]
      exact ih p hx

/-- Merging two nodes of different classes: the store stays well-formed, the class of
`a` joins the class of `b`, whose representative receives the merged payload, and no
other payload changes. -/
theorem merge_spec (h : EcnHeap) (hw : h.wf) (a b : Nat) (ha : a < h.next) (hb : b < h.next)
    (hne : find_root h a ≠ find_root h b) :
    (merge merge_cpi h a b).wf ∧ (merge merge_cpi h a b).next = h.next ∧
    (∀ x, find_root (merge merge_cpi h a b) x =
      if find_root h x = find_root h a then find_root h b else find_root h x) ∧
    (merge merge_cpi h a b).info (find_root h b) =
      merge_cpi (h.info (find_root h a)) (h.info (find_root h b)) ∧
    (∀ y, y ≠ find_root h b → (merge merge_cpi h a b).info y = h.info y) := by
  have hl := find_root_is_root h hw a
  have hr := find_root_is_root h hw b
  have hp2 : ∀ i, (merge merge_cpi h a b).parent i =
      if i = find_root h a then some (find_root h b) else h.parent i := by
    intro i; simp [merge, hne]
  have hnext : (merge merge_cpi h a b).next = h.next := by simp [merge, hne]
  have hfind : ∀ x, find_root (merge merge_cpi h a b) x =
      if find_root h x = find_root h a then find_root h b else find_root h x := by
    intro x
    have hpos : h.next - 1 + 1 = h.next := by omega
    have := find_root_aux_link h _ _ hl hr hne _ hp2 (h.next - 1) x
      (find_root_aux_reaches h hw x)
    rw [hpos, find_root_eq_aux h hw x _ (le_refl _)] at this
    unfold find_root
    rw [hnext]
    exact this
  refine ⟨⟨?_, ?_⟩, hnext, hfind, by simp [merge, hne], ?_⟩
  · intro i p hp
    rw [hp2] at hp
    rw [hnext]
    by_cases hi : i = find_root h a
    · rw [if_pos hi] at hp
      injection hp with hp
      subst hp
      rw [hi]
      exact ⟨find_root_lt h hw a ha, find_root_lt h hw b hb⟩
    · rw [if_neg hi] at hp
      exact hw.1 i p hp
  · obtain ⟨rank, hrank⟩ := hw.2
    refine ⟨fun x => if find_root h x = find_root h b
      then rank x + rank (find_root h a) + 1 else rank x, ?_⟩
    intro i p hp
    rw [hp2] at hp
    by_cases hi : i = find_root h a
    · rw [if_pos hi] at hp
      injection hp with hp
      subst hp
      rw [hi]
      simp only [find_root_idem h hw, if_neg hne, if_true]
      omega
    · rw [if_neg hi] at hp
      have hsame := find_root_parent h hw i p hp
      have := hrank i p hp
      simp only [hsame]
      split_ifs <;> omega
  · intro y hy
    simp [merge, hne, hy]

/-- The merge loop of `evict` (lines 61-63): merging the nodes of `S` into node `e`
adds to the class of `e` the cost of every other class met in `S`, once each; all
nodes of these classes then share the representative of `e`; the other classes keep
their representative and their cost. -/
theorem merge_fold_spec : ∀ (S : List Nat) (h : EcnHeap) (e : Nat), h.wf → e < h.next →
    (∀ s ∈ S, s < h.next) →
    (S.foldl (fun h s => merge merge_cpi h e s) h).wf ∧
    (S.foldl (fun h s => merge merge_cpi h e s) h).next = h.next ∧
    (get_t (S.foldl (fun h s => merge merge_cpi h e s) h) e).compute_cost =
      (get_t h e).compute_cost +
        Finset.sum ((S.map (find_root h)).toFinset.erase (find_root h e))
          (fun i => (h.info i).compute_cost) ∧
    (∀ x, (find_root h x = find_root h e ∨ find_root h x ∈ S.map (find_root h)) →
      find_root (S.foldl (fun h s => merge merge_cpi h e s) h) x =
        find_root (S.foldl (fun h s => merge merge_cpi h e s) h) e) ∧
    (∀ x, find_root h x ≠ find_root h e → find_root h x ∉ S.map (find_root h) →
      find_root (S.foldl (fun h s => merge merge_cpi h e s) h) x = find_root h x ∧
      (S.foldl (fun h s => merge merge_cpi h e s) h).info (find_root h x) =
        h.info (find_root h x)) := by
  intro S
  induction S with
  | nil =>
    intro h e hw _ _
    refine ⟨hw, rfl, by simp, ?_, ?_⟩
    · intro x hx
      rcases hx with hx | hx
      · simp only [List.foldl_nil]
        exact hx
      · simp at hx
    · intro x _ _
      exact ⟨rfl, rfl⟩
  | cons s S ih =>
    intro h e hw he hS
    have hs : s < h.next := hS s (List.mem_cons_self _ _)
    have hS2 : ∀ t ∈ S, t < h.next := fun t ht => hS t (List.mem_cons_of_mem _ ht)
    by_cases heq : find_root h e = find_root h s
    · -- `s` is already in the class of `e`: the store is unchanged
      have hm : merge merge_cpi h e s = h := merge_same h e s heq
      simp only [List.foldl_cons, hm]
      obtain ⟨i1, i2, i3, i4, i5⟩ := ih h e hw he hS2
      refine ⟨i1, i2, ?_, ?_, ?_⟩
      · rw [i3]
        congr 1
        simp only [List.map_cons, List.toFinset_cons, ← heq]
        rw [Finset.erase_insert_eq_erase]
      · intro x hx
        apply i4
        rcases hx with hx | hx
        · exact Or.inl hx
        · simp only [List.map_cons, List.mem_cons] at hx
          rcases hx with hx | hx
          · exact Or.inl (by rw [hx, heq])
          · exact Or.inr hx
      · intro x hx1 hx2
        apply i5 x hx1
        intro hmem
        exact hx2 (by simp only [List.map_cons, List.mem_cons]; exact Or.inr hmem)
    · obtain ⟨m1, m2, m3, m4, m5⟩ := merge_spec h hw e s he hs heq
      have he1 : e < (merge merge_cpi h e s).next := by rw [m2]; exact he
      have hS1 : ∀ t ∈ S, t < (merge merge_cpi h e s).next := by
        intro t ht; rw [m2]; exact hS2 t ht
      obtain ⟨i1, i2, i3, i4, i5⟩ := ih (merge merge_cpi h e s) e m1 he1 hS1
      have hroot_e : find_root (merge merge_cpi h e s) e = find_root h s := by
        rw [m3]; simp
      simp only [List.foldl_cons]
      refine ⟨i1, by rw [i2, m2], ?_, ?_, ?_⟩
      · rw [i3]
        have hcost : (get_t (merge merge_cpi h e s) e).compute_cost =
            (get_t h e).compute_cost + (h.info (find_root h s)).compute_cost := by
          unfold get_t
          rw [hroot_e, m4]
          rfl
        have hset : (S.map (find_root (merge merge_cpi h e s))).toFinset.erase
              (find_root (merge merge_cpi h e s) e) =
            ((S.map (find_root h)).toFinset.erase (find_root h e)).erase (find_root h s) := by
          ext ρ
          simp only [Finset.mem_erase, List.mem_toFinset, List.mem_map, hroot_e]
          constructor
          · rintro ⟨hρ, t, ht, hft⟩
            rw [m3] at hft
            by_cases htl : find_root h t = find_root h e
            · rw [if_pos htl] at hft
              exact absurd hft.symm hρ
            · rw [if_neg htl] at hft
              exact ⟨hρ, by rw [← hft]; exact htl, t, ht, hft⟩
          · rintro ⟨hρ, hρl, t, ht, hft⟩
            refine ⟨hρ, t, ht, ?_⟩
            rw [m3, if_neg (by rw [hft]; exact hρl), hft]
        have hsum1 : Finset.sum ((S.map (find_root (merge merge_cpi h e s))).toFinset.erase
              (find_root (merge merge_cpi h e s) e))
              (fun i => ((merge merge_cpi h e s).info i).compute_cost) =
            Finset.sum (((S.map (find_root h)).toFinset.erase (find_root h e)).erase
              (find_root h s)) (fun i => (h.info i).compute_cost) := by
          rw [hset]
          apply Finset.sum_congr rfl
          intro ρ hρ
          rw [m5 ρ (Finset.ne_of_mem_erase hρ)]
        have hsum2 : Finset.sum (((s :: S).map (find_root h)).toFinset.erase (find_root h e))
              (fun i => (h.info i).compute_cost) =
            (h.info (find_root h s)).compute_cost +
              Finset.sum (((S.map (find_root h)).toFinset.erase (find_root h e)).erase
                (find_root h s)) (fun i => (h.info i).compute_cost) := by
          simp only [List.map_cons, List.toFinset_cons]
          rw [Finset.erase_insert_of_ne (Ne.symm heq)]
          rw [← Finset.add_sum_erase _ _ (Finset.mem_insert_self _ _),
            Finset.erase_insert_eq_erase]
        rw [hcost, hsum1, hsum2]
        ring
      · intro x hx
        apply i4
        rcases hx with hx | hx
        · left
          rw [m3, m3, if_pos hx]; simp
        · simp only [List.map_cons, List.mem_cons] at hx
          rcases hx with hx | hx
          · left
            rw [hroot_e, m3, hx]
            split_ifs <;> rfl
          · right
            simp only [List.mem_map] at hx ⊢
            obtain ⟨t, ht, hft⟩ := hx
            refine ⟨t, ht, ?_⟩
            rw [m3, m3, hft]
      · intro x hx1 hx2
        have hxs : find_root h x ≠ find_root h s := by
          intro hc
          exact hx2 (by simp only [List.map_cons, List.mem_cons]; exact Or.inl hc)
        have hx3 : find_root h x ∉ S.map (find_root h) := by
          intro hc
          exact hx2 (by simp only [List.map_cons, List.mem_cons]; exact Or.inr hc)
        have hfx : find_root (merge merge_cpi h e s) x = find_root h x := by
          rw [m3, if_neg hx1]
        have := i5 x (by rw [hfx, hroot_e]; exact hxs) (by
          rw [hfx]
          simp only [List.mem_map]
          rintro ⟨t, ht, hft⟩
          rw [m3] at hft
          by_cases htl : find_root h t = find_root h e
          · rw [if_pos htl] at hft
            exact hxs hft.symm
          · rw [if_neg htl] at hft
            exact hx3 (List.mem_map.mpr ⟨t, ht, hft⟩))
        rw [hfx] at this
        exact ⟨this.1, by rw [this.2, m5 _ hxs]⟩

theorem sum_dedup_eq_finset_sum (L : List Nat) (f : Nat → Int) :
    (L.dedup.map f).sum = Finset.sum L.toFinset f := by
  rw [← List.sum_toFinset f (List.nodup_dedup L)]
  congr 1
  ext x
  simp

theorem merge_cpi_foldl (h : EcnHeap) (S : List Nat) : ∀ (c : CheckpointInfo),
    S.foldl (fun cpi necn => merge_cpi cpi (get_t h necn)) c =
      CheckpointInfo.mk (c.compute_cost + (S.map (fun n => (get_t h n).compute_cost)).sum) := by
  induction S with
  | nil => intro c; simp
  | cons s S ih =>
    intro c
    simp only [List.foldl_cons, List.map_cons, List.sum_cons]
    rw [ih]
    simp only [merge_cpi]
    congr 1
    ring

/-! ## Costs after `evict`, `set_not_evicted` and in `cost` -/

/-- The cost-store part of `evict` in soft or destruct mode, on a well-formed store:
the class of the pool's fresh node holds the head cost plus the cost of each distinct
class of a live neighbour, and contains the nodes of all these neighbours. -/
theorem evict_cost_spec (pid : Nat) (mode : Int) (w : World) (r : Rematerializer)
    (hwf : w.heap.wf) (hptr : ecn_pointers_valid w) (hmode : mode ≠ 2)
    (hhead : (w.pools pid).head_remat = some r) (hecn : (w.pools pid).ecn = none) :
    ∃ (nb2 : List Nat) (w2 : World), AliasPool.evict pid mode w = Except.ok w2 ∧
      w2.pools = (fun i => if i = pid then
        { w.pools pid with ecn := some w.heap.next, neighbors := nb2, is_evicted := true }
        else w.pools i) ∧
      w2.heap.wf ∧ w2.heap.next = w.heap.next + 1 ∧
      (get_t w2.heap w.heap.next).compute_cost = r.compute_cost + neighbor_class_cost w pid ∧
      (∀ n ∈ neighbor_nodes w pid, find_root w2.heap n = find_root w2.heap w.heap.next) := by
  obtain ⟨ecns, nb2, w2, hev, hheap, hpools, _, _, _, _, hmem⟩ :=
    evict_spec pid mode w r hmode hhead
  obtain ⟨_, a2, a3, a4, a5, a6, a7⟩ := get_ecn_spec r w.heap hwf
  -- the members of the returned set
  have hmem2 : ∀ s, s ∈ ecns ↔ s = w.heap.next ∧ (∃ ref cptc, ref ∈ (w.pools pid).neighbors ∧
      w.cells ref = some cptc ∧ cptc.pool = pid) ∨ s ∈ neighbor_nodes w pid := by
    intro s
    rw [hmem, mem_neighbor_nodes]
    constructor
    · rintro ⟨ref, cptc, h1, h2, h3 | h3⟩
      · exact Or.inl ⟨h3.2, ref, cptc, h1, h2, h3.1⟩
      · exact Or.inr ⟨ref, h1, by simp [neighbor_node, h2, h3.2]⟩
    · rintro (⟨h0, ref, cptc, h1, h2, h3⟩ | ⟨ref, h1, h2⟩)
      · exact ⟨ref, cptc, h1, h2, Or.inl ⟨h3, h0⟩⟩
      · unfold neighbor_node at h2
        cases hc : w.cells ref with
        | none => simp [hc] at h2
        | some cptc =>
          simp only [hc] at h2
          refine ⟨ref, cptc, h1, hc, Or.inr ⟨?_, h2⟩⟩
          intro hp
          rw [hp, hecn] at h2
          cases h2
  have hvalid : ∀ n ∈ neighbor_nodes w pid, n < w.heap.next := by
    intro n hn
    obtain ⟨ref, _, h2⟩ := (mem_neighbor_nodes w pid n).mp hn
    unfold neighbor_node at h2
    cases hc : w.cells ref with
    | none => simp [hc] at h2
    | some cptc =>
      simp only [hc] at h2
      exact hptr _ _ h2
  have hS : ∀ s ∈ ecns, s < (r.get_ecn w.heap).2.next := by
    intro s hs
    rw [a3]
    rcases (hmem2 s).mp hs with h | h
    · omega
    · have := hvalid s h; omega
  obtain ⟨f1, f2, f3, f4, _⟩ := merge_fold_spec ecns (r.get_ecn w.heap).2 w.heap.next a2
    (by rw [a3]; omega) hS
  rw [← hheap] at f1 f2 f3 f4
  have hroot_lt : ∀ n, n < w.heap.next → find_root w.heap n ≠ w.heap.next := by
    intro n hn
    have := find_root_lt w.heap hwf n hn
    omega
  have hset : (ecns.map (find_root (r.get_ecn w.heap).2)).toFinset.erase
        (find_root (r.get_ecn w.heap).2 w.heap.next) =
      ((neighbor_nodes w pid).map (find_root w.heap)).toFinset := by
    ext ρ
    simp only [Finset.mem_erase, List.mem_toFinset, List.mem_map, a4, a5]
    constructor
    · rintro ⟨hρ, s, hs, hfs⟩
      rcases (hmem2 s).mp hs with h | h
      · rw [h.1, a5] at hfs
        exact absurd hfs.symm hρ
      · exact ⟨s, h, hfs⟩
    · rintro ⟨s, hs, hfs⟩
      refine ⟨by rw [← hfs]; exact hroot_lt s (hvalid s hs), s, (hmem2 s).mpr (Or.inr hs), hfs⟩
  refine ⟨nb2, w2, hev, hpools, f1, by rw [f2, a3], ?_, ?_⟩
  · rw [f3, hset]
    have hg : (get_t (r.get_ecn w.heap).2 w.heap.next).compute_cost = r.compute_cost := by
      unfold get_t
      rw [a4, a5, a6]
    rw [hg]
    congr 1
    unfold neighbor_class_cost neighbor_classes
    rw [sum_dedup_eq_finset_sum]
    apply Finset.sum_congr rfl
    intro ρ hρ
    simp only [List.mem_toFinset, List.mem_map] at hρ
    obtain ⟨s, hs, hfs⟩ := hρ
    rw [a7 ρ (by rw [← hfs]; exact hroot_lt s (hvalid s hs))]
  · intro n hn
    apply f4
    right
    exact List.mem_map.mpr ⟨n, (hmem2 n).mpr (Or.inr hn), rfl⟩

/-- The effect of `set_not_evicted` on an evicted pool with cost node `e` and head
descriptor `r`. -/
theorem set_not_evicted_evicted (fl : BuildFlags) (pid : Nat) (w : World) (r : Rematerializer)
    (e : Nat) (hev : (w.pools pid).is_evicted = true) (hecn : (w.pools pid).ecn = some e)
    (hhead : (w.pools pid).head_remat = some r) :
    AliasPool.set_not_evicted fl pid w = Except.ok
      (emit (set_pool
          { w with heap := (update_t w.heap e
              (CheckpointInfo.mk ((get_t w.heap e).compute_cost - r.compute_cost))) }
          pid { w.pools pid with is_evicted := false, ecn := none })
        (if fl.MULTI_MODE = true then Event.add_ap (w.pools pid).device_id pid
         else Event.pool_add pid)) := by
  unfold AliasPool.set_not_evicted
  rw [if_pos hev]
  simp only [set_pool_same, hecn, hhead]
  cases hm : fl.MULTI_MODE
  · simp only [Bool.false_eq_true, if_false, emit, set_pool]
    congr 2
    funext i
    by_cases hi : i = pid <;> simp [hi]
  · simp only [if_true, emit, set_pool]
    congr 2
    funext i
    by_cases hi : i = pid <;> simp [hi]

theorem cost_eq (α : Type) (fl : BuildFlags) (cpi_cost : CheckpointInfo → Nat → Int → α)
    (get_dependency : Int) (pid : Nat) (current_time : Int) (w : World) (r : Rematerializer)
    (hhead : (w.pools pid).head_remat = some r) :
    ∃ nb2, AliasPool.cost fl cpi_cost get_dependency pid current_time w =
      Except.ok (cpi_cost (CheckpointInfo.mk (cost_total w pid r)) (w.pools pid).memory
          (cost_staleness fl get_dependency current_time (w.pools pid)),
        set_pool w pid { w.pools pid with neighbors := nb2 }) := by
  obtain ⟨ecns, nb2, hne, hnd, hmem⟩ := neighbor_ecn_spec pid w
  have hperm : ecns.Perm (neighbor_nodes w pid).dedup := by
    apply (List.perm_ext_iff_of_nodup hnd (List.nodup_dedup _)).mpr
    intro a
    rw [hmem, List.mem_dedup, mem_neighbor_nodes]
  have hsum : (ecns.map (fun n => (get_t w.heap n).compute_cost)).sum =
      ((neighbor_nodes w pid).dedup.map (fun n => (get_t w.heap n).compute_cost)).sum :=
    (hperm.map _).sum_eq
  refine ⟨nb2, ?_⟩
  unfold AliasPool.cost
  rw [hhead]
  dsimp only
  rw [hne]
  dsimp only
  have hheap : (set_pool w pid { w.pools pid with neighbors := nb2 }).heap = w.heap := rfl
  rw [hheap, merge_cpi_foldl, hsum]
  simp only [set_pool_same, cost_staleness, cost_total, Rematerializer.get_cpi]
  split_ifs <;> rfl

theorem chain_heap_wf : chain_heap.wf := by
  refine ⟨?_, fun i => i, ?_⟩
  · intro i p hp
    simp only [chain_heap] at hp ⊢
    by_cases hi : i = 0
    · subst hi; simp at hp; omega
    · simp [hi] at hp
  · intro i p hp
    simp only [chain_heap] at hp
    by_cases hi : i = 0
    · subst hi
      simp at hp
      show 0 < p
      omega
    · simp [hi] at hp

theorem chain_world_pointers : ecn_pointers_valid chain_world := by
  intro q n hn
  simp only [chain_world, chain_heap] at hn ⊢
  by_cases h0 : q = 0
  · subst h0; simp [sample_pool] at hn
  · by_cases h1 : q = 1
    · subst h1; simp at hn; omega
    · by_cases h2 : q = 2
      · subst h2; simp at hn; omega
      · by_cases h3 : q = 3
        · subst h3; simp at hn; omega
        · simp [h0, h1, h2, h3, blank_pool] at hn

/-! ## Eviction: claims C1 and C2 -/

/-- C1 (amended): for every pool with a head descriptor, no merged cost node,
`memory > 0`, `lock_count = 0` and `is_evicted = false`, `evict` in soft (0) or destruct
(1) mode returns with `is_evicted = true` and a non-null merged cost node stored in the
pool, and `cell->evict()` is invoked once per live member reference (exactly once on
each live member cell when the member list has no repetition) and never on a dead one. -/
theorem evict_marks_pool_evicted (pid : Nat) (mode : Int) (w : World) (r : Rematerializer)
    (hhead : (w.pools pid).head_remat = some r)
    (_hecn : (w.pools pid).ecn = none) (_hmem : (w.pools pid).memory > 0)
    (_hlock : (w.pools pid).lock_count = 0) (_hres : (w.pools pid).is_evicted = false)
    (hmode : mode = 0 ∨ mode = 1) :
    ∃ w2, AliasPool.evict pid mode w = Except.ok w2 ∧
      (w2.pools pid).is_evicted = true ∧
      (∃ n, (w2.pools pid).ecn = some n) ∧
      (∀ c, cell_evict_calls c (new_events w w2) = (live_tensors w pid).count c) ∧
      ((w.pools pid).tensors.Nodup → ∀ c, cell_evict_calls c (new_events w w2) =
        if c ∈ (w.pools pid).tensors ∧ (w.cells c).isSome = true then 1 else 0) := by
  have hm2 : mode ≠ 2 := by rcases hmode with h | h <;> rw [h] <;> decide
  obtain ⟨ecns, nb2, w2, hev, _, hpools, _, hevents, _, _, _⟩ := evict_spec pid mode w r hm2 hhead
  have hcount : ∀ c, cell_evict_calls c (new_events w w2) = (live_tensors w pid).count c := by
    intro c
    rw [new_events_append w w2 _ hevents]
    unfold cell_evict_calls
    have hinj : Function.Injective Event.cell_evict := by
      intro a b h; injection h
    rw [List.count_cons_of_ne (by simp), List.count_append,
      List.count_map_of_injective _ _ hinj]
    split_ifs <;> simp
  refine ⟨w2, hev, by simp [hpools], ⟨w.heap.next, by simp [hpools]⟩, hcount, ?_⟩
  intro hnd c
  rw [hcount c]
  have hnd2 : (live_tensors w pid).Nodup := hnd.filter _
  by_cases hc : c ∈ (w.pools pid).tensors ∧ (w.cells c).isSome = true
  · rw [if_pos hc]
    exact List.count_eq_one_of_mem hnd2 (by simp [live_tensors, hc.1, hc.2])
  · rw [if_neg hc]
    apply List.count_eq_zero_of_not_mem
    intro h
    simp only [live_tensors, List.mem_filter] at h
    exact hc h

/-- An instance: soft eviction of pool 0 of the sample world, whose member cell 0 is alive
and whose member cell 1 is gone. -/
theorem evict_marks_pool_evicted_witness :
    ∃ w2, AliasPool.evict 0 0 (sample_world sample_pool false) = Except.ok w2 ∧
      (w2.pools 0).is_evicted = true ∧
      (∃ n, (w2.pools 0).ecn = some n) ∧
      (∀ c, cell_evict_calls c (new_events (sample_world sample_pool false) w2) =
        (live_tensors (sample_world sample_pool false) 0).count c) ∧
      (((sample_world sample_pool false).pools 0).tensors.Nodup →
        ∀ c, cell_evict_calls c (new_events (sample_world sample_pool false) w2) =
          if c ∈ ((sample_world sample_pool false).pools 0).tensors ∧
            ((sample_world sample_pool false).cells c).isSome = true then 1 else 0) :=
  evict_marks_pool_evicted 0 0 (sample_world sample_pool false) (Rematerializer.mk 5)
    rfl rfl (by decide) rfl rfl (Or.inl rfl)

/-- C1, as stated, fails on a pool without head descriptor: all four listed
preconditions hold, yet `evict(0)` dereferences the null `head_remat` on line 59 and
does not finish. -/
theorem evict_without_head_faults :
    ((sample_world { sample_pool with head_remat := none } false).pools 0).ecn = none ∧
    ((sample_world { sample_pool with head_remat := none } false).pools 0).memory > 0 ∧
    ((sample_world { sample_pool with head_remat := none } false).pools 0).lock_count = 0 ∧
    ((sample_world { sample_pool with head_remat := none } false).pools 0).is_evicted = false ∧
    AliasPool.evict 0 0 (sample_world { sample_pool with head_remat := none } false) =
      Except.error Fault.null_deref :=
  ⟨rfl, by decide, rfl, rfl, rfl⟩

/-- C2 at a failing input: `evict(0)` on a pool with `lock_count = 1` is not rejected; it
returns, marks the pool evicted, stores a fresh cost node in it and evicts the live
member cell 0. -/
theorem evict_on_locked_pool_proceeds :
    ((sample_world { sample_pool with lock_count := 1 } false).pools 0).lock_count = 1 ∧
    ∃ w2, AliasPool.evict 0 0 (sample_world { sample_pool with lock_count := 1 } false) =
        Except.ok w2 ∧
      (w2.pools 0).is_evicted = true ∧ (w2.pools 0).ecn = some 0 ∧
      w2.heap.next = 1 ∧
      w2.events = [Event.evict_enter 0 0, Event.cell_evict 0] :=
  ⟨rfl, _, rfl, rfl, rfl, rfl, rfl⟩

/-! ## Locks and automatic eviction: claim C3 -/

/-- C3: whenever `unlock()` or `release_external()` enters `evict`, the pool's
`lock_count` after the call's decrement is not greater than zero; on a pool whose
`lock_count` is still positive both return having changed nothing but their counters
(`lock_count`, and `remat_count` when `unlock` calls `unlock_remated`; `external_count`). -/
theorem no_automatic_eviction_while_locked (fl : BuildFlags) (pid : Nat) (w : World) :
    (∃ w2, AliasPool.unlock fl pid w = Except.ok w2 ∧
      (w2.pools pid).lock_count = (w.pools pid).lock_count - 1 ∧
      ((∃ m, evicted_in pid m w w2) → ¬ (w2.pools pid).lock_count > 0) ∧
      ((w.pools pid).lock_count - 1 > 0 →
        w2 = set_pool w pid (unlock_dec fl (w.pools pid)) ∧ new_events w w2 = [] ∧
        (w2.pools pid).is_evicted = (w.pools pid).is_evicted)) ∧
    (∃ w3, AliasPool.release_external pid w = Except.ok w3 ∧
      (w3.pools pid).lock_count = (w.pools pid).lock_count ∧
      ((∃ m, evicted_in pid m w w3) → ¬ (w3.pools pid).lock_count > 0) ∧
      ((w.pools pid).lock_count > 0 →
        w3 = set_pool w pid (release_dec (w.pools pid)) ∧ new_events w w3 = [] ∧
        (w3.pools pid).is_evicted = (w.pools pid).is_evicted)) := by
  constructor
  · by_cases ht : unlock_triggers fl (w.pools pid) w.during_backward
    · obtain ⟨w2, hev, _, _, hlock, _, _, _⟩ := evict_guarded pid
        (set_pool w pid (unlock_dec fl (w.pools pid)))
        (by rw [set_pool_same]; exact (can_evict_now_unlock_dec fl _).mpr ht.2.2)
      rw [set_pool_same] at hlock
      have hz : (w.pools pid).lock_count - 1 = 0 := by
        rcases ht.2.1 with h | h
        · exact h.2.2.2.1
        · exact h.2.2.2
      refine ⟨w2, by rw [unlock_of_triggers fl pid w ht, hev], by rw [hlock]; rfl, ?_, ?_⟩
      · intro _
        rw [hlock]
        show ¬ (w.pools pid).lock_count - 1 > 0
        omega
      · intro h; omega
    · refine ⟨_, unlock_of_not_triggers fl pid w ht, by rw [set_pool_same]; rfl, ?_, ?_⟩
      · rintro ⟨m, hm⟩
        simp [evicted_in, new_events, set_pool] at hm
      · intro _
        exact ⟨rfl, by simp [new_events, set_pool], by rw [set_pool_same]; rfl⟩
  · by_cases ht : release_triggers (w.pools pid)
    · obtain ⟨w2, hev, _, _, hlock, _, _, _⟩ := evict_guarded pid
        (set_pool w pid (release_dec (w.pools pid)))
        (by rw [set_pool_same]; exact ht.2.2.2)
      rw [set_pool_same] at hlock
      refine ⟨w2, by rw [release_external_of_triggers pid w ht, hev], by rw [hlock]; rfl,
        ?_, ?_⟩
      · intro _
        rw [hlock]
        exact ht.2.2.1
      · intro h; exact absurd h ht.2.2.1
    · refine ⟨_, release_external_of_not_triggers pid w ht, by rw [set_pool_same]; rfl,
        ?_, ?_⟩
      · rintro ⟨m, hm⟩
        simp [evicted_in, new_events, set_pool] at hm
      · intro _
        exact ⟨rfl, by simp [new_events, set_pool], by rw [set_pool_same]; rfl⟩

/-! ## Merged costs: claims C4 to C7 -/

/-- C4: on a well-formed cost store, for every pool that satisfies the preconditions of
`evict` (no merged cost node, `memory > 0`, `lock_count = 0`, not evicted) and has a head
descriptor, `evict` in soft or destruct mode returns with
a merged cost node `e` stored in the pool; the cost read through `e` is the head
descriptor's compute cost plus the sum of the costs held before the call by the
distinct cost classes of the live neighbours, and the cost node of every such
neighbour then resolves to that same total. -/
theorem evict_merges_neighbor_costs (pid : Nat) (mode : Int) (w : World) (r : Rematerializer)
    (hwf : w.heap.wf) (hptr : ecn_pointers_valid w)
    (hhead : (w.pools pid).head_remat = some r)
    (hecn : (w.pools pid).ecn = none) (_hmem : (w.pools pid).memory > 0)
    (_hlock : (w.pools pid).lock_count = 0) (_hres : (w.pools pid).is_evicted = false)
    (hmode : mode = 0 ∨ mode = 1) :
    ∃ w2 e, AliasPool.evict pid mode w = Except.ok w2 ∧ (w2.pools pid).ecn = some e ∧
      (get_t w2.heap e).compute_cost = r.compute_cost + neighbor_class_cost w pid ∧
      (∀ n ∈ neighbor_nodes w pid,
        (get_t w2.heap n).compute_cost = r.compute_cost + neighbor_class_cost w pid) := by
  have hm2 : mode ≠ 2 := by rcases hmode with h | h <;> rw [h] <;> decide
  obtain ⟨nb2, w2, hev, hpools, _, _, hcost, hsame⟩ :=
    evict_cost_spec pid mode w r hwf hptr hm2 hhead hecn
  refine ⟨w2, w.heap.next, hev, by simp [hpools], hcost, ?_⟩
  intro n hn
  rw [← hcost]
  unfold get_t
  rw [hsame n hn]

/-- An instance: soft eviction of pool 0 of `chain_world`, whose three live neighbours hold
nodes of two cost classes with costs 7 and 3. -/
theorem evict_merges_neighbor_costs_witness :
    neighbor_nodes chain_world 0 = [0, 1, 2] ∧ neighbor_class_cost chain_world 0 = 10 ∧
    ∃ w2 e, AliasPool.evict 0 0 chain_world = Except.ok w2 ∧ (w2.pools 0).ecn = some e ∧
      (get_t w2.heap e).compute_cost =
        (Rematerializer.mk 5).compute_cost + neighbor_class_cost chain_world 0 ∧
      (∀ n ∈ neighbor_nodes chain_world 0,
        (get_t w2.heap n).compute_cost =
          (Rematerializer.mk 5).compute_cost + neighbor_class_cost chain_world 0) :=
  ⟨by decide, by decide,
    evict_merges_neighbor_costs 0 0 chain_world (Rematerializer.mk 5) chain_heap_wf
      chain_world_pointers rfl rfl (by decide) rfl rfl (Or.inl rfl)⟩

/-- C5, as worded, fails when two live neighbour references lead to the same cost node:
`neighbor_ecn` collects the nodes in a set, so the node is scored once.  Pool 0 of
`shared_world` has head cost 5 and two live neighbours in pool 1, whose node holds 7:
`cost` scores 12, the sum over each live neighbour is 19. -/
theorem cost_counts_shared_node_once :
    neighbor_nodes shared_world 0 = [0, 0] ∧
    cost_total_per_neighbor shared_world 0 (Rematerializer.mk 5) = 19 ∧
    ∃ w1, AliasPool.cost (BuildFlags.mk false false false)
        (fun cpi _ _ => cpi.compute_cost) 0 0 10 shared_world = Except.ok (12, w1) :=
  ⟨by decide, by decide, _, rfl⟩

/-- C5 (amended): on a pool with a head descriptor `cost(current_time)` returns the
scoring function applied to a total compute cost, to `memory` and to the elapsed time
`current_time - last_used_time` (multiplied by `1 + 100 * get_dependency()` in a build
with `DEPENDENCY_CHECK`); the total is the head compute cost plus the sum, over the
distinct cost nodes of the live neighbours, of the node's current cost read through
its representative.  Stale neighbours and neighbours without cost node contribute
nothing, and the call changes nothing but the pool's neighbour list. -/
theorem cost_scores_distinct_neighbor_nodes (α : Type) (fl : BuildFlags)
    (cpi_cost : CheckpointInfo → Nat → Int → α) (get_dependency : Int) (pid : Nat)
    (current_time : Int) (w : World) (r : Rematerializer)
    (hhead : (w.pools pid).head_remat = some r) :
    ∃ score w1 nb2, AliasPool.cost fl cpi_cost get_dependency pid current_time w =
        Except.ok (score, w1) ∧
      w1 = set_pool w pid { w.pools pid with neighbors := nb2 } ∧
      score = cpi_cost
        (CheckpointInfo.mk (r.compute_cost +
          ((neighbor_nodes w pid).dedup.map (fun n => (get_t w.heap n).compute_cost)).sum))
        (w.pools pid).memory
        (if fl.DEPENDENCY_CHECK = true then
          (current_time - (w.pools pid).last_used_time) * (1 + get_dependency * 100)
         else current_time - (w.pools pid).last_used_time) ∧
      (∀ n, n ∈ (neighbor_nodes w pid).dedup ↔
        ∃ ref cptc, ref ∈ (w.pools pid).neighbors ∧ w.cells ref = some cptc ∧
          (w.pools cptc.pool).ecn = some n) := by
  obtain ⟨nb2, hc⟩ := cost_eq α fl cpi_cost get_dependency pid current_time w r hhead
  refine ⟨_, _, nb2, hc, rfl, rfl, ?_⟩
  intro n
  rw [List.mem_dedup, mem_neighbor_nodes]
  constructor
  · rintro ⟨ref, h1, h2⟩
    unfold neighbor_node at h2
    cases hcell : w.cells ref with
    | none => simp [hcell] at h2
    | some cptc =>
      simp only [hcell] at h2
      exact ⟨ref, cptc, h1, hcell, h2⟩
  · rintro ⟨ref, cptc, h1, h2, h3⟩
    exact ⟨ref, h1, by simp [neighbor_node, h2, h3]⟩

/-- An instance: the score of pool 0 of `shared_world` at time 10, with a scoring function
that returns its three arguments. -/
theorem cost_scores_distinct_neighbor_nodes_witness :
    ∃ score w1 nb2, AliasPool.cost (BuildFlags.mk false false false)
        (fun cpi memory elapsed => (cpi.compute_cost, memory, elapsed)) 0 0 10 shared_world =
        Except.ok (score, w1) ∧
      w1 = set_pool shared_world 0 { shared_world.pools 0 with neighbors := nb2 } ∧
      score = (fun (cpi : CheckpointInfo) (memory : Nat) (elapsed : Int) =>
          (cpi.compute_cost, memory, elapsed))
        (CheckpointInfo.mk ((Rematerializer.mk 5).compute_cost +
          ((neighbor_nodes shared_world 0).dedup.map
            (fun n => (get_t shared_world.heap n).compute_cost)).sum))
        (shared_world.pools 0).memory
        (if (BuildFlags.mk false false false).DEPENDENCY_CHECK = true then
          (10 - (shared_world.pools 0).last_used_time) * (1 + 0 * 100)
         else 10 - (shared_world.pools 0).last_used_time) ∧
      (∀ n, n ∈ (neighbor_nodes shared_world 0).dedup ↔
        ∃ ref cptc, ref ∈ (shared_world.pools 0).neighbors ∧
          shared_world.cells ref = some cptc ∧
          (shared_world.pools cptc.pool).ecn = some n) :=
  cost_scores_distinct_neighbor_nodes (Int × Nat × Int) (BuildFlags.mk false false false)
    (fun cpi memory elapsed => (cpi.compute_cost, memory, elapsed)) 0 0 10 shared_world
    (Rematerializer.mk 5) rfl

/-- C6: on an evicted pool that holds a merged cost node `e` (and has the head descriptor
whose cost is subtracted) `set_not_evicted` clears `is_evicted`, sets the pool's cost node
to null, lowers the cost of the representative of `e` by exactly the head compute cost,
leaves the representative of every node and the cost of every other class unchanged,
and registers the pool exactly once with the pool index (the single new event); on a
pool that is not evicted it returns the state it was given. -/
theorem set_not_evicted_effect (fl : BuildFlags) (pid : Nat) (w : World) :
    (∀ (r : Rematerializer) (e : Nat), (w.pools pid).is_evicted = true →
      (w.pools pid).ecn = some e → (w.pools pid).head_remat = some r →
      ∃ w2, AliasPool.set_not_evicted fl pid w = Except.ok w2 ∧
        (w2.pools pid).is_evicted = false ∧ (w2.pools pid).ecn = none ∧
        (w2.heap.info (find_root w.heap e)).compute_cost =
          (w.heap.info (find_root w.heap e)).compute_cost - r.compute_cost ∧
        (∀ x, find_root w2.heap x = find_root w.heap x) ∧
        (∀ x, find_root w.heap x ≠ find_root w.heap e → get_t w2.heap x = get_t w.heap x) ∧
        (∀ i, i ≠ find_root w.heap e → w2.heap.info i = w.heap.info i) ∧
        new_events w w2 = [if fl.MULTI_MODE = true then Event.add_ap (w.pools pid).device_id pid
                           else Event.pool_add pid] ∧
        (∀ q, q ≠ pid → w2.pools q = w.pools q) ∧
        w2.pools pid = { w.pools pid with is_evicted := false, ecn := none } ∧
        w2.cells = w.cells) ∧
    ((w.pools pid).is_evicted = false → AliasPool.set_not_evicted fl pid w = Except.ok w) := by
  constructor
  · intro r e hev hecn hhead
    refine ⟨_, set_not_evicted_evicted fl pid w r e hev hecn hhead, ?_, ?_, ?_, ?_, ?_, ?_, ?_,
      ?_, ?_, rfl⟩
    · simp [emit, set_pool]
    · simp [emit, set_pool]
    · simp [emit, set_pool, update_t, get_t]
    · intro x
      simp only [emit, set_pool]
      exact find_root_update_t _ _ _ _
    · intro x hx
      simp only [emit, set_pool, get_t]
      rw [find_root_update_t]
      simp [update_t, hx]
    · intro i hi
      simp [emit, set_pool, update_t, hi]
    · simp [new_events, emit, set_pool]
    · intro q hq
      simp [emit, set_pool, hq]
    · simp [emit, set_pool]
  · intro hev
    unfold AliasPool.set_not_evicted
    rw [if_neg (by rw [hev]; decide)]

/-- An instance: pool 0 of `chain_world` after a soft eviction (evicted, cost node 3, head
cost 5), and pool 0 of `chain_world` itself (not evicted). -/
theorem set_not_evicted_effect_witness :
    ∃ w1, AliasPool.evict 0 0 chain_world = Except.ok w1 ∧
      (w1.pools 0).is_evicted = true ∧ (w1.pools 0).ecn = some 3 ∧
      (w1.pools 0).head_remat = some (Rematerializer.mk 5) ∧
      (∃ w2, AliasPool.set_not_evicted (BuildFlags.mk false false false) 0 w1 = Except.ok w2 ∧
        (w2.pools 0).is_evicted = false ∧ (w2.pools 0).ecn = none ∧
        (w2.heap.info (find_root w1.heap 3)).compute_cost =
          (w1.heap.info (find_root w1.heap 3)).compute_cost -
            (Rematerializer.mk 5).compute_cost ∧
        (∀ x, find_root w2.heap x = find_root w1.heap x) ∧
        (∀ x, find_root w1.heap x ≠ find_root w1.heap 3 → get_t w2.heap x = get_t w1.heap x) ∧
        (∀ i, i ≠ find_root w1.heap 3 → w2.heap.info i = w1.heap.info i) ∧
        new_events w1 w2 =
          [if (BuildFlags.mk false false false).MULTI_MODE = true
            then Event.add_ap (w1.pools 0).device_id 0 else Event.pool_add 0] ∧
        (∀ q, q ≠ 0 → w2.pools q = w1.pools q) ∧
        w2.pools 0 = { w1.pools 0 with is_evicted := false, ecn := none } ∧
        w2.cells = w1.cells) ∧
      AliasPool.set_not_evicted (BuildFlags.mk false false false) 0 chain_world =
        Except.ok chain_world :=
  ⟨_, rfl, rfl, rfl, rfl,
    (set_not_evicted_effect (BuildFlags.mk false false false) 0 _).1 (Rematerializer.mk 5) 3
      rfl rfl rfl,
    (set_not_evicted_effect (BuildFlags.mk false false false) 0 chain_world).2 rfl⟩

/-- C7: on a well-formed cost store, for every pool that satisfies the preconditions of
`evict` and has a head descriptor, a soft `evict` followed by `set_not_evicted` leaves
the cost class the pool had joined with a total equal to the sum of the costs that the
distinct cost classes of its live neighbours held before the eviction: every node of
that class, in particular the node of every such neighbour, reads that sum, so the
head compute cost is no longer included; the pool is left without cost node. -/
theorem evict_then_set_not_evicted_restores_cost (fl : BuildFlags) (pid : Nat) (w : World)
    (r : Rematerializer) (hwf : w.heap.wf) (hptr : ecn_pointers_valid w)
    (hhead : (w.pools pid).head_remat = some r)
    (hecn : (w.pools pid).ecn = none) (_hmem : (w.pools pid).memory > 0)
    (_hlock : (w.pools pid).lock_count = 0) (_hres : (w.pools pid).is_evicted = false) :
    ∃ w2 w3 e, AliasPool.evict pid 0 w = Except.ok w2 ∧ (w2.pools pid).ecn = some e ∧
      (get_t w2.heap e).compute_cost = r.compute_cost + neighbor_class_cost w pid ∧
      AliasPool.set_not_evicted fl pid w2 = Except.ok w3 ∧
      (w3.pools pid).ecn = none ∧ (w3.pools pid).is_evicted = false ∧
      (∀ x, find_root w2.heap x = find_root w2.heap e →
        (get_t w3.heap x).compute_cost = neighbor_class_cost w pid) ∧
      (∀ n ∈ neighbor_nodes w pid,
        (get_t w3.heap n).compute_cost = neighbor_class_cost w pid) := by
  obtain ⟨nb2, w2, hev, hpools, _, _, hcost, hsame⟩ :=
    evict_cost_spec pid 0 w r hwf hptr (by decide) hhead hecn
  have h1 : (w2.pools pid).is_evicted = true := by simp [hpools]
  have h2 : (w2.pools pid).ecn = some w.heap.next := by simp [hpools]
  have h3 : (w2.pools pid).head_remat = some r := by simp [hpools, hhead]
  have hclass : ∀ x, find_root w2.heap x = find_root w2.heap w.heap.next →
      (get_t (emit (set_pool
          { w2 with heap := (update_t w2.heap w.heap.next
              (CheckpointInfo.mk ((get_t w2.heap w.heap.next).compute_cost - r.compute_cost))) }
          pid { w2.pools pid with is_evicted := false, ecn := none })
        (if fl.MULTI_MODE = true then Event.add_ap (w2.pools pid).device_id pid
         else Event.pool_add pid)).heap x).compute_cost = neighbor_class_cost w pid := by
    intro x hx
    simp only [emit, set_pool, get_t]
    rw [find_root_update_t]
    simp only [update_t, hx, if_true]
    have := hcost
    unfold get_t at this
    rw [this]
    ring
  refine ⟨w2, _, w.heap.next, hev, h2, hcost,
    set_not_evicted_evicted fl pid w2 r w.heap.next h1 h2 h3, ?_, ?_, hclass, ?_⟩
  · simp [emit, set_pool]
  · simp [emit, set_pool]
  · intro n hn
    exact hclass n (hsame n hn)

/-- An instance: soft eviction and un-eviction of pool 0 of `chain_world`; the class it had
joined is left with cost 10. -/
theorem evict_then_set_not_evicted_restores_cost_witness :
    neighbor_class_cost chain_world 0 = 10 ∧
    ∃ w2 w3 e, AliasPool.evict 0 0 chain_world = Except.ok w2 ∧ (w2.pools 0).ecn = some e ∧
      (get_t w2.heap e).compute_cost =
        (Rematerializer.mk 5).compute_cost + neighbor_class_cost chain_world 0 ∧
      AliasPool.set_not_evicted (BuildFlags.mk false false false) 0 w2 = Except.ok w3 ∧
      (w3.pools 0).ecn = none ∧ (w3.pools 0).is_evicted = false ∧
      (∀ x, find_root w2.heap x = find_root w2.heap e →
        (get_t w3.heap x).compute_cost = neighbor_class_cost chain_world 0) ∧
      (∀ n ∈ neighbor_nodes chain_world 0,
        (get_t w3.heap n).compute_cost = neighbor_class_cost chain_world 0) :=
  ⟨by decide,
    evict_then_set_not_evicted_restores_cost (BuildFlags.mk false false false) 0 chain_world
      (Rematerializer.mk 5) chain_heap_wf chain_world_pointers rfl rfl (by decide) rfl rfl⟩

/-! ## When the automatic paths evict: claims C8 to C10 -/

/-- C8, as stated, fails during the backward pass: a pool with `retain_count = 1` whose
other counters reach zero is evicted by `unlock()` through the check of lines 119-125,
which does not read `retain_count`. -/
theorem unlock_evicts_retained_pool_during_backward :
    ((sample_world { sample_pool with lock_count := 1, retain_count := 1, is_retain := true }
      true).pools 0).retain_count = 1 ∧
    ∃ w2, AliasPool.unlock (BuildFlags.mk false false false) 0
        (sample_world { sample_pool with lock_count := 1, retain_count := 1, is_retain := true }
          true) = Except.ok w2 ∧
      (w2.pools 0).is_evicted = true ∧
      w2.events = [Event.evict_enter 0 1, Event.cell_evict 0, Event.erase_ap 0 64] :=
  ⟨rfl, _, rfl, rfl, rfl⟩

/-- C8 (amended): `unlock()` returns with `lock_count` decremented by one.  It enters
`evict` only in destruct mode and only if, after its decrements, `remat_count`,
`external_count` and `lock_count` are zero, the pool had `memory > 0`, no merged cost
node and a head descriptor, and in addition either `retain_count` is zero or the
backward flag is set; whenever it does not enter `evict`, it changes nothing but the
counters `lock_count` and `remat_count` and logs nothing.  The exact condition for the
eviction is `unlock_triggers`. -/
theorem unlock_evicts_only_when_idle (fl : BuildFlags) (pid : Nat) (w : World) :
    ∃ w2, AliasPool.unlock fl pid w = Except.ok w2 ∧
      (w2.pools pid).lock_count = (w.pools pid).lock_count - 1 ∧
      (∀ m, evicted_in pid m w w2 →
        m = 1 ∧ (w2.pools pid).remat_count = 0 ∧ (w2.pools pid).external_count = 0 ∧
        (w2.pools pid).lock_count = 0 ∧
        ((w.pools pid).retain_count = 0 ∨ w.during_backward = true) ∧
        (w.pools pid).memory > 0 ∧ (w.pools pid).ecn = none ∧
        (w.pools pid).head_remat.isSome = true) ∧
      (evicted_in pid 1 w w2 ↔ unlock_triggers fl (w.pools pid) w.during_backward) ∧
      ((¬ ∃ m, evicted_in pid m w w2) →
        w2 = set_pool w pid (unlock_dec fl (w.pools pid)) ∧ new_events w w2 = [] ∧
        (w2.pools pid).is_evicted = (w.pools pid).is_evicted) := by
  by_cases ht : unlock_triggers fl (w.pools pid) w.during_backward
  · obtain ⟨w2, hev, _, _, hlock, hext, _, hmodes⟩ := evict_guarded pid
      (set_pool w pid (unlock_dec fl (w.pools pid)))
      (by rw [set_pool_same]; exact (can_evict_now_unlock_dec fl _).mpr ht.2.2)
    have hev2 := hev
    obtain ⟨r, hr⟩ := Option.isSome_iff_exists.mp ht.2.2.2.2
    obtain ⟨_, _, w2b, hevb, _, hpools, _, hevents, _, _, _⟩ := evict_spec pid 1
      (set_pool w pid (unlock_dec fl (w.pools pid))) r (by decide)
      (by rw [set_pool_same]; exact hr)
    rw [hevb] at hev2
    have hw : w2b = w2 := by injection hev2
    subst hw
    rw [set_pool_same] at hlock hext hpools
    have hremat : (w2b.pools pid).remat_count = (unlock_dec fl (w.pools pid)).remat_count := by
      simp [hpools]
    have hnew : ∀ m, evicted_in pid m w w2b ↔ m = 1 := by
      intro m
      have := hmodes m
      simpa [evicted_in, new_events, set_pool] using this
    refine ⟨w2b, by rw [unlock_of_triggers fl pid w ht, hev], by rw [hlock]; rfl, ?_,
      ⟨fun _ => ht, fun _ => (hnew 1).mpr rfl⟩, ?_⟩
    · intro m hm
      refine ⟨(hnew m).mp hm, ?_, ?_, ?_, ?_, ht.2.2.1, ht.2.2.2.1, ht.2.2.2.2⟩
      · rw [hremat]
        rcases ht.2.1 with h | h
        · simp only [unlock_dec, ht.1, h.1, and_self, if_true]; exact h.2.1
        · exact h.2.1
      · rw [hext]
        rcases ht.2.1 with h | h
        · exact h.2.2.1
        · exact h.2.2.1
      · rw [hlock]
        rcases ht.2.1 with h | h
        · exact h.2.2.2.1
        · exact h.2.2.2
      · rcases ht.2.1 with h | h
        · exact Or.inl h.2.2.2.2
        · exact Or.inr h.1
    · intro hno
      exact absurd ⟨1, (hnew 1).mpr rfl⟩ hno
  · refine ⟨_, unlock_of_not_triggers fl pid w ht, by rw [set_pool_same]; rfl, ?_, ?_, ?_⟩
    · intro m hm
      simp [evicted_in, new_events, set_pool] at hm
    · constructor
      · intro hm
        simp [evicted_in, new_events, set_pool] at hm
      · intro h; exact absurd h ht
    · intro _
      exact ⟨rfl, by simp [new_events, set_pool], by rw [set_pool_same]; rfl⟩

/-- C9: `release_external()` returns with `external_count` decremented by exactly one.
On a pool whose `lock_count` is not negative it enters `evict`, in destruct mode only,
if and only if the decremented `external_count` is zero, `lock_count` is zero, the pool
is not marked `if_weight`, `memory > 0`, no merged cost node is set and a head descriptor
exists; on a pool marked `if_weight` it changes nothing but `external_count`. -/
theorem release_external_evicts_iff (pid : Nat) (w : World)
    (hlock : 0 ≤ (w.pools pid).lock_count) :
    ∃ w2, AliasPool.release_external pid w = Except.ok w2 ∧
      (w2.pools pid).external_count = (w.pools pid).external_count - 1 ∧
      (evicted_in pid 1 w w2 ↔
        ((w.pools pid).external_count - 1 = 0 ∧ (w.pools pid).lock_count = 0 ∧
          (w.pools pid).if_weight = false ∧ (w.pools pid).memory > 0 ∧
          (w.pools pid).ecn = none ∧ (w.pools pid).head_remat.isSome = true)) ∧
      (∀ m, evicted_in pid m w w2 → m = 1) ∧
      ((w.pools pid).if_weight = true →
        w2 = set_pool w pid (release_dec (w.pools pid)) ∧ new_events w w2 = []) := by
  by_cases ht : release_triggers (w.pools pid)
  · obtain ⟨w2, hev, _, _, _, hext, _, hmodes⟩ := evict_guarded pid
      (set_pool w pid (release_dec (w.pools pid)))
      (by rw [set_pool_same]; exact ht.2.2.2)
    rw [set_pool_same] at hext
    have hnew : ∀ m, evicted_in pid m w w2 ↔ m = 1 := by
      intro m
      have := hmodes m
      simpa [evicted_in, new_events, set_pool] using this
    obtain ⟨h1, h2, h3, h4, h5, h6⟩ := ht
    refine ⟨w2, by rw [release_external_of_triggers pid w ⟨h1, h2, h3, h4, h5, h6⟩, hev],
      by rw [hext]; rfl, ?_, fun m hm => (hnew m).mp hm, ?_⟩
    · constructor
      · intro _
        exact ⟨h1, by omega, h2, h4, h5, h6⟩
      · intro _
        exact (hnew 1).mpr rfl
    · intro hw
      rw [h2] at hw
      cases hw
  · refine ⟨_, release_external_of_not_triggers pid w ht, by rw [set_pool_same]; rfl,
      ?_, ?_, ?_⟩
    · constructor
      · intro hm
        simp [evicted_in, new_events, set_pool] at hm
      · rintro ⟨h1, h2, h3, h4, h5, h6⟩
        exact absurd ⟨h1, h3, by omega, h4, h5, h6⟩ ht
    · intro m hm
      simp [evicted_in, new_events, set_pool] at hm
    · intro _
      exact ⟨rfl, by simp [new_events, set_pool]⟩

/-- An instance: the last external holder of pool 0 of `held_world` is released. -/
theorem release_external_evicts_iff_witness :
    ∃ w2, AliasPool.release_external 0 held_world = Except.ok w2 ∧
      (w2.pools 0).external_count = (held_world.pools 0).external_count - 1 ∧
      (evicted_in 0 1 held_world w2 ↔
        ((held_world.pools 0).external_count - 1 = 0 ∧ (held_world.pools 0).lock_count = 0 ∧
          (held_world.pools 0).if_weight = false ∧ (held_world.pools 0).memory > 0 ∧
          (held_world.pools 0).ecn = none ∧ (held_world.pools 0).head_remat.isSome = true)) ∧
      (∀ m, evicted_in 0 m held_world w2 → m = 1) ∧
      ((held_world.pools 0).if_weight = true →
        w2 = set_pool held_world 0 (release_dec (held_world.pools 0)) ∧
        new_events held_world w2 = []) :=
  release_external_evicts_iff 0 held_world (by decide)

/-- C10, as stated, fails: after `decheckpoint(t, true)` has set `is_retain` on the pool
of `t`, a `release_external()` that brings `external_count` to zero evicts that pool. -/
theorem release_external_evicts_after_decheckpoint :
    ∃ t w1 w2,
      decheckpoint resident_get id (Tensor.checkpoint 0) true held_world = Except.ok (t, w1) ∧
      (w1.pools 0).is_retain = true ∧
      AliasPool.release_external 0 w1 = Except.ok w2 ∧
      (w2.pools 0).is_evicted = true ∧
      w2.events = [Event.evict_enter 0 1, Event.cell_evict 0, Event.erase_ap 0 64] :=
  ⟨_, _, _, rfl, rfl, rfl, rfl, rfl⟩

/-- C10 (amended): `decheckpoint(t, true)` sets `is_retain` on the pool of the cell of `t`
and then calls the cell's `get()`; `unlock()` and `release_external()` do not read that
flag, so each of them evicts the pool exactly when it would with the flag at any other
value.  The retain condition of the automatic paths is on `retain_count`: a pool with
`retain_count ≠ 0` is not evicted by `unlock()` while the backward flag is clear. -/
theorem is_retain_not_read_by_automatic_paths
    (cell_get : Nat → World → Except Fault (Nat × World)) (detach : Nat → Nat)
    (fl : BuildFlags) (c : Nat) (cell : CheckpointTensorCell) (w : World)
    (hc : w.cells c = some cell) :
    (decheckpoint cell_get detach (Tensor.checkpoint c) true w =
      match cell_get c (with_is_retain w cell.pool true) with
      | Except.error f => Except.error f
      | Except.ok (res, w2) => Except.ok (Tensor.raw (detach res), w2)) ∧
    ((with_is_retain w cell.pool true).pools cell.pool).is_retain = true ∧
    (∀ (pid : Nat) (v : World) (b : Bool),
      ((∃ v2, AliasPool.unlock fl pid (with_is_retain v pid b) = Except.ok v2 ∧
          evicted_in pid 1 (with_is_retain v pid b) v2) ↔
        ∃ v2, AliasPool.unlock fl pid v = Except.ok v2 ∧ evicted_in pid 1 v v2) ∧
      ((∃ v2, AliasPool.release_external pid (with_is_retain v pid b) = Except.ok v2 ∧
          evicted_in pid 1 (with_is_retain v pid b) v2) ↔
        ∃ v2, AliasPool.release_external pid v = Except.ok v2 ∧ evicted_in pid 1 v v2)) ∧
    (∀ (pid : Nat) (v : World), (v.pools pid).retain_count ≠ 0 → v.during_backward = false →
      AliasPool.unlock fl pid v = Except.ok (set_pool v pid (unlock_dec fl (v.pools pid)))) := by
  refine ⟨?_, ?_, ?_, ?_⟩
  · simp only [decheckpoint, hc, with_is_retain, if_true]
  · simp [with_is_retain, set_pool]
  · intro pid v b
    constructor
    · rw [unlock_evicts_iff_triggers, unlock_evicts_iff_triggers]
      simp only [with_is_retain, set_pool_same]
      exact unlock_triggers_is_retain fl (v.pools pid) b v.during_backward
    · rw [release_evicts_iff_triggers, release_evicts_iff_triggers]
      simp only [with_is_retain, set_pool_same]
      exact release_triggers_is_retain (v.pools pid) b
  · intro pid v hret hdb
    apply unlock_of_not_triggers
    rintro ⟨_, h | h, _⟩
    · exact hret h.2.2.2.2
    · rw [hdb] at h; cases h.1

/-- An instance: `decheckpoint` on the tensor of cell 0 of `held_world`, with the cell
materialised. -/
theorem is_retain_not_read_by_automatic_paths_witness :
    held_world.cells 0 = some (CheckpointTensorCell.mk 0 true) ∧
    ((decheckpoint resident_get id (Tensor.checkpoint 0) true held_world =
      match resident_get 0
        (with_is_retain held_world (CheckpointTensorCell.mk 0 true).pool true) with
      | Except.error f => Except.error f
      | Except.ok (res, w2) => Except.ok (Tensor.raw (id res), w2)) ∧
    ((with_is_retain held_world (CheckpointTensorCell.mk 0 true).pool true).pools
      (CheckpointTensorCell.mk 0 true).pool).is_retain = true ∧
    (∀ (pid : Nat) (v : World) (b : Bool),
      ((∃ v2, AliasPool.unlock (BuildFlags.mk false false false) pid (with_is_retain v pid b)
            = Except.ok v2 ∧
          evicted_in pid 1 (with_is_retain v pid b) v2) ↔
        ∃ v2, AliasPool.unlock (BuildFlags.mk false false false) pid v = Except.ok v2 ∧
          evicted_in pid 1 v v2) ∧
      ((∃ v2, AliasPool.release_external pid (with_is_retain v pid b) = Except.ok v2 ∧
          evicted_in pid 1 (with_is_retain v pid b) v2) ↔
        ∃ v2, AliasPool.release_external pid v = Except.ok v2 ∧ evicted_in pid 1 v v2)) ∧
    (∀ (pid : Nat) (v : World), (v.pools pid).retain_count ≠ 0 → v.during_backward = false →
      AliasPool.unlock (BuildFlags.mk false false false) pid v =
        Except.ok (set_pool v pid (unlock_dec (BuildFlags.mk false false false) (v.pools pid))))) :=
  ⟨rfl, is_retain_not_read_by_automatic_paths resident_get id
    (BuildFlags.mk false false false) 0 (CheckpointTensorCell.mk 0 true) held_world rfl⟩

/-! ## Force-destruct eviction: claim C11 -/

/-- The whole of `evict` in force-destruct mode: lines 59-63 are skipped, the pool is
marked evicted and the live member cells are evicted. -/
theorem evict_force_eq (pid : Nat) (w : World) :
    AliasPool.evict pid 2 w = Except.ok
      (evict_cells (w.pools pid).tensors
        (set_pool (emit w (Event.evict_enter pid 2)) pid
          { w.pools pid with is_evicted := true })) := by
  simp only [AliasPool.evict]
  rw [if_neg (by decide)]
  simp only [set_pool_same]
  rw [if_neg (by decide)]
  rfl

/-- C11: for every pool without merged cost node, `evict(2)` returns with the pool's
merged cost node still null; the cost store is untouched and no pool's cost node
changes (no merge has happened), the only calls that leave the pool are the
`cell->evict()` calls on the live member cells, one per live member reference (the pool
index is not notified), and `is_evicted` is true; no other field of the pool changes. -/
theorem evict_force_destruct_skips_cost_node (pid : Nat) (w : World)
    (hecn : (w.pools pid).ecn = none) :
    ∃ w2, AliasPool.evict pid 2 w = Except.ok w2 ∧
      (w2.pools pid).ecn = none ∧ w2.heap = w.heap ∧
      (∀ q, (w2.pools q).ecn = (w.pools q).ecn) ∧
      (∀ n, get_t w2.heap n = get_t w.heap n) ∧
      new_events w w2 = Event.evict_enter pid 2 :: (live_tensors w pid).map Event.cell_evict ∧
      (∀ d a, Event.erase_ap d a ∉ new_events w w2) ∧
      (∀ d q, Event.add_ap d q ∉ new_events w w2) ∧
      (∀ q, Event.pool_add q ∉ new_events w w2) ∧
      (w2.pools pid).is_evicted = true ∧
      w2.pools pid = { w.pools pid with is_evicted := true } ∧
      (∀ q, q ≠ pid → w2.pools q = w.pools q) ∧
      (∀ c, c ∈ live_tensors w pid → cell_evict_calls c (new_events w w2) ≥ 1) := by
  obtain ⟨c1, c2, _, c4, _⟩ := evict_cells_spec (w.pools pid).tensors
    (set_pool (emit w (Event.evict_enter pid 2)) pid { w.pools pid with is_evicted := true })
  have hev : new_events w (evict_cells (w.pools pid).tensors
      (set_pool (emit w (Event.evict_enter pid 2)) pid
        { w.pools pid with is_evicted := true })) =
      Event.evict_enter pid 2 :: (live_tensors w pid).map Event.cell_evict := by
    apply new_events_append
    rw [c4]
    simp [set_pool, emit, live_tensors]
  refine ⟨_, evict_force_eq pid w, ?_, ?_, ?_, ?_, hev, ?_, ?_, ?_, ?_, ?_, ?_, ?_⟩
  · rw [c2]; simp [set_pool, emit, hecn]
  · rw [c1]; rfl
  · intro q
    rw [c2]
    by_cases hq : q = pid
    · subst hq; simp [set_pool, emit]
    · simp [set_pool, emit, hq]
  · intro n; rw [c1]; rfl
  · intro d a; rw [hev]; simp
  · intro d q; rw [hev]; simp
  · intro q; rw [hev]; simp
  · rw [c2]; simp [set_pool, emit]
  · rw [c2]; simp [set_pool, emit]
  · intro q hq; rw [c2]; simp [set_pool, emit, hq]
  · intro c hc
    rw [hev]
    unfold cell_evict_calls
    have : Event.cell_evict c ∈ Event.evict_enter pid 2 :: (live_tensors w pid).map Event.cell_evict :=
      List.mem_cons_of_mem _ (List.mem_map.mpr ⟨c, hc, rfl⟩)
    exact List.count_pos_iff.mpr this

/-- An instance: force-destruct eviction of pool 0 of `chain_world`, whose neighbours
hold cost nodes. -/
theorem evict_force_destruct_skips_cost_node_witness :
    ∃ w2, AliasPool.evict 0 2 chain_world = Except.ok w2 ∧
      (w2.pools 0).ecn = none ∧ w2.heap = chain_world.heap ∧
      (∀ q, (w2.pools q).ecn = (chain_world.pools q).ecn) ∧
      (∀ n, get_t w2.heap n = get_t chain_world.heap n) ∧
      new_events chain_world w2 =
        Event.evict_enter 0 2 :: (live_tensors chain_world 0).map Event.cell_evict ∧
      (∀ d a, Event.erase_ap d a ∉ new_events chain_world w2) ∧
      (∀ d q, Event.add_ap d q ∉ new_events chain_world w2) ∧
      (∀ q, Event.pool_add q ∉ new_events chain_world w2) ∧
      (w2.pools 0).is_evicted = true ∧
      w2.pools 0 = { chain_world.pools 0 with is_evicted := true } ∧
      (∀ q, q ≠ 0 → w2.pools q = chain_world.pools q) ∧
      (∀ c, c ∈ live_tensors chain_world 0 →
        cell_evict_calls c (new_events chain_world w2) ≥ 1) :=
  evict_force_destruct_skips_cost_node 0 chain_world rfl

/-! ## The neighbour list after `neighbor_ecn`: claims C12, C13 and C20 -/

/-- The compaction done by the loop of `neighbor_ecn`: from every state with
`i ≤ size ≤ neighbors.size()` the loop returns without leaving the bounds of the
vector; positions below `i` keep their content, every entry of the vector is an entry
it had before, the live references of positions `i .. size - 1` end up at positions
`i .. size2 - 1`, and these positions hold live references only. -/
theorem neighbor_ecn_loop_list (w : World) :
    ∀ (fuel : Nat) (nb : List Nat) (i size : Nat) (s : List Nat),
      i ≤ size → size ≤ nb.length → size - i ≤ fuel →
      ∃ nb2 size2 s2, neighbor_ecn_loop w fuel nb i size s = Except.ok (nb2, size2, s2) ∧
        nb2.length = nb.length ∧ i ≤ size2 ∧ size2 ≤ size ∧
        (∀ j, j < i → nb2[j]? = nb[j]?) ∧
        (∀ x, x ∈ nb2 → x ∈ nb) ∧
        (∀ j ref, i ≤ j → j < size → nb[j]? = some ref → (w.cells ref).isSome = true →
          ∃ k, i ≤ k ∧ k < size2 ∧ nb2[k]? = some ref) ∧
        (∀ k ref, i ≤ k → k < size2 → nb2[k]? = some ref → (w.cells ref).isSome = true) := by
  intro fuel
  induction fuel with
  | zero =>
    intro nb i size s hi hs hf
    have hnot : ¬ i < size := by omega
    refine ⟨nb, size, s, by simp [neighbor_ecn_loop, hnot], rfl, hi, le_refl _,
      fun _ _ => rfl, fun _ hx => hx, ?_, ?_⟩
    · intro j ref h1 h2; omega
    · intro k ref h1 h2; omega
  | succ fuel ih =>
    intro nb i size s hi hs hf
    by_cases hlt : i < size
    · have hil : i < nb.length := by omega
      have hget : nb[i]? = some nb[i] := List.getElem?_eq_getElem hil
      cases hc : w.cells nb[i] with
      | some cptc =>
        -- live reference: `++i`
        have hstep : ∀ s', ∃ nb2 size2 s2,
            neighbor_ecn_loop w fuel nb (i + 1) size s' = Except.ok (nb2, size2, s2) ∧
            nb2.length = nb.length ∧ i + 1 ≤ size2 ∧ size2 ≤ size ∧
            (∀ j, j < i + 1 → nb2[j]? = nb[j]?) ∧
            (∀ x, x ∈ nb2 → x ∈ nb) ∧
            (∀ j ref, i + 1 ≤ j → j < size → nb[j]? = some ref →
              (w.cells ref).isSome = true → ∃ k, i + 1 ≤ k ∧ k < size2 ∧ nb2[k]? = some ref) ∧
            (∀ k ref, i + 1 ≤ k → k < size2 → nb2[k]? = some ref →
              (w.cells ref).isSome = true) :=
          fun s' => ih nb (i + 1) size s' (by omega) hs (by omega)
        have hfin : ∀ s', neighbor_ecn_loop w (fuel + 1) nb i size s =
            neighbor_ecn_loop w fuel nb (i + 1) size s' →
            ∃ nb2 size2 s2, neighbor_ecn_loop w (fuel + 1) nb i size s =
              Except.ok (nb2, size2, s2) ∧
            nb2.length = nb.length ∧ i ≤ size2 ∧ size2 ≤ size ∧
            (∀ j, j < i → nb2[j]? = nb[j]?) ∧
            (∀ x, x ∈ nb2 → x ∈ nb) ∧
            (∀ j ref, i ≤ j → j < size → nb[j]? = some ref → (w.cells ref).isSome = true →
              ∃ k, i ≤ k ∧ k < size2 ∧ nb2[k]? = some ref) ∧
            (∀ k ref, i ≤ k → k < size2 → nb2[k]? = some ref →
              (w.cells ref).isSome = true) := by
          intro s' heq
          obtain ⟨nb2, size2, s2, hr, hl, h1, h2, h3, h4, h5, h6⟩ := hstep s'
          refine ⟨nb2, size2, s2, by rw [heq, hr], hl, by omega, h2,
            fun j hj => h3 j (by omega), h4, ?_, ?_⟩
          · intro j ref hj1 hj2 hj3 hj4
            by_cases hji : j = i
            · subst hji
              exact ⟨j, le_refl _, by omega, by rw [h3 j (by omega)]; exact hj3⟩
            · obtain ⟨k, hk1, hk2, hk3⟩ := h5 j ref (by omega) hj2 hj3 hj4
              exact ⟨k, by omega, hk2, hk3⟩
          · intro k ref hk1 hk2 hk3
            by_cases hki : k = i
            · subst hki
              rw [h3 k (by omega), hget] at hk3
              injection hk3 with hk3
              rw [← hk3, hc]; rfl
            · exact h6 k ref (by omega) hk2 hk3
        cases he : (w.pools cptc.pool).ecn with
        | some e0 =>
          exact hfin (ptr_set_insert e0 s) (by simp [neighbor_ecn_loop, hlt, hget, hc, he])
        | none =>
          exact hfin s (by simp [neighbor_ecn_loop, hlt, hget, hc, he])
      | none =>
        -- stale reference: overwrite with the last entry, `size = size - 1`
        have hlast : size - 1 < nb.length := by omega
        have hgl : nb[size - 1]? = some nb[size - 1] := List.getElem?_eq_getElem hlast
        obtain ⟨nb2, size2, s2, hr, hl, h1, h2, h3, h4, h5, h6⟩ :=
          ih (nb.set i nb[size - 1]) i (size - 1) s (by omega)
            (by rw [List.length_set]; omega) (by omega)
        refine ⟨nb2, size2, s2, by simp [neighbor_ecn_loop, hlt, hget, hc, hgl, hr],
          by rw [hl, List.length_set], h1, by omega, ?_, ?_, ?_, h6⟩
        · intro j hj
          rw [h3 j hj, List.getElem?_set_ne (by omega)]
        · intro x hx
          rcases List.mem_or_eq_of_mem_set (h4 x hx) with h | h
          · exact h
          · rw [h]; exact List.getElem_mem _
        · intro j ref hj1 hj2 hj3 hj4
          have hji : j ≠ i := by
            intro hji
            subst hji
            rw [hget] at hj3
            injection hj3 with hj3
            rw [← hj3, hc] at hj4
            cases hj4
          by_cases hjl : j = size - 1
          · subst hjl
            exact h5 i ref (le_refl _) (by omega)
              (by rw [List.getElem?_set_self hil, ← hgl]; exact hj3) hj4
          · exact h5 j ref hj1 (by omega)
              (by rw [List.getElem?_set_ne (Ne.symm hji)]; exact hj3) hj4
    · refine ⟨nb, size, s, by simp [neighbor_ecn_loop, hlt], rfl, hi, le_refl _,
        fun _ _ => rfl, fun _ hx => hx, ?_, ?_⟩
      · intro j ref h1 h2; omega
      · intro k ref h1 h2; omega

/-- The method `neighbor_ecn` as a whole: the loop returns a vector `nb1` of the old
length and a bound `size2` inside it, the closing `erase` removes position `size2` when
it is inside the vector, and the list left in the pool consists of entries of the old
list and contains every live one of them. -/
theorem neighbor_ecn_full (pid : Nat) (w : World) :
    ∃ (ecns nb1 : List Nat) (size2 : Nat),
      neighbor_ecn_loop w (w.pools pid).neighbors.length (w.pools pid).neighbors 0
        (w.pools pid).neighbors.length [] = Except.ok (nb1, size2, ecns) ∧
      nb1.length = (w.pools pid).neighbors.length ∧ size2 ≤ nb1.length ∧
      AliasPool.neighbor_ecn pid w = Except.ok (ecns, set_pool w pid
        { w.pools pid with
          neighbors := if size2 < nb1.length then nb1.eraseIdx size2 else nb1 }) ∧
      ecns.Nodup ∧
      (∀ e, e ∈ ecns ↔ ∃ ref, ref ∈ (w.pools pid).neighbors ∧ neighbor_node w ref = some e) ∧
      (∀ x, x ∈ (if size2 < nb1.length then nb1.eraseIdx size2 else nb1) →
        x ∈ (w.pools pid).neighbors) ∧
      (∀ x, x ∈ (w.pools pid).neighbors → (w.cells x).isSome = true →
        x ∈ (if size2 < nb1.length then nb1.eraseIdx size2 else nb1)) ∧
      (∀ k ref, k < size2 → nb1[k]? = some ref → (w.cells ref).isSome = true) := by
  obtain ⟨nb1, size2, s2, hr, hl, _, h2, _, h4, h5, h6⟩ :=
    neighbor_ecn_loop_list w (w.pools pid).neighbors.length (w.pools pid).neighbors 0
      (w.pools pid).neighbors.length [] (Nat.zero_le _) (le_refl _) (by omega)
  obtain ⟨nb1', size2', s2', hr', _, _, hnd, hmem⟩ :=
    neighbor_ecn_loop_spec w (w.pools pid).neighbors.length (w.pools pid).neighbors 0
      (w.pools pid).neighbors.length [] (Nat.zero_le _) (le_refl _) (by omega)
  rw [hr] at hr'
  injection hr' with hr'
  injection hr' with e1 e2
  injection e2 with e2 e3
  subst e1 e2 e3
  have hmem2 : ∀ e, e ∈ s2 ↔ ∃ ref, ref ∈ (w.pools pid).neighbors ∧
      neighbor_node w ref = some e := by
    intro e
    rw [hmem]
    constructor
    · rintro (h | ⟨j, ref, _, _, h3, h4⟩)
      · simp at h
      · exact ⟨ref, List.getElem?_mem h3, h4⟩
    · rintro ⟨ref, h1, h2⟩
      obtain ⟨j, hj, hjj⟩ := List.getElem_of_mem h1
      exact Or.inr ⟨j, ref, Nat.zero_le _, hj, by rw [List.getElem?_eq_getElem hj, hjj], h2⟩
  refine ⟨s2, nb1, size2, hr, hl, by omega, ?_, hnd List.nodup_nil, hmem2, ?_, ?_, ?_⟩
  · unfold AliasPool.neighbor_ecn
    simp only [hr]
    split_ifs <;> rfl
  · intro x hx
    split_ifs at hx
    · exact h4 x (List.mem_of_mem_eraseIdx hx)
    · exact h4 x hx
  · intro x hx hlive
    obtain ⟨j, hj, hjj⟩ := List.getElem_of_mem hx
    obtain ⟨k, _, hk2, hk3⟩ := h5 j x (Nat.zero_le _) hj
      (by rw [List.getElem?_eq_getElem hj, hjj]) hlive
    split_ifs
    · rw [List.mem_eraseIdx_iff_getElem?]
      exact ⟨k, by omega, hk3⟩
    · exact List.getElem?_mem hk3
  · intro k ref hk hk2
    exact h6 k ref (Nat.zero_le _) hk hk2

/-- C12: `neighbor_ecn()` returns on every pool, and the returned set holds exactly the
merged cost nodes of the live neighbours: a node is in the set if and only if some
neighbour reference that is still live belongs to a pool whose merged cost node is
that node.  The set has no repetition. -/
theorem neighbor_ecn_returns_live_neighbor_nodes (pid : Nat) (w : World) :
    ∃ ecns w2, AliasPool.neighbor_ecn pid w = Except.ok (ecns, w2) ∧ ecns.Nodup ∧
      (∀ n, n ∈ ecns ↔ ∃ ref cptc, ref ∈ (w.pools pid).neighbors ∧
        w.cells ref = some cptc ∧ (w.pools cptc.pool).ecn = some n) := by
  obtain ⟨ecns, nb2, hne, hnd, hmem⟩ := neighbor_ecn_spec pid w
  refine ⟨ecns, _, hne, hnd, ?_⟩
  intro n
  rw [hmem]
  constructor
  · rintro ⟨ref, h1, h2⟩
    unfold neighbor_node at h2
    cases hc : w.cells ref with
    | none => simp [hc] at h2
    | some cptc =>
      simp only [hc] at h2
      exact ⟨ref, cptc, h1, hc, h2⟩
  · rintro ⟨ref, cptc, h1, h2, h3⟩
    exact ⟨ref, h1, by simp [neighbor_node, h2, h3]⟩

/-- C13 at two failing inputs.  With neighbour references `[0, 1, 2]`, of which 1 and 2
are stale, `neighbor_ecn()` leaves `[0, 2]`: the stale reference 2 stays.  With
`[0, 3, 5, 1]`, of which 3 and 5 are stale, it leaves `[0, 1, 1]`: the live reference 1,
held once before, is held twice. -/
theorem neighbor_ecn_leaves_stale_reference :
    stale_world.cells 1 = none ∧ stale_world.cells 2 = none ∧
    (∃ ecns w2, AliasPool.neighbor_ecn 0 stale_world = Except.ok (ecns, w2) ∧
      (w2.pools 0).neighbors = [0, 2]) ∧
    moved_world.cells 3 = none ∧ moved_world.cells 5 = none ∧
    (moved_world.cells 1).isSome = true ∧
    (∃ ecns w2, AliasPool.neighbor_ecn 0 moved_world = Except.ok (ecns, w2) ∧
      (w2.pools 0).neighbors = [0, 1, 1]) :=
  ⟨rfl, rfl, ⟨_, _, rfl, rfl⟩, rfl, rfl, rfl, ⟨_, _, rfl, rfl⟩⟩

/-- C20: on every neighbour list the loop of `neighbor_ecn()`, whose vector accesses are
checked against the bounds in this embedding, returns without a fault; it keeps the
length of the vector and ends with `size ≤ neighbors.size()`; the closing `erase` is
performed exactly when `size < neighbors.size()`, at position `size`, and then shortens
the list by one; the method itself returns without a fault.  The loop is free of faults
from every state with `i ≤ size ≤ neighbors.size()`. -/
theorem neighbor_ecn_index_safe (pid : Nat) (w : World) :
    (∀ (fuel : Nat) (nb : List Nat) (i size : Nat) (s : List Nat),
      i ≤ size → size ≤ nb.length → size - i ≤ fuel →
      ∃ nb2 size2 s2, neighbor_ecn_loop w fuel nb i size s = Except.ok (nb2, size2, s2) ∧
        nb2.length = nb.length ∧ size2 ≤ nb2.length) ∧
    ∃ (ecns nb1 : List Nat) (size2 : Nat) (w2 : World),
      neighbor_ecn_loop w (w.pools pid).neighbors.length (w.pools pid).neighbors 0
        (w.pools pid).neighbors.length [] = Except.ok (nb1, size2, ecns) ∧
      nb1.length = (w.pools pid).neighbors.length ∧ size2 ≤ nb1.length ∧
      AliasPool.neighbor_ecn pid w = Except.ok (ecns, w2) ∧
      (size2 < nb1.length → (w2.pools pid).neighbors = nb1.eraseIdx size2 ∧
        (w2.pools pid).neighbors.length + 1 = (w.pools pid).neighbors.length) ∧
      (¬ size2 < nb1.length → (w2.pools pid).neighbors = nb1) := by
  obtain ⟨ecns, nb1, size2, hr, hl, hs, hne, _, _, _, _, _⟩ := neighbor_ecn_full pid w
  refine ⟨?_, ecns, nb1, size2, _, hr, hl, hs, hne, ?_, ?_⟩
  · intro fuel nb i size s h1 h2 h3
    obtain ⟨nb2, size2, s2, hr, hl, _, hle, _⟩ := neighbor_ecn_loop_list w fuel nb i size s h1 h2 h3
    exact ⟨nb2, size2, s2, hr, hl, by omega⟩
  · intro hlt
    simp only [set_pool_same, if_pos hlt]
    refine ⟨trivial, ?_⟩
    rw [List.length_eraseIdx_of_lt hlt, ← hl]
    omega
  · intro hlt
    simp only [set_pool_same, if_neg hlt]

/-! ## Merging is associative and commutative in the cost: claim C14 -/

theorem three_heap_wf : three_heap.wf := by
  refine ⟨?_, fun i => i, ?_⟩ <;> intro i p hp <;> simp [three_heap] at hp

/-- C14: `merge_cpi` is associative and commutative in `compute_cost`; and in a
well-formed cost store, when the cost nodes `a`, `b`, `c` of three pools lie in three
different classes, merging them pairwise as `merge(merge(a, b), c)` or as
`merge(a, merge(b, c))` leaves all three nodes with one representative whose cost is the
sum of the three costs. -/
theorem merge_is_associative_commutative_in_cost :
    (∀ a b c : CheckpointInfo, (merge_cpi (merge_cpi a b) c).compute_cost =
      (merge_cpi a (merge_cpi b c)).compute_cost) ∧
    (∀ a b : CheckpointInfo, (merge_cpi a b).compute_cost = (merge_cpi b a).compute_cost) ∧
    (∀ (h : EcnHeap) (a b c : Nat), h.wf → a < h.next → b < h.next → c < h.next →
      find_root h a ≠ find_root h b → find_root h b ≠ find_root h c →
      find_root h a ≠ find_root h c →
      ∀ x, x = a ∨ x = b ∨ x = c →
        (get_t (merge merge_cpi (merge merge_cpi h a b) a c) x).compute_cost =
          (get_t h a).compute_cost + (get_t h b).compute_cost + (get_t h c).compute_cost ∧
        (get_t (merge merge_cpi (merge merge_cpi h b c) a b) x).compute_cost =
          (get_t h a).compute_cost + (get_t h b).compute_cost + (get_t h c).compute_cost ∧
        find_root (merge merge_cpi (merge merge_cpi h a b) a c) x =
          find_root (merge merge_cpi (merge merge_cpi h a b) a c) a ∧
        find_root (merge merge_cpi (merge merge_cpi h b c) a b) x =
          find_root (merge merge_cpi (merge merge_cpi h b c) a b) a) := by
  refine ⟨?_, ?_, ?_⟩
  · intro a b c; simp only [merge_cpi]; ring
  · intro a b; simp only [merge_cpi]; ring
  · intro h a b c hw ha hb hc hab hbc hac
    -- first order: (a, b), then c
    obtain ⟨w1, n1, f1, i1, j1⟩ := merge_spec h hw a b ha hb hab
    have f1a : find_root (merge merge_cpi h a b) a = find_root h b := by rw [f1]; simp
    have f1b : find_root (merge merge_cpi h a b) b = find_root h b := by
      rw [f1, if_neg (Ne.symm hab)]
    have f1c : find_root (merge merge_cpi h a b) c = find_root h c := by
      rw [f1, if_neg (Ne.symm hac)]
    obtain ⟨_, _, f2, i2, _⟩ := merge_spec (merge merge_cpi h a b) w1 a c
      (by rw [n1]; exact ha) (by rw [n1]; exact hc) (by rw [f1a, f1c]; exact hbc)
    have g1 : ∀ x, x = a ∨ x = b ∨ x = c →
        find_root (merge merge_cpi (merge merge_cpi h a b) a c) x = find_root h c := by
      intro x hx
      rw [f2]
      rcases hx with rfl | rfl | rfl
      · simp [f1c]
      · rw [f1b, f1a]; simp [f1c]
      · rw [f1c, f1a, if_neg (Ne.symm hbc)]
    have v1 : ((merge merge_cpi (merge merge_cpi h a b) a c).info (find_root h c)).compute_cost
        = (get_t h a).compute_cost + (get_t h b).compute_cost + (get_t h c).compute_cost := by
      rw [← f1c, i2, f1a, f1c, i1, j1 _ (Ne.symm hbc)]
      simp only [merge_cpi, get_t]
    -- second order: (b, c), then a
    obtain ⟨w1', n1', f1', i1', j1'⟩ := merge_spec h hw b c hb hc hbc
    have f1a' : find_root (merge merge_cpi h b c) a = find_root h a := by
      rw [f1', if_neg hab]
    have f1b' : find_root (merge merge_cpi h b c) b = find_root h c := by rw [f1']; simp
    have f1c' : find_root (merge merge_cpi h b c) c = find_root h c := by
      rw [f1', if_neg (Ne.symm hbc)]
    obtain ⟨_, _, f2', i2', _⟩ := merge_spec (merge merge_cpi h b c) w1' a b
      (by rw [n1']; exact ha) (by rw [n1']; exact hb) (by rw [f1a', f1b']; exact hac)
    have g2 : ∀ x, x = a ∨ x = b ∨ x = c →
        find_root (merge merge_cpi (merge merge_cpi h b c) a b) x = find_root h c := by
      intro x hx
      rw [f2']
      rcases hx with rfl | rfl | rfl
      · simp [f1b']
      · rw [f1b', f1a', if_neg (Ne.symm hac)]
      · rw [f1c', f1a', if_neg (Ne.symm hac)]
    have v2 : ((merge merge_cpi (merge merge_cpi h b c) a b).info (find_root h c)).compute_cost
        = (get_t h a).compute_cost + (get_t h b).compute_cost + (get_t h c).compute_cost := by
      rw [← f1b', i2', f1a', f1b', i1', j1' _ hac]
      simp only [merge_cpi, get_t]
      ring
    intro x hx
    refine ⟨?_, ?_, ?_, ?_⟩
    · unfold get_t
      rw [g1 x hx]; exact v1
    · unfold get_t
      rw [g2 x hx]; exact v2
    · rw [g1 x hx, g1 a (Or.inl rfl)]
    · rw [g2 x hx, g2 a (Or.inl rfl)]

/-- An instance: the three nodes of `three_heap`, with costs 2, 3 and 4. -/
theorem merge_is_associative_commutative_in_cost_witness :
    ∀ x, x = 0 ∨ x = 1 ∨ x = 2 →
      (get_t (merge merge_cpi (merge merge_cpi three_heap 0 1) 0 2) x).compute_cost =
        (get_t three_heap 0).compute_cost + (get_t three_heap 1).compute_cost +
          (get_t three_heap 2).compute_cost ∧
      (get_t (merge merge_cpi (merge merge_cpi three_heap 1 2) 0 1) x).compute_cost =
        (get_t three_heap 0).compute_cost + (get_t three_heap 1).compute_cost +
          (get_t three_heap 2).compute_cost ∧
      find_root (merge merge_cpi (merge merge_cpi three_heap 0 1) 0 2) x =
        find_root (merge merge_cpi (merge merge_cpi three_heap 0 1) 0 2) 0 ∧
      find_root (merge merge_cpi (merge merge_cpi three_heap 1 2) 0 1) x =
        find_root (merge merge_cpi (merge merge_cpi three_heap 1 2) 0 1) 0 :=
  merge_is_associative_commutative_in_cost.2.2 three_heap 0 1 2 three_heap_wf
    (by decide) (by decide) (by decide) (by decide) (by decide) (by decide)

/-! ## Reachable worlds and teardown: claims C16 and C18 -/

theorem evict_force_spec (pid : Nat) (w : World) :
    ∃ w2, AliasPool.evict pid 2 w = Except.ok w2 ∧ w2.heap = w.heap ∧
      w2.pools = (fun i => if i = pid then { w.pools pid with is_evicted := true }
        else w.pools i) ∧
      w2.events = w.events ++
        Event.evict_enter pid 2 :: (live_tensors w pid).map Event.cell_evict ∧
      w2.during_backward = w.during_backward := by
  obtain ⟨c1, c2, c3, c4, _⟩ := evict_cells_spec (w.pools pid).tensors
    (set_pool (emit w (Event.evict_enter pid 2)) pid { w.pools pid with is_evicted := true })
  refine ⟨_, evict_force_eq pid w, ?_, ?_, ?_, ?_⟩
  · rw [c1]; rfl
  · rw [c2]; rfl
  · rw [c4]; simp [set_pool, emit, live_tensors]
  · rw [c3]; rfl

theorem evict_without_head (pid : Nat) (mode : Int) (w : World) (hmode : mode ≠ 2)
    (hh : (w.pools pid).head_remat = none) :
    AliasPool.evict pid mode w = Except.error Fault.null_deref := by
  simp only [AliasPool.evict]
  rw [if_pos hmode]
  have : evict_ecn pid (emit w (Event.evict_enter pid mode)) =
      Except.error Fault.null_deref := by
    unfold evict_ecn
    have h2 : ((emit w (Event.evict_enter pid mode)).pools pid).head_remat = none := hh
    rw [h2]
  rw [this]

theorem evict_settles (pid : Nat) (mode : Int) (w w2 : World)
    (hev : AliasPool.evict pid mode w = Except.ok w2) :
    (∀ q, q ≠ pid → w2.pools q = w.pools q) ∧
      (w2.pools pid).head_remat = (w.pools pid).head_remat ∧
      (w2.pools pid).is_evicted = true ∧
      (mode ≠ 2 → (w2.pools pid).ecn ≠ none) ∧
      (mode = 2 → (w2.pools pid).ecn = (w.pools pid).ecn) := by
  by_cases hm : mode = 2
  · subst hm
    obtain ⟨w3, h3, _, hp, _, _⟩ := evict_force_spec pid w
    rw [h3] at hev
    injection hev with hev
    subst hev
    refine ⟨?_, ?_, ?_, ?_, ?_⟩
    · intro q hq; simp [hp, hq]
    · simp [hp]
    · simp [hp]
    · intro h; exact absurd rfl h
    · intro _; simp [hp]
  · cases hh : (w.pools pid).head_remat with
    | none =>
      rw [evict_without_head pid mode w hm hh] at hev
      cases hev
    | some r =>
      obtain ⟨ecns, nb2, w3, h3, _, hp, _⟩ := evict_spec pid mode w r hm hh
      rw [h3] at hev
      injection hev with hev
      subst hev
      refine ⟨?_, ?_, ?_, ?_, ?_⟩
      · intro q hq; simp [hp, hq]
      · simp [hp, hh]
      · simp [hp]
      · intro _; simp [hp]
      · intro h; exact absurd h hm

theorem set_not_evicted_settles (fl : BuildFlags) (pid : Nat) (w w2 : World)
    (h : AliasPool.set_not_evicted fl pid w = Except.ok w2) :
    (∀ q, q ≠ pid → w2.pools q = w.pools q) ∧
      ((w2.pools pid).is_evicted = false ∨ w2.pools pid = w.pools pid) := by
  unfold AliasPool.set_not_evicted at h
  by_cases he : (w.pools pid).is_evicted = true
  · rw [if_pos he] at h
    simp only [set_pool_same] at h
    cases hecn : (w.pools pid).ecn with
    | none =>
      simp only [hecn] at h
      by_cases hm : fl.MULTI_MODE = true
      · simp only [hm, if_true] at h
        injection h with h
        subst h
        refine ⟨?_, ?_⟩
        · intro q hq; simp [emit, set_pool, hq]
        · left; simp [emit, set_pool]
      · simp only [hm, if_false] at h
        injection h with h
        subst h
        refine ⟨?_, ?_⟩
        · intro q hq; simp [emit, set_pool, hq]
        · left; simp [emit, set_pool]
    | some e =>
      simp only [hecn] at h
      cases hh : (w.pools pid).head_remat with
      | none => simp only [hh] at h; cases h
      | some r =>
        simp only [hh] at h
        by_cases hm : fl.MULTI_MODE = true
        · simp only [hm, if_true] at h
          injection h with h
          subst h
          refine ⟨?_, ?_⟩
          · intro q hq; simp [emit, set_pool, hq]
          · left; simp [emit, set_pool]
        · simp only [hm, if_false] at h
          injection h with h
          subst h
          refine ⟨?_, ?_⟩
          · intro q hq; simp [emit, set_pool, hq]
          · left; simp [emit, set_pool]
  · rw [if_neg he] at h
    injection h with h
    subst h
    exact ⟨fun _ _ => rfl, Or.inr rfl⟩

theorem unlock_settles (fl : BuildFlags) (pid : Nat) (w w2 : World)
    (h : AliasPool.unlock fl pid w = Except.ok w2) (q : Nat)
    (hq : evicted_is_settled (w.pools q)) : evicted_is_settled (w2.pools q) := by
  by_cases ht : unlock_triggers fl (w.pools pid) w.during_backward
  · rw [unlock_of_triggers fl pid w ht] at h
    obtain ⟨h1, h2, h3, h4, _⟩ := evict_settles pid 1 _ w2 h
    by_cases hqp : q = pid
    · subst hqp
      intro _
      exact Or.inl (h4 (by decide))
    · rw [h1 q hqp]
      simpa [set_pool, hqp] using hq
  · rw [unlock_of_not_triggers fl pid w ht] at h
    injection h with h
    subst h
    by_cases hqp : q = pid
    · subst hqp
      simpa [set_pool, evicted_is_settled, unlock_dec] using hq
    · simpa [set_pool, hqp] using hq

theorem release_external_settles (pid : Nat) (w w2 : World)
    (h : AliasPool.release_external pid w = Except.ok w2) (q : Nat)
    (hq : evicted_is_settled (w.pools q)) : evicted_is_settled (w2.pools q) := by
  by_cases ht : release_triggers (w.pools pid)
  · rw [release_external_of_triggers pid w ht] at h
    obtain ⟨h1, h2, h3, h4, _⟩ := evict_settles pid 1 _ w2 h
    by_cases hqp : q = pid
    · subst hqp
      intro _
      exact Or.inl (h4 (by decide))
    · rw [h1 q hqp]
      simpa [set_pool, hqp] using hq
  · rw [release_external_of_not_triggers pid w ht] at h
    injection h with h
    subst h
    by_cases hqp : q = pid
    · subst hqp
      simpa [set_pool, evicted_is_settled, release_dec] using hq
    · simpa [set_pool, hqp] using hq

theorem release_resources_spec (pid : Nat) (w : World) :
    ∃ w2, AliasPool.release_resources pid w = Except.ok w2 ∧ w2.heap = w.heap ∧
      w2.pools = (fun i => if i = pid then
        { w.pools pid with is_evicted := true, tensors := [], neighbors := [],
                           head_remat := none }
        else w.pools i) ∧
      w2.events = w.events ++ (if (w.pools pid).is_evicted = false then
        Event.evict_enter pid 2 :: (live_tensors w pid).map Event.cell_evict else []) ∧
      w2.during_backward = w.during_backward := by
  unfold AliasPool.release_resources
  by_cases he : (w.pools pid).is_evicted = false
  · obtain ⟨w3, h3, hheap, hp, hev, hdb⟩ := evict_force_spec pid w
    rw [if_pos he, h3]
    refine ⟨_, rfl, hheap, ?_, ?_, hdb⟩
    · funext i
      by_cases hi : i = pid
      · subst hi; simp [set_pool, hp]
      · simp [set_pool, hp, hi]
    · rw [if_pos he]; exact hev
  · rw [if_neg he]
    have he2 : (w.pools pid).is_evicted = true := by simpa using he
    refine ⟨_, rfl, rfl, ?_, ?_, rfl⟩
    · funext i
      by_cases hi : i = pid
      · subst hi
        simp only [set_pool, if_true]
        rw [← he2]
      · simp [set_pool, hi]
    · rw [if_neg he]; simp [set_pool]

theorem reachable_settled (fl : BuildFlags) (w : World) (hr : Reachable fl w) :
    ∀ q, evicted_is_settled (w.pools q) := by
  induction hr with
  | fresh w h =>
    intro q hq
    rw [(h q).1] at hq
    cases hq
  | evict w w2 pid mode _ hmode _ _ _ _ hev ih =>
    intro q
    obtain ⟨h1, _, _, h4, _⟩ := evict_settles pid mode w w2 hev
    by_cases hqp : q = pid
    · subst hqp
      intro _
      refine Or.inl (h4 ?_)
      rcases hmode with hm | hm <;> subst hm <;> decide
    · rw [h1 q hqp]; exact ih q
  | set_not_evicted w w2 pid _ h ih =>
    intro q
    obtain ⟨h1, h2⟩ := set_not_evicted_settles fl pid w w2 h
    by_cases hqp : q = pid
    · subst hqp
      rcases h2 with h2 | h2
      · intro hq; rw [h2] at hq; cases hq
      · rw [h2]; exact ih q
    · rw [h1 q hqp]; exact ih q
  | unlock w w2 pid _ h ih => exact fun q => unlock_settles fl pid w w2 h q (ih q)
  | release_external w w2 pid _ h ih =>
    exact fun q => release_external_settles pid w w2 h q (ih q)
  | release_resources w w2 pid _ h ih =>
    intro q
    obtain ⟨w3, h3, _, hp, _⟩ := release_resources_spec pid w
    rw [h3] at h
    injection h with h
    subst h
    by_cases hqp : q = pid
    · subst hqp
      intro _
      right
      simp [hp]
    · simpa [hp, hqp] using ih q
  | other w w2 _ h ih =>
    intro q hq
    obtain ⟨h1, h2, h3⟩ := h q
    rw [h1] at hq
    rw [h2, h3]
    exact ih q hq

theorem auto_evict_on_resident (pid : Nat) (w w2 : World) (p : AliasPool)
    (hs : evicted_is_settled (w.pools pid)) (hg : can_evict_now (w.pools pid))
    (hp : can_evict_now p ↔ can_evict_now (w.pools pid))
    (h : AliasPool.evict pid 1 (set_pool w pid p) = Except.ok w2) :
    ∀ q m, evicted_in q m w w2 → q = pid ∧ m = 1 ∧ (w.pools pid).is_evicted = false := by
  have hg2 : can_evict_now p := hp.mpr hg
  obtain ⟨r, hr⟩ := Option.isSome_iff_exists.mp hg2.2.2
  obtain ⟨ecns, nb2, w3, hev, _, _, _, hevents, _⟩ :=
    evict_spec pid 1 (set_pool w pid p) r (by decide) (by simpa [set_pool] using hr)
  rw [hev] at h
  injection h with h
  subst h
  intro q m hqm
  unfold evicted_in at hqm
  rw [new_events_append w w3 _ hevents] at hqm
  simp at hqm
  refine ⟨hqm.1, hqm.2, ?_⟩
  cases he : (w.pools pid).is_evicted with
  | false => rfl
  | true =>
    rcases hs he with h1 | h1
    · exact absurd hg.2.1 h1
    · have := hg.2.2
      rw [h1] at this
      cases this

/-- C16: in every world reachable from freshly constructed pools through `evict` (soft
or destruct mode, preconditions satisfied), `set_not_evicted`, `unlock`,
`release_external` and `release_resources`, every evicted pool holds a merged cost node
or has no head descriptor; hence `unlock()` and `release_external()` on any pool return,
and whenever one of them enters `evict`, it does so on its own pool, in mode 1, and the
`is_evicted` flag of that pool was false at the call. -/
theorem automatic_paths_skip_evicted_pools (fl : BuildFlags) (w : World)
    (hr : Reachable fl w) (pid : Nat) :
    ((w.pools pid).is_evicted = true →
        (w.pools pid).ecn ≠ none ∨ (w.pools pid).head_remat = none) ∧
      (∃ w2, AliasPool.unlock fl pid w = Except.ok w2 ∧
        ∀ q m, evicted_in q m w w2 → q = pid ∧ m = 1 ∧ (w.pools pid).is_evicted = false) ∧
      (∃ w2, AliasPool.release_external pid w = Except.ok w2 ∧
        ∀ q m, evicted_in q m w w2 →
          q = pid ∧ m = 1 ∧ (w.pools pid).is_evicted = false) := by
  have hs := reachable_settled fl w hr pid
  refine ⟨hs, ?_, ?_⟩
  · by_cases ht : unlock_triggers fl (w.pools pid) w.during_backward
    · have hg : can_evict_now (w.pools pid) := ht.2.2
      obtain ⟨w2, h2, _⟩ := evict_guarded pid (set_pool w pid (unlock_dec fl (w.pools pid)))
        (by simpa [set_pool, can_evict_now_unlock_dec] using hg)
      rw [unlock_of_triggers fl pid w ht]
      exact ⟨w2, h2, auto_evict_on_resident pid w w2 _ hs hg
        (can_evict_now_unlock_dec fl (w.pools pid)) h2⟩
    · rw [unlock_of_not_triggers fl pid w ht]
      refine ⟨_, rfl, ?_⟩
      intro q m hqm
      simp [evicted_in, new_events, set_pool] at hqm
  · by_cases ht : release_triggers (w.pools pid)
    · have hg : can_evict_now (w.pools pid) := ht.2.2.2
      have hp : can_evict_now (release_dec (w.pools pid)) ↔ can_evict_now (w.pools pid) := by
        simp [can_evict_now, release_dec]
      obtain ⟨w2, h2, _⟩ := evict_guarded pid (set_pool w pid (release_dec (w.pools pid)))
        (by simpa [set_pool, hp] using hg)
      rw [release_external_of_triggers pid w ht]
      exact ⟨w2, h2, auto_evict_on_resident pid w w2 _ hs hg hp h2⟩
    · rw [release_external_of_not_triggers pid w ht]
      refine ⟨_, rfl, ?_⟩
      intro q m hqm
      simp [evicted_in, new_events, set_pool] at hqm

theorem held_world_fresh (fl : BuildFlags) : Reachable fl held_world :=
  Reachable.fresh held_world (by
    intro q
    by_cases hq : q = 0 <;>
      simp [freshly_constructed, held_world, sample_world, sample_pool, blank_pool, hq])

theorem evicted_held_world_reachable (fl : BuildFlags) : Reachable fl evicted_held_world :=
  Reachable.evict held_world evicted_held_world 0 0 (held_world_fresh fl) (Or.inl rfl)
    rfl (by decide) rfl rfl rfl

/-- An instance at a reachable world with an evicted pool: `evicted_held_world` is reached
from freshly constructed pools by a soft eviction of pool 0, which is then evicted, holds
a cost node and a head descriptor and has one external holder left.  There `unlock()`
and `release_external()` return, and releasing the last holder, which evicts the pool
when it is resident, calls nothing. -/
theorem automatic_paths_skip_evicted_pools_witness :
    Reachable (BuildFlags.mk false false false) evicted_held_world ∧
      (evicted_held_world.pools 0).is_evicted = true ∧
      (evicted_held_world.pools 0).ecn = some 0 ∧
      (evicted_held_world.pools 0).head_remat = some (Rematerializer.mk 5) ∧
      (evicted_held_world.pools 0).external_count = 1 ∧
      (evicted_held_world.pools 0).lock_count = 0 ∧
      (∃ w2, AliasPool.release_external 0 held_world = Except.ok w2 ∧
        evicted_in 0 1 held_world w2) ∧
      (∃ w2, AliasPool.release_external 0 evicted_held_world = Except.ok w2 ∧
        new_events evicted_held_world w2 = []) ∧
      (((evicted_held_world.pools 0).is_evicted = true →
          (evicted_held_world.pools 0).ecn ≠ none ∨
            (evicted_held_world.pools 0).head_remat = none) ∧
        (∃ w2, AliasPool.unlock (BuildFlags.mk false false false) 0 evicted_held_world =
            Except.ok w2 ∧
          ∀ q m, evicted_in q m evicted_held_world w2 →
            q = 0 ∧ m = 1 ∧ (evicted_held_world.pools 0).is_evicted = false) ∧
        (∃ w2, AliasPool.release_external 0 evicted_held_world = Except.ok w2 ∧
          ∀ q m, evicted_in q m evicted_held_world w2 →
            q = 0 ∧ m = 1 ∧ (evicted_held_world.pools 0).is_evicted = false)) :=
  ⟨evicted_held_world_reachable (BuildFlags.mk false false false), rfl, rfl, rfl, rfl, rfl,
    ⟨_, rfl, List.mem_cons_self _ _⟩, ⟨_, rfl, rfl⟩,
    automatic_paths_skip_evicted_pools (BuildFlags.mk false false false) evicted_held_world
      (evicted_held_world_reachable (BuildFlags.mk false false false)) 0⟩

theorem auto_call_without_head (fl : BuildFlags) (pid : Nat) (w : World)
    (hh : (w.pools pid).head_remat = none) :
    AliasPool.unlock fl pid w = Except.ok (set_pool w pid (unlock_dec fl (w.pools pid))) ∧
      AliasPool.release_external pid w =
        Except.ok (set_pool w pid (release_dec (w.pools pid))) := by
  have hg : ¬ can_evict_now (w.pools pid) := by
    intro h
    have := h.2.2
    rw [hh] at this
    cases this
  exact ⟨unlock_of_not_triggers fl pid w (fun h => hg h.2.2),
    release_external_of_not_triggers pid w (fun h => hg h.2.2.2)⟩

theorem run_auto_without_head (fl : BuildFlags) (pid : Nat) :
    ∀ (calls : List AutoCall) (w : World), (w.pools pid).head_remat = none →
      ∃ w3, run_auto fl pid calls w = Except.ok w3 ∧ w3.events = w.events ∧
        (w3.pools pid).head_remat = none ∧
        (w3.pools pid).is_evicted = (w.pools pid).is_evicted ∧
        (w3.pools pid).tensors = (w.pools pid).tensors ∧
        (w3.pools pid).neighbors = (w.pools pid).neighbors := by
  intro calls
  induction calls with
  | nil => intro w hh; exact ⟨w, rfl, rfl, hh, rfl, rfl, rfl⟩
  | cons c cs ih =>
    intro w hh
    obtain ⟨h1, h2⟩ := auto_call_without_head fl pid w hh
    cases c with
    | unlock =>
      obtain ⟨w3, e1, e2, e3, e4, e5, e6⟩ :=
        ih (set_pool w pid (unlock_dec fl (w.pools pid)))
          (by simpa [set_pool, unlock_dec] using hh)
      refine ⟨w3, ?_, ?_, e3, ?_, ?_, ?_⟩
      · simp only [run_auto, h1]; exact e1
      · rw [e2]; rfl
      · rw [e4]; simp [set_pool, unlock_dec]
      · rw [e5]; simp [set_pool, unlock_dec]
      · rw [e6]; simp [set_pool, unlock_dec]
    | release_external =>
      obtain ⟨w3, e1, e2, e3, e4, e5, e6⟩ :=
        ih (set_pool w pid (release_dec (w.pools pid)))
          (by simpa [set_pool, release_dec] using hh)
      refine ⟨w3, ?_, ?_, e3, ?_, ?_, ?_⟩
      · simp only [run_auto, h2]; exact e1
      · rw [e2]; rfl
      · rw [e4]; simp [set_pool, release_dec]
      · rw [e5]; simp [set_pool, release_dec]
      · rw [e6]; simp [set_pool, release_dec]

/-- C18: `release_resources()` returns on every pool; afterwards `is_evicted` is true,
the member and neighbour lists are empty and `head_remat` is null, while the cost store,
the pool's cost node and every other pool are as before.  `evict` is entered exactly
when the pool was resident, on this pool and in mode 2, and then `cell->evict()` is
called on each live member.  After the teardown every sequence of `unlock()` and
`release_external()` calls on the pool returns without any outgoing call (so without
eviction) and leaves the pool torn down; more generally no such call evicts as long as
the head descriptor is null. -/
theorem release_resources_tears_down (fl : BuildFlags) (pid : Nat) (w : World) :
    ∃ w2, AliasPool.release_resources pid w = Except.ok w2 ∧
      (w2.pools pid).is_evicted = true ∧ (w2.pools pid).tensors = [] ∧
      (w2.pools pid).neighbors = [] ∧ (w2.pools pid).head_remat = none ∧
      (w2.pools pid).ecn = (w.pools pid).ecn ∧ w2.heap = w.heap ∧
      (∀ q, q ≠ pid → w2.pools q = w.pools q) ∧
      (evicted_in pid 2 w w2 ↔ (w.pools pid).is_evicted = false) ∧
      (∀ q m, evicted_in q m w w2 → q = pid ∧ m = 2) ∧
      ((w.pools pid).is_evicted = false → new_events w w2 =
        Event.evict_enter pid 2 :: (live_tensors w pid).map Event.cell_evict) ∧
      ((w.pools pid).is_evicted = true → new_events w w2 = []) ∧
      (∀ calls : List AutoCall, ∃ w3, run_auto fl pid calls w2 = Except.ok w3 ∧
        new_events w2 w3 = [] ∧ (∀ q m, ¬ evicted_in q m w2 w3) ∧
        (w3.pools pid).is_evicted = true ∧ (w3.pools pid).tensors = [] ∧
        (w3.pools pid).neighbors = [] ∧ (w3.pools pid).head_remat = none) ∧
      (∀ w3 : World, (w3.pools pid).head_remat = none →
        (∃ w4, AliasPool.unlock fl pid w3 = Except.ok w4 ∧ new_events w3 w4 = [] ∧
          (w4.pools pid).head_remat = none) ∧
        (∃ w4, AliasPool.release_external pid w3 = Except.ok w4 ∧ new_events w3 w4 = [] ∧
          (w4.pools pid).head_remat = none)) := by
  obtain ⟨w2, h2, hheap, hp, hev, _⟩ := release_resources_spec pid w
  have hnew : new_events w w2 = (if (w.pools pid).is_evicted = false then
      Event.evict_enter pid 2 :: (live_tensors w pid).map Event.cell_evict else []) :=
    new_events_append w w2 _ hev
  have hhead : (w2.pools pid).head_remat = none := by simp [hp]
  refine ⟨w2, h2, by simp [hp], by simp [hp], by simp [hp], hhead, by simp [hp], hheap,
    ?_, ?_, ?_, ?_, ?_, ?_, ?_⟩
  · intro q hq; simp [hp, hq]
  · unfold evicted_in
    rw [hnew]
    by_cases he : (w.pools pid).is_evicted = false
    · simp [he]
    · simp [he]
  · intro q m hqm
    unfold evicted_in at hqm
    rw [hnew] at hqm
    by_cases he : (w.pools pid).is_evicted = false
    · rw [if_pos he] at hqm
      simp at hqm
      exact hqm
    · rw [if_neg he] at hqm
      simp at hqm
  · intro he; rw [hnew, if_pos he]
  · intro he; rw [hnew, if_neg (by simp [he])]
  · intro calls
    obtain ⟨w3, e1, e2, e3, e4, e5, e6⟩ := run_auto_without_head fl pid calls w2 hhead
    have hn : new_events w2 w3 = [] := by simp [new_events, e2]
    refine ⟨w3, e1, hn, ?_, ?_, ?_, ?_, e3⟩
    · intro q m hqm
      unfold evicted_in at hqm
      rw [hn] at hqm
      simp at hqm
    · rw [e4]; simp [hp]
    · rw [e5]; simp [hp]
    · rw [e6]; simp [hp]
  · intro w3 hh
    obtain ⟨h1, h2⟩ := auto_call_without_head fl pid w3 hh
    refine ⟨⟨_, h1, ?_, ?_⟩, ⟨_, h2, ?_, ?_⟩⟩
    · simp [new_events, set_pool]
    · simpa [set_pool, unlock_dec] using hh
    · simp [new_events, set_pool]
    · simpa [set_pool, release_dec] using hh

/-! ## Cost classes reached through several nodes: claim C17 -/

theorem sum_by_class (L : List Nat) (hL : L.Nodup) (f : Nat → Nat) (g : Nat → Int) :
    (L.map (fun n => g (f n))).sum =
      (((L.map f).dedup).map
        (fun c => ((L.filter (fun n => f n = c)).length : Int) * g c)).sum := by
  rw [sum_dedup_eq_finset_sum, ← List.sum_toFinset _ hL]
  have himg : (L.map f).toFinset = L.toFinset.image f := by
    ext x; simp
  rw [himg, ← Finset.sum_fiberwise_of_maps_to
    (fun x hx => Finset.mem_image_of_mem f hx) (fun n => g (f n))]
  apply Finset.sum_congr rfl
  intro c _
  have hcard : (L.filter (fun n => f n = c)).length =
      (L.toFinset.filter (fun n => f n = c)).card := by
    rw [← List.toFinset_card_of_nodup (hL.filter _), List.toFinset_filter]
    congr 1
    ext x
    simp
  rw [hcard, Finset.sum_congr rfl (fun x hx => by rw [(Finset.mem_filter.mp hx).2]),
    Finset.sum_const, nsmul_eq_mul]

/-- C17, as worded, fails when two live neighbours hold different cost nodes of one
class.  In `chain_world` the neighbours of pool 0 hold the nodes 0, 1 and 2; nodes 0 and
1 are in one class (cost 7), node 2 is alone (cost 3), the head costs 5.  Counting each
class once gives 15; `cost` scores 22, the class of nodes 0 and 1 being added twice. -/
theorem cost_counts_merged_class_per_node :
    neighbor_nodes chain_world 0 = [0, 1, 2] ∧
    find_root chain_world.heap 0 = find_root chain_world.heap 1 ∧
    cost_total_per_class chain_world 0 (Rematerializer.mk 5) = 15 ∧
    ∃ w1, AliasPool.cost (BuildFlags.mk false false false)
        (fun cpi _ _ => cpi.compute_cost) 0 0 10 chain_world = Except.ok (22, w1) :=
  ⟨by decide, by decide, by decide, _, rfl⟩

/-- C17 (amended): on a pool with a head descriptor the total compute cost scored by
`cost` is the head cost plus, for each cost class of the live neighbours, the class cost
times the number of distinct cost nodes through which the neighbours reach the class.
Every class is counted at least once; a node shared by several neighbours is one node,
and when every class is reached through a single node the total is the head cost plus
each class cost once. -/
theorem cost_counts_class_once_per_node (α : Type) (fl : BuildFlags)
    (cpi_cost : CheckpointInfo → Nat → Int → α) (get_dependency : Int) (pid : Nat)
    (current_time : Int) (w : World) (r : Rematerializer)
    (hhead : (w.pools pid).head_remat = some r) :
    (∃ w1, AliasPool.cost fl cpi_cost get_dependency pid current_time w =
      Except.ok (cpi_cost
        (CheckpointInfo.mk (r.compute_cost +
          ((neighbor_classes w pid).map
            (fun c => (class_nodes w pid c : Int) * (w.heap.info c).compute_cost)).sum))
        (w.pools pid).memory
        (cost_staleness fl get_dependency current_time (w.pools pid)), w1)) ∧
      (∀ c, c ∈ neighbor_classes w pid → 1 ≤ class_nodes w pid c) ∧
      (∀ c, class_nodes w pid c =
        ((neighbor_nodes w pid).dedup.filter (fun n => find_root w.heap n = c)).length) ∧
      ((∀ c, c ∈ neighbor_classes w pid → class_nodes w pid c = 1) →
        r.compute_cost + ((neighbor_classes w pid).map
            (fun c => (class_nodes w pid c : Int) * (w.heap.info c).compute_cost)).sum =
          cost_total_per_class w pid r) := by
  have hperm : (neighbor_classes w pid).Perm
      (((neighbor_nodes w pid).dedup.map (find_root w.heap)).dedup) := by
    apply (List.perm_ext_iff_of_nodup (List.nodup_dedup _) (List.nodup_dedup _)).mpr
    intro a
    simp [neighbor_classes]
  have hsum : ((neighbor_nodes w pid).dedup.map (fun n => (get_t w.heap n).compute_cost)).sum =
      ((neighbor_classes w pid).map
        (fun c => (class_nodes w pid c : Int) * (w.heap.info c).compute_cost)).sum := by
    have h1 := sum_by_class (neighbor_nodes w pid).dedup (List.nodup_dedup _)
      (find_root w.heap) (fun c => (w.heap.info c).compute_cost)
    have h2 : ((neighbor_nodes w pid).dedup.map (fun n => (get_t w.heap n).compute_cost)) =
        ((neighbor_nodes w pid).dedup.map
          (fun n => (w.heap.info (find_root w.heap n)).compute_cost)) := rfl
    rw [h2, h1]
    exact ((hperm.map _).sum_eq).symm
  obtain ⟨nb2, hc⟩ := cost_eq α fl cpi_cost get_dependency pid current_time w r hhead
  have hpos : ∀ c, c ∈ neighbor_classes w pid → 1 ≤ class_nodes w pid c := by
    intro c hcm
    simp only [neighbor_classes, List.mem_dedup, List.mem_map] at hcm
    obtain ⟨n, hn, hnc⟩ := hcm
    unfold class_nodes
    apply List.length_pos_of_mem (a := n)
    simp [List.mem_filter, hn, hnc]
  refine ⟨⟨set_pool w pid { w.pools pid with neighbors := nb2 }, ?_⟩, hpos,
    fun c => rfl, ?_⟩
  · rw [hc, cost_total, hsum]
  · intro hone
    unfold cost_total_per_class neighbor_class_cost
    congr 1
    apply congrArg List.sum
    apply List.map_congr_left
    intro c hcm
    rw [hone c hcm]
    simp

/-- An instance: the score of pool 0 of `chain_world` at time 10, with a scoring
function that returns its three arguments. -/
theorem cost_counts_class_once_per_node_witness :
    (chain_world.pools 0).head_remat = some (Rematerializer.mk 5) ∧
    ((∃ w1, AliasPool.cost (BuildFlags.mk false false false)
        (fun cpi memory elapsed => (cpi.compute_cost, memory, elapsed)) 0 0 10 chain_world =
      Except.ok ((fun (cpi : CheckpointInfo) (memory : Nat) (elapsed : Int) =>
          (cpi.compute_cost, memory, elapsed))
        (CheckpointInfo.mk ((Rematerializer.mk 5).compute_cost +
          ((neighbor_classes chain_world 0).map
            (fun c => (class_nodes chain_world 0 c : Int) *
              (chain_world.heap.info c).compute_cost)).sum))
        (chain_world.pools 0).memory
        (cost_staleness (BuildFlags.mk false false false) 0 10 (chain_world.pools 0)),
        w1)) ∧
      (∀ c, c ∈ neighbor_classes chain_world 0 → 1 ≤ class_nodes chain_world 0 c) ∧
      (∀ c, class_nodes chain_world 0 c =
        ((neighbor_nodes chain_world 0).dedup.filter
          (fun n => find_root chain_world.heap n = c)).length) ∧
      ((∀ c, c ∈ neighbor_classes chain_world 0 → class_nodes chain_world 0 c = 1) →
        (Rematerializer.mk 5).compute_cost + ((neighbor_classes chain_world 0).map
            (fun c => (class_nodes chain_world 0 c : Int) *
              (chain_world.heap.info c).compute_cost)).sum =
          cost_total_per_class chain_world 0 (Rematerializer.mk 5))) :=
  ⟨rfl, cost_counts_class_once_per_node (Int × Nat × Int) (BuildFlags.mk false false false)
    (fun cpi memory elapsed => (cpi.compute_cost, memory, elapsed)) 0 0 10 chain_world
    (Rematerializer.mk 5) rfl⟩

/-! ## `cost` as a query: claim C19 -/

theorem cost_eq_pruned (α : Type) (fl : BuildFlags) (cpi_cost : CheckpointInfo → Nat → Int → α)
    (get_dependency : Int) (pid : Nat) (current_time : Int) (w : World) (r : Rematerializer)
    (hhead : (w.pools pid).head_remat = some r) :
    ∃ nb2, AliasPool.cost fl cpi_cost get_dependency pid current_time w =
        Except.ok (cpi_cost (CheckpointInfo.mk (cost_total w pid r)) (w.pools pid).memory
            (cost_staleness fl get_dependency current_time (w.pools pid)),
          set_pool w pid { w.pools pid with neighbors := nb2 }) ∧
      (∀ x, x ∈ nb2 → x ∈ (w.pools pid).neighbors) ∧
      (∀ x, x ∈ (w.pools pid).neighbors → (w.cells x).isSome = true → x ∈ nb2) := by
  obtain ⟨ecns, nb1, size2, _, _, _, hne, hnd, hmem, hsub, hlive, _⟩ := neighbor_ecn_full pid w
  have hperm : ecns.Perm (neighbor_nodes w pid).dedup := by
    apply (List.perm_ext_iff_of_nodup hnd (List.nodup_dedup _)).mpr
    intro a
    rw [hmem, List.mem_dedup, mem_neighbor_nodes]
  have hsum : (ecns.map (fun n => (get_t w.heap n).compute_cost)).sum =
      ((neighbor_nodes w pid).dedup.map (fun n => (get_t w.heap n).compute_cost)).sum :=
    (hperm.map _).sum_eq
  refine ⟨_, ?_, hsub, hlive⟩
  unfold AliasPool.cost
  rw [hhead]
  dsimp only
  rw [hne]
  dsimp only
  have hheap : (set_pool w pid { w.pools pid with
      neighbors := if size2 < nb1.length then nb1.eraseIdx size2 else nb1 }).heap = w.heap := rfl
  rw [hheap, merge_cpi_foldl, hsum]
  simp only [set_pool_same, cost_staleness, cost_total, Rematerializer.get_cpi]
  split_ifs <;> rfl

theorem cost_total_pruned (w : World) (pid : Nat) (r : Rematerializer) (nb2 : List Nat)
    (hsub : ∀ x, x ∈ nb2 → x ∈ (w.pools pid).neighbors)
    (hlive : ∀ x, x ∈ (w.pools pid).neighbors → (w.cells x).isSome = true → x ∈ nb2) :
    cost_total (set_pool w pid { w.pools pid with neighbors := nb2 }) pid r =
      cost_total w pid r := by
  have hnode : ∀ ref, neighbor_node (set_pool w pid { w.pools pid with neighbors := nb2 }) ref =
      neighbor_node w ref := by
    intro ref
    unfold neighbor_node
    have hc : (set_pool w pid { w.pools pid with neighbors := nb2 }).cells ref = w.cells ref := rfl
    rw [hc]
    cases w.cells ref with
    | none => rfl
    | some cptc =>
      by_cases hp : cptc.pool = pid
      · simp [set_pool, hp]
      · simp [set_pool, hp]
  have hperm : (neighbor_nodes (set_pool w pid { w.pools pid with neighbors := nb2 }) pid).dedup.Perm
      (neighbor_nodes w pid).dedup := by
    apply (List.perm_ext_iff_of_nodup (List.nodup_dedup _) (List.nodup_dedup _)).mpr
    intro n
    rw [List.mem_dedup, List.mem_dedup, mem_neighbor_nodes, mem_neighbor_nodes]
    simp only [set_pool_same, hnode]
    constructor
    · rintro ⟨ref, h1, h2⟩
      exact ⟨ref, hsub ref h1, h2⟩
    · rintro ⟨ref, h1, h2⟩
      refine ⟨ref, hlive ref h1 ?_, h2⟩
      unfold neighbor_node at h2
      cases hcell : w.cells ref with
      | none => simp [hcell] at h2
      | some c => rfl
  unfold cost_total
  have hheap : (set_pool w pid { w.pools pid with neighbors := nb2 }).heap = w.heap := rfl
  rw [hheap, (hperm.map _).sum_eq]

/-- C19: on a pool with a head descriptor `cost(current_time)` returns a score and
changes nothing but the pool's neighbour list: `is_evicted`, `memory`,
`last_used_time`, the counters, the pool's cost node, its head descriptor and members,
every other pool, the cost store (so the accumulated cost read through any node), the
cells, the outgoing calls and the backward flag are as before.  The new neighbour list
holds only references of the old one and keeps every live one, and a second call with
the same `current_time` returns the same score. -/
theorem cost_leaves_eviction_state (α : Type) (fl : BuildFlags)
    (cpi_cost : CheckpointInfo → Nat → Int → α) (get_dependency : Int) (pid : Nat)
    (current_time : Int) (w : World) (r : Rematerializer)
    (hhead : (w.pools pid).head_remat = some r) :
    ∃ (score : α) (w1 : World) (nb2 : List Nat),
      AliasPool.cost fl cpi_cost get_dependency pid current_time w = Except.ok (score, w1) ∧
      w1 = set_pool w pid { w.pools pid with neighbors := nb2 } ∧
      (w1.pools pid).is_evicted = (w.pools pid).is_evicted ∧
      (w1.pools pid).memory = (w.pools pid).memory ∧
      (w1.pools pid).last_used_time = (w.pools pid).last_used_time ∧
      (w1.pools pid).lock_count = (w.pools pid).lock_count ∧
      (w1.pools pid).external_count = (w.pools pid).external_count ∧
      (w1.pools pid).remat_count = (w.pools pid).remat_count ∧
      (w1.pools pid).retain_count = (w.pools pid).retain_count ∧
      (w1.pools pid).ecn = (w.pools pid).ecn ∧
      (w1.pools pid).head_remat = (w.pools pid).head_remat ∧
      (w1.pools pid).tensors = (w.pools pid).tensors ∧
      (∀ q, q ≠ pid → w1.pools q = w.pools q) ∧
      w1.heap = w.heap ∧ (∀ n, get_t w1.heap n = get_t w.heap n) ∧
      w1.cells = w.cells ∧ new_events w w1 = [] ∧
      w1.during_backward = w.during_backward ∧
      (∀ x, x ∈ nb2 → x ∈ (w.pools pid).neighbors) ∧
      (∀ x, x ∈ (w.pools pid).neighbors → (w.cells x).isSome = true → x ∈ nb2) ∧
      ∃ w2, AliasPool.cost fl cpi_cost get_dependency pid current_time w1 =
        Except.ok (score, w2) := by
  obtain ⟨nb2, hc, hsub, hlive⟩ :=
    cost_eq_pruned α fl cpi_cost get_dependency pid current_time w r hhead
  obtain ⟨nb3, hc3⟩ := cost_eq α fl cpi_cost get_dependency pid current_time
    (set_pool w pid { w.pools pid with neighbors := nb2 }) r
    (by simpa [set_pool] using hhead)
  have hc4 : AliasPool.cost fl cpi_cost get_dependency pid current_time
      (set_pool w pid { w.pools pid with neighbors := nb2 }) =
      Except.ok (cpi_cost (CheckpointInfo.mk (cost_total w pid r)) (w.pools pid).memory
          (cost_staleness fl get_dependency current_time (w.pools pid)),
        set_pool (set_pool w pid { w.pools pid with neighbors := nb2 }) pid
          { (set_pool w pid { w.pools pid with neighbors := nb2 }).pools pid with
            neighbors := nb3 }) := by
    rw [hc3, cost_total_pruned w pid r nb2 hsub hlive]
    simp [set_pool, cost_staleness]
  refine ⟨_, _, nb2, hc, rfl, ?_, ?_, ?_, ?_, ?_, ?_, ?_, ?_, ?_, ?_, ?_, rfl, fun _ => rfl,
    rfl, ?_, rfl, hsub, hlive, ⟨_, hc4⟩⟩
  any_goals simp [set_pool]
  · intro q hq h; exact absurd h hq
  · simp [new_events]

/-- An instance: two consecutive scorings of pool 0 of `chain_world`, which has a dead
neighbour reference, at time 10. -/
theorem cost_leaves_eviction_state_witness :
    (chain_world.pools 0).head_remat = some (Rematerializer.mk 5) ∧
    ∃ w1 w2, AliasPool.cost (BuildFlags.mk false false false)
        (fun cpi memory elapsed => (cpi.compute_cost, memory, elapsed)) 0 0 10 chain_world =
        Except.ok ((22, 4, 10), w1) ∧
      (w1.pools 0).neighbors = [0, 1, 2] ∧
      AliasPool.cost (BuildFlags.mk false false false)
        (fun cpi memory elapsed => (cpi.compute_cost, memory, elapsed)) 0 0 10 w1 =
        Except.ok ((22, 4, 10), w2) := by
  obtain ⟨score, w1, nb2, h1, _, _, _, _, _, _, _, _, _, _, _, _, _, _, _, _, _, _, _, w2, h2⟩ :=
    cost_leaves_eviction_state (Int × Nat × Int) (BuildFlags.mk false false false)
      (fun cpi memory elapsed => (cpi.compute_cost, memory, elapsed)) 0 0 10 chain_world
      (Rematerializer.mk 5) rfl
  have e : AliasPool.cost (BuildFlags.mk false false false)
      (fun cpi memory elapsed => (cpi.compute_cost, memory, elapsed)) 0 0 10 chain_world =
      Except.ok ((22, 4, 10), set_pool chain_world 0
        { chain_world.pools 0 with neighbors := [0, 1, 2] }) := rfl
  rw [e] at h1
  injection h1 with h1
  injection h1 with hs hw
  subst hs hw
  exact ⟨rfl, _, w2, e, rfl, h2⟩

/-! ## The round trip of eviction and `get()`: claim C15 -/

theorem set_not_evicted_total (fl : BuildFlags) (pid : Nat) (w : World)
    (hinv : ((w.pools pid).ecn).isSome = true → ((w.pools pid).head_remat).isSome = true) :
    ∃ w2, AliasPool.set_not_evicted fl pid w = Except.ok w2 ∧ w2.cells = w.cells ∧
      (∀ q, q ≠ pid → w2.pools q = w.pools q) ∧
      (w2.pools pid).is_evicted = false ∧
      (w2.pools pid).head_remat = (w.pools pid).head_remat ∧
      ((w2.pools pid).ecn = none ∨ (w2.pools pid).ecn = (w.pools pid).ecn) := by
  unfold AliasPool.set_not_evicted
  by_cases he : (w.pools pid).is_evicted = true
  · rw [if_pos he]
    simp only [set_pool_same]
    cases hecn : (w.pools pid).ecn with
    | none =>
      by_cases hm : fl.MULTI_MODE = true
      · simp only [hm, if_true]
        exact ⟨_, rfl, rfl, fun q hq => by simp [emit, set_pool, hq],
          by simp [emit, set_pool], by simp [emit, set_pool],
          Or.inl (by simp [emit, set_pool, hecn])⟩
      · simp only [hm, if_false]
        exact ⟨_, rfl, rfl, fun q hq => by simp [emit, set_pool, hq],
          by simp [emit, set_pool], by simp [emit, set_pool],
          Or.inl (by simp [emit, set_pool, hecn])⟩
    | some e =>
      rw [hecn] at hinv
      obtain ⟨r, hr⟩ := Option.isSome_iff_exists.mp (hinv rfl)
      simp only [hr]
      by_cases hm : fl.MULTI_MODE = true
      · simp only [hm, if_true]
        exact ⟨_, rfl, rfl, fun q hq => by simp [emit, set_pool, hq],
          by simp [emit, set_pool], by simp [emit, set_pool, hr],
          Or.inl (by simp [emit, set_pool])⟩
      · simp only [hm, if_false]
        exact ⟨_, rfl, rfl, fun q hq => by simp [emit, set_pool, hq],
          by simp [emit, set_pool], by simp [emit, set_pool, hr],
          Or.inl (by simp [emit, set_pool])⟩
  · rw [if_neg he]
    exact ⟨w, rfl, rfl, fun _ _ => rfl, by simpa using he, rfl, Or.inr rfl⟩

theorem refills_refl (rt : Runtime) : rt.refills rt :=
  ⟨rfl, fun _ => rfl, fun _ => rfl, fun _ _ h => h⟩

theorem refills_trans (rt rt1 rt2 : Runtime) (h1 : rt.refills rt1) (h2 : rt1.refills rt2) :
    rt.refills rt2 :=
  ⟨h2.recompute_eq.trans h1.recompute_eq,
    fun x => (h2.alive_eq x).trans (h1.alive_eq x),
    fun x => (h2.pool_eq x).trans (h1.pool_eq x),
    fun x b h => h2.bytes_kept x b (h1.bytes_kept x b h)⟩

theorem force_inputs_spec (get : Nat → Runtime → Except Fault (Nat × Runtime))
    (val rank : Nat → Nat) (P : Nat → Prop)
    (hget : ∀ (i : Nat) (rt : Runtime), P i → rt.consistent val rank →
      (rt.world.cells i).isSome = true →
      ∃ rt2, get i rt = Except.ok (val i, rt2) ∧ rt2.consistent val rank ∧ rt.refills rt2) :
    ∀ (l : List Nat) (rt : Runtime), rt.consistent val rank → (∀ i, i ∈ l → P i) →
      (∀ i, i ∈ l → (rt.world.cells i).isSome = true) →
      ∃ rt2, force_inputs get l rt = Except.ok (l.map val, rt2) ∧
        rt2.consistent val rank ∧ rt.refills rt2 := by
  intro l
  induction l with
  | nil => intro rt hc _ _; exact ⟨rt, rfl, hc, refills_refl rt⟩
  | cons i rest ih =>
    intro rt hc hP hal
    obtain ⟨rt1, g1, c1, r1⟩ :=
      hget i rt (hP i (List.mem_cons_self _ _)) hc (hal i (List.mem_cons_self _ _))
    obtain ⟨rt2, g2, c2, r2⟩ := ih rt1 c1 (fun j hj => hP j (List.mem_cons_of_mem _ hj))
      (fun j hj => by rw [r1.alive_eq j]; exact hal j (List.mem_cons_of_mem _ hj))
    refine ⟨rt2, ?_, c2, refills_trans rt rt1 rt2 r1 r2⟩
    simp only [force_inputs, g1, g2, List.map_cons]

theorem get_spec (fl : BuildFlags) (val rank : Nat → Nat) :
    ∀ (fuel c : Nat) (rt : Runtime), rt.consistent val rank →
      (rt.world.cells c).isSome = true → rank c < fuel →
      ∃ rt2, CheckpointTensorCell.get fl fuel c rt = Except.ok (val c, rt2) ∧
        rt2.consistent val rank ∧ rt.refills rt2 ∧ rt2.bytes c = some (val c) ∧
        (rt.bytes c = none → ∃ cell2, rt2.world.cells c = some cell2 ∧
          cell2.defined = true ∧ (rt2.world.pools cell2.pool).is_evicted = false) := by
  intro fuel
  induction fuel with
  | zero => intro c rt _ _ h; exact absurd h (Nat.not_lt_zero _)
  | succ fuel ih =>
    intro c rt hc hal hrank
    obtain ⟨cell, hcell⟩ := Option.isSome_iff_exists.mp hal
    cases hb : rt.bytes c with
    | some b =>
      have hbv : b = val c := hc.bytes_recorded c b hb
      subst hbv
      refine ⟨rt, ?_, hc, refills_refl rt, hb, ?_⟩
      · simp only [CheckpointTensorCell.get, hcell, hb]
      · intro h; cases h
    | none =>
      obtain ⟨d, hd⟩ := Option.isSome_iff_exists.mp (hc.evicted_has_recipe c hal hb)
      obtain ⟨rt1, g1, c1, r1⟩ := force_inputs_spec (CheckpointTensorCell.get fl fuel)
        val rank (fun i => rank i < fuel)
        (fun i rt0 hP h0 ha => by
          obtain ⟨rt2, e1, e2, e3, _⟩ := ih i rt0 h0 ha hP
          exact ⟨rt2, e1, e2, e3⟩)
        d.inputs rt hc
        (fun i hi => by have := hc.acyclic c d hd i hi; omega)
        (hc.inputs_alive c d hd)
      obtain ⟨w2, s1, s2, s3, s4, s5, s6⟩ :=
        set_not_evicted_total fl cell.pool rt1.world (c1.node_has_head cell.pool)
      have hval : d.operation (d.inputs.map val) = val c := hc.replay c d hd
      refine ⟨{ rt1 with
          world := { w2 with
            cells := fun i => if i = c then some { cell with defined := true }
                              else w2.cells i }
          bytes := fun i => if i = c then some (d.operation (d.inputs.map val))
                            else rt1.bytes i }, ?_, ?_, ?_, ?_, ?_⟩
      · simp only [CheckpointTensorCell.get, hcell, hb, hd, g1, s1, hval]
      · constructor
        · intro x b hx
          by_cases hxc : x = c
          · subst hxc
            simp only [if_true] at hx
            injection hx with hx
            rw [← hx, hval]
          · simp only [if_neg hxc] at hx
            exact c1.bytes_recorded x b hx
        · exact c1.replay
        · exact c1.acyclic
        · intro x dx hx i hi
          have := c1.inputs_alive x dx hx i hi
          by_cases hic : i = c
          · simp [hic]
          · simpa [hic, s2] using this
        · intro x hx hbx
          by_cases hxc : x = c
          · subst hxc; simp at hbx
          · simp only [if_neg hxc] at hbx
            refine c1.evicted_has_recipe x ?_ hbx
            simpa [hxc, s2] using hx
        · intro q hq
          by_cases hqp : q = cell.pool
          · subst hqp
            show ((w2.pools cell.pool).head_remat).isSome = true
            have hq2 : ((w2.pools cell.pool).ecn).isSome = true := hq
            rw [s5]
            rcases s6 with s6 | s6
            · rw [s6] at hq2; cases hq2
            · rw [s6] at hq2; exact c1.node_has_head cell.pool hq2
          · have hq2 : ((w2.pools q).ecn).isSome = true := hq
            show ((w2.pools q).head_remat).isSome = true
            rw [s3 q hqp] at hq2 ⊢
            exact c1.node_has_head q hq2
      · constructor
        · exact r1.recompute_eq
        · intro x
          by_cases hxc : x = c
          · subst hxc; simp [hal]
          · simpa [hxc, s2] using r1.alive_eq x
        · intro x
          by_cases hxc : x = c
          · subst hxc; simp [hcell]
          · simpa [hxc, s2] using r1.pool_eq x
        · intro x b hx
          by_cases hxc : x = c
          · subst hxc; rw [hb] at hx; cases hx
          · simpa [hxc] using r1.bytes_kept x b hx
      · simp [hval]
      · intro _
        refine ⟨{ cell with defined := true }, by simp, rfl, ?_⟩
        exact s4

theorem evict_returns (pid : Nat) (mode : Int) (w : World) (r : Rematerializer)
    (hh : (w.pools pid).head_remat = some r) :
    ∃ w2, AliasPool.evict pid mode w = Except.ok w2 ∧
      (∀ c, w2.cells c = if c ∈ (w.pools pid).tensors
        then (w.cells c).map CheckpointTensorCell.evicted else w.cells c) ∧
      (∀ q, q ≠ pid → w2.pools q = w.pools q) ∧
      (w2.pools pid).head_remat = some r ∧ (w2.pools pid).is_evicted = true := by
  by_cases hm : mode = 2
  · subst hm
    obtain ⟨_, _, _, _, c5⟩ := evict_cells_spec (w.pools pid).tensors
      (set_pool (emit w (Event.evict_enter pid 2)) pid { w.pools pid with is_evicted := true })
    obtain ⟨h1, h2, h3, _, _⟩ := evict_settles pid 2 w _ (evict_force_eq pid w)
    exact ⟨_, evict_force_eq pid w, c5, h1, h2.trans hh, h3⟩
  · obtain ⟨ecns, nb2, w2, hev, _, _, hcells, _⟩ := evict_spec pid mode w r hm hh
    obtain ⟨h1, h2, h3, _, _⟩ := evict_settles pid mode w w2 hev
    exact ⟨w2, hev, hcells, h1, h2.trans hh, h3⟩

theorem evict_keeps_consistent (pid : Nat) (mode : Int) (rt : Runtime) (val rank : Nat → Nat)
    (r : Rematerializer) (hc : rt.consistent val rank)
    (hh : (rt.world.pools pid).head_remat = some r)
    (hrec : ∀ m, m ∈ (rt.world.pools pid).tensors → (rt.world.cells m).isSome = true →
      (rt.recompute m).isSome = true) :
    ∃ rt1, Runtime.evict pid mode rt = Except.ok rt1 ∧ rt1.consistent val rank ∧
      rt1.recompute = rt.recompute ∧
      (∀ c, rt1.world.cells c = if c ∈ (rt.world.pools pid).tensors
        then (rt.world.cells c).map CheckpointTensorCell.evicted else rt.world.cells c) ∧
      (∀ c, rt1.bytes c = if c ∈ (rt.world.pools pid).tensors ∧
        (rt.world.cells c).isSome = true then none else rt.bytes c) ∧
      (rt1.world.pools pid).is_evicted = true := by
  obtain ⟨w2, hev, hcells, hp, hhead, hevd⟩ := evict_returns pid mode rt.world r hh
  have halive : ∀ c, (w2.cells c).isSome = (rt.world.cells c).isSome := by
    intro c
    rw [hcells c]
    split_ifs
    · cases rt.world.cells c <;> rfl
    · rfl
  refine ⟨{ rt with
      world := w2
      bytes := fun c =>
        if c ∈ (rt.world.pools pid).tensors ∧ (rt.world.cells c).isSome = true then none
        else rt.bytes c }, ?_, ?_, rfl, hcells, fun _ => rfl, hevd⟩
  · simp only [Runtime.evict, hev]
  · constructor
    · intro c b hb
      by_cases hcm : c ∈ (rt.world.pools pid).tensors ∧ (rt.world.cells c).isSome = true
      · simp only [if_pos hcm] at hb; cases hb
      · simp only [if_neg hcm] at hb
        exact hc.bytes_recorded c b hb
    · exact hc.replay
    · exact hc.acyclic
    · intro c d hd i hi
      show (w2.cells i).isSome = true
      rw [halive i]
      exact hc.inputs_alive c d hd i hi
    · intro c hal hb
      have hal2 : (rt.world.cells c).isSome = true := by rw [← halive c]; exact hal
      by_cases hcm : c ∈ (rt.world.pools pid).tensors ∧ (rt.world.cells c).isSome = true
      · exact hrec c hcm.1 hcm.2
      · simp only [if_neg hcm] at hb
        exact hc.evicted_has_recipe c hal2 hb
    · intro q hq
      by_cases hqp : q = pid
      · subst hqp
        show ((w2.pools q).head_remat).isSome = true
        rw [hhead]; rfl
      · have hq2 : ((w2.pools q).ecn).isSome = true := hq
        show ((w2.pools q).head_remat).isSome = true
        rw [hp q hqp] at hq2 ⊢
        exact hc.node_has_head q hq2

/-- C15: in a runtime state whose bytes are recorded (every materialised cell holds its
recorded value; replaying a descriptor on the recorded values of its inputs gives the
recorded value of its cell; the descriptors are acyclic with live inputs; evicted live
cells have a descriptor; a pool with a cost node has a head descriptor), take a live
materialised member cell `c` of pool `pid`, the pool having a head descriptor and each
of its live members a descriptor.  Then `evict(mode)` on the pool returns, clears the
bytes of `c` and marks the pool evicted, and `uncheckpoint` on the cell afterwards
(that is `get()`, given recursion depth above the rank of the cell) returns exactly the
bytes the cell held before the eviction and leaves the cell materialised with these
bytes, defined, and its pool not evicted. -/
theorem evict_then_get_round_trips (fl : BuildFlags) (rt : Runtime) (val rank : Nat → Nat)
    (pid : Nat) (mode : Int) (c : Nat) (cell : CheckpointTensorCell) (b : Nat)
    (r : Rematerializer) (fuel : Nat)
    (hc : rt.consistent val rank)
    (hcell : rt.world.cells c = some cell) (hpool : cell.pool = pid)
    (hmem : c ∈ (rt.world.pools pid).tensors) (hb : rt.bytes c = some b)
    (hh : (rt.world.pools pid).head_remat = some r)
    (hrec : ∀ m, m ∈ (rt.world.pools pid).tensors → (rt.world.cells m).isSome = true →
      (rt.recompute m).isSome = true)
    (hfuel : rank c < fuel) :
    ∃ rt1 rt2, Runtime.evict pid mode rt = Except.ok rt1 ∧
      rt1.bytes c = none ∧ (rt1.world.pools pid).is_evicted = true ∧
      uncheckpoint (CheckpointTensorCell.get fl fuel) (Tensor.checkpoint c) rt1 =
        Except.ok (b, rt2) ∧
      rt2.bytes c = some b ∧
      (∃ cell2, rt2.world.cells c = some cell2 ∧ cell2.defined = true ∧ cell2.pool = pid) ∧
      (rt2.world.pools pid).is_evicted = false := by
  obtain ⟨rt1, e1, c1, _, hcells, hbytes, hevd⟩ :=
    evict_keeps_consistent pid mode rt val rank r hc hh hrec
  have hb1 : rt1.bytes c = none := by
    rw [hbytes c, if_pos ⟨hmem, by simp [hcell]⟩]
  have hcell1 : rt1.world.cells c = some cell.evicted := by
    rw [hcells c, if_pos hmem, hcell]; rfl
  obtain ⟨rt2, g1, _, g3, g4, g5⟩ :=
    get_spec fl val rank fuel c rt1 c1 (by simp [hcell1]) hfuel
  have hbv : b = val c := hc.bytes_recorded c b hb
  obtain ⟨cell2, k1, k2, k3⟩ := g5 hb1
  have hp2 : cell2.pool = pid := by
    have := g3.pool_eq c
    rw [k1, hcell1] at this
    simp only [Option.map_some', Option.some.injEq] at this
    rw [this]; exact hpool
  refine ⟨rt1, rt2, e1, hb1, hevd, ?_, ?_, ⟨cell2, k1, k2, hp2⟩, ?_⟩
  · rw [hbv]; exact g1
  · rw [hbv]; exact g4
  · rw [← hp2]; exact k3

theorem chain_runtime_consistent : chain_runtime.consistent chain_val chain_rank := by
  constructor
  · intro c b hb
    by_cases h4 : c = 4
    · subst h4
      simp [chain_runtime] at hb
      simp [chain_val, ← hb]
    · simp [chain_runtime, h4] at hb
  · intro c d hd
    by_cases h4 : c = 4
    · subst h4
      simp [chain_runtime] at hd
      subst hd
      simp [chain_val]
    · simp [chain_runtime, h4] at hd
      subst hd
      simp [chain_val, h4]
  · intro c d hd i hi
    by_cases h4 : c = 4
    · subst h4
      simp [chain_runtime] at hd
      subst hd
      simp at hi
      subst hi
      simp [chain_rank]
    · simp [chain_runtime, h4] at hd
      subst hd
      simp at hi
  · intro c d hd i hi
    by_cases h4 : c = 4
    · subst h4
      simp [chain_runtime] at hd
      subst hd
      simp at hi
      subst hi
      rfl
    · simp [chain_runtime, h4] at hd
      subst hd
      simp at hi
  · intro c _ _
    by_cases h4 : c = 4
    · simp [chain_runtime, h4]
    · simp [chain_runtime, h4]
  · intro q hq
    by_cases h0 : q = 0
    · subst h0; simp [chain_runtime, chain_world, sample_pool] at hq
    · by_cases h1 : q = 1
      · subst h1; rfl
      · by_cases h2 : q = 2
        · subst h2; rfl
        · by_cases h3 : q = 3
          · subst h3; rfl
          · simp [chain_runtime, chain_world, blank_pool, h0, h1, h2, h3] at hq

/-- An instance: in `chain_runtime`, destruct-mode eviction of pool 0 followed by
`uncheckpoint` on its member cell 4, whose input cell 0 lies in an evicted pool, gives
back the bytes 9. -/
theorem evict_then_get_round_trips_witness :
    ∃ rt1 rt2, Runtime.evict 0 1 chain_runtime = Except.ok rt1 ∧
      rt1.bytes 4 = none ∧ (rt1.world.pools 0).is_evicted = true ∧
      uncheckpoint (CheckpointTensorCell.get (BuildFlags.mk false false false) 2)
        (Tensor.checkpoint 4) rt1 = Except.ok (9, rt2) ∧
      rt2.bytes 4 = some 9 ∧
      (∃ cell2, rt2.world.cells 4 = some cell2 ∧ cell2.defined = true ∧ cell2.pool = 0) ∧
      (rt2.world.pools 0).is_evicted = false :=
  evict_then_get_round_trips (BuildFlags.mk false false false) chain_runtime chain_val
    chain_rank 0 1 4 (CheckpointTensorCell.mk 0 true) 9 (Rematerializer.mk 5) 2
    chain_runtime_consistent rfl rfl (by decide) rfl rfl
    (by intro m _ _; by_cases h4 : m = 4 <;> simp [chain_runtime, h4]) (by decide)

end DTB
